import Mathlib

/-! custom-malloc: a shallow embedding of `src/alloc.c`.

The allocator keeps its whole data structure inside the memory it manages, so
the embedding works on a byte-addressed memory.  Pointers are natural numbers
(`0` is `NULL`), the data model is LP64 little-endian:

* `metadata_t` is 16 bytes: `size` (`unsigned int`) at offset 0, `isUsed`
  (`unsigned char`) at offset 4, `nextFree` (`void *`) at offset 8;
* `size_t` arithmetic wraps modulo `2^64`, `unsigned int` arithmetic modulo
  `2^32`, and a store into a field keeps the low bytes of the value;
* addresses are 64-bit numbers in a flat address space: a pointer moved by a
  `size_t` that the code has not bounded is reduced modulo `2^64`, whereas a
  header address moved by `METADATA_SIZE` and by a size that fits a 32-bit
  field is written as a plain sum (mapped addresses lie far below `2^64`).

Every access to memory is checked against the region `[base, brk)` obtained
from the environment; an access outside of it (a segmentation fault, undefined
behaviour) and a loop that never ends are both the result `none`.
-/

namespace CustomMalloc

/-! ## Byte memory -/

/-- A byte-addressed memory. -/
abbrev Mem := Nat → Nat

/-- Little-endian load of `n` bytes at address `a`. -/
def load (m : Mem) (a : Nat) : Nat → Nat
  | 0 => 0
  | n + 1 => m a % 256 + 256 * load m (a + 1) n

/-- Little-endian store of the low `n` bytes of `v` at address `a`. -/
def store (m : Mem) (a n v : Nat) : Mem :=
  fun x => if a ≤ x ∧ x < a + n then v / 256 ^ (x - a) % 256 else m x

/-- The constant `METADATA_SIZE`, that is `sizeof(metadata_t)` (alloc.c:9, 12-16). -/
def METADATA_SIZE : Nat := 16

/-- The field `size` of the header at `a`. -/
def get_size (m : Mem) (a : Nat) : Nat := load m a 4

/-- The field `isUsed` of the header at `a`. -/
def get_isUsed (m : Mem) (a : Nat) : Nat := load m (a + 4) 1

/-- The field `nextFree` of the header at `a`. -/
def get_nextFree (m : Mem) (a : Nat) : Nat := load m (a + 8) 8

/-! ## Allocator state and environment -/

/-- The globals `startOfHeap` and `free_head` (alloc.c:18-19), the memory, and
the environment: the region `[base, brk)` is mapped, and the program break
cannot be moved beyond `limit`. -/
structure State where
  startOfHeap : Nat
  free_head : Nat
  base : Nat
  brk : Nat
  limit : Nat
  mem : Mem

/-- The state of a process that has not called the allocator yet. -/
def init (base limit : Nat) (mem : Mem) : State :=
  { startOfHeap := 0, free_head := 0, base := base, brk := base, limit := limit, mem := mem }

/-- Modelled from the spec: the environment primitive `sbrk` (libc, not part of
the repository).  For `n < 2^63` it grows the region by `n` bytes and returns
the start of the new span, or fails with `(void *)-1` and changes nothing.  Its
parameter is an `intptr_t`: a `size_t` of `2^63` or more, as `malloc` may pass
(alloc.c:147), is the negative increment `n - 2^64`, which moves the break
down by `2^64 - n` bytes, not below `base`, and returns the former break. -/
def sbrk (s : State) (n : Nat) : Nat × State :=
  if n < 2 ^ 63 then
    if s.brk + n ≤ s.limit then (s.brk, { s with brk := s.brk + n })
    else (2 ^ 64 - 1, s)
  else if s.base + (2 ^ 64 - n) ≤ s.brk then (s.brk, { s with brk := s.brk - (2 ^ 64 - n) })
  else (2 ^ 64 - 1, s)

/-- A checked read of `n` bytes at `a`. -/
def rd (s : State) (a n : Nat) : Option Nat :=
  if s.base ≤ a ∧ a + n ≤ s.brk then some (load s.mem a n) else none

/-- A checked write of the low `n` bytes of `v` at `a`. -/
def wr (s : State) (a n v : Nat) : Option State :=
  if s.base ≤ a ∧ a + n ≤ s.brk then some { s with mem := store s.mem a n v } else none

/-- Subtraction of `size_t` values. -/
def sub64 (a b : Nat) : Nat := (a + (2 ^ 64 - b % 2 ^ 64)) % 2 ^ 64

/-- The header address `ptr - METADATA_SIZE` in a flat 64-bit address space. -/
def hdr_of (ptr : Nat) : Nat := sub64 ptr METADATA_SIZE

/-- Modelled from the spec: `memcpy` (libc); overlapping or unmapped ranges are
a fault. -/
def memcpy (s : State) (dst src n : Nat) : Option State :=
  if n = 0 then some s
  else if s.base ≤ dst ∧ dst + n ≤ s.brk ∧ s.base ≤ src ∧ src + n ≤ s.brk
      ∧ (dst + n ≤ src ∨ src + n ≤ dst) then
    some { s with mem := fun x => if dst ≤ x ∧ x < dst + n then s.mem (src + (x - dst))
                                  else s.mem x }
  else none

/-- Modelled from the spec: `memset` (libc); an unmapped range is a fault. -/
def memset (s : State) (dst c n : Nat) : Option State :=
  if n = 0 then some s
  else if s.base ≤ dst ∧ dst + n ≤ s.brk then
    some { s with mem := fun x => if dst ≤ x ∧ x < dst + n then c % 256 else s.mem x }
  else none

/-! ## `malloc` (alloc.c:98-150) -/

/-- The miss path of `malloc`, lines 143-149: two calls of `sbrk`, neither
checked. -/
def malloc_miss (s : State) (size : Nat) : Option (Nat × State) :=
  let r1 := sbrk s METADATA_SIZE
  let meta := r1.1
  (wr r1.2 meta 4 size).bind fun s1 =>
  (wr s1 (meta + 4) 1 1).bind fun s2 =>
  let r2 := sbrk s2 size
  (wr r2.2 (meta + 8) 8 0).bind fun s3 =>
  some (r2.1, s3)

/-- The hit path of `malloc` on the free block `curr` of size `csz`, with
predecessor `prev` in the free list, lines 112-137. -/
def malloc_hit (s : State) (size curr prev csz : Nat) : Option (Nat × State) :=
  if csz ≥ (size + METADATA_SIZE) % 2 ^ 64 then
    let splitMeta := curr + METADATA_SIZE + size
    (wr s splitMeta 4 (sub64 (sub64 csz size) METADATA_SIZE)).bind fun s1 =>
    (wr s1 (splitMeta + 4) 1 0).bind fun s2 =>
    (rd s2 (curr + 8) 8).bind fun cn =>
    (wr s2 (splitMeta + 8) 8 cn).bind fun s3 =>
    (if prev ≠ 0 then wr s3 (prev + 8) 8 splitMeta else some s3).bind fun s4 =>
    let s5 := if curr = s4.free_head then { s4 with free_head := splitMeta } else s4
    (wr s5 curr 4 size).bind fun s6 =>
    (wr s6 (curr + 4) 1 1).bind fun s7 =>
    (wr s7 (curr + 8) 8 0).bind fun s8 =>
    some (curr + METADATA_SIZE, s8)
  else
    (if prev ≠ 0 then (rd s (curr + 8) 8).bind fun cn => wr s (prev + 8) 8 cn
     else some s).bind fun s1 =>
    (wr s1 (curr + 4) 1 1).bind fun s2 =>
    (wr s2 (curr + 8) 8 0).bind fun s3 =>
    some (curr + METADATA_SIZE, s3)

/-- The first-fit loop of `malloc`, lines 107-141, followed by the miss path. -/
def malloc_loop (size : Nat) : Nat → State → Nat → Nat → Option (Nat × State)
  | 0, _, _, _ => none
  | fuel + 1, s, curr, prev =>
    if curr = 0 then malloc_miss s size
    else
      (rd s curr 4).bind fun csz =>
      if csz ≥ size then malloc_hit s size curr prev csz
      else (rd s (curr + 8) 8).bind fun nxt => malloc_loop size fuel s nxt curr

/-- The number of iterations after which a loop over the free list that has
not written to memory must be revisiting a header, so never ends. -/
def loop_fuel (s : State) : Nat := s.brk - s.base + 1

/-- The function `malloc`: the returned pointer and the new state. -/
def malloc (s : State) (size : Nat) : Option (Nat × State) :=
  let s0 := if s.startOfHeap = 0 then { s with startOfHeap := (sbrk s 0).1 } else s
  malloc_loop size (loop_fuel s0) s0 s0.free_head 0

/-! ## `calloc` (alloc.c:65-74) -/

/-- The function `calloc`. -/
def calloc (s : State) (num size : Nat) : Option (Nat × State) :=
  let total_size := (num * size) % 2 ^ 64
  (malloc s total_size).bind fun r =>
  if r.1 = 0 then some (0, r.2)
  else (memset r.2 r.1 0 total_size).bind fun s1 => some (r.1, s1)

/-! ## `free` (alloc.c:169-229) -/

/-- The body of the loop of `free` once `curFree` ends exactly at `meta`,
lines 198-204. -/
def free_merge_prev (s : State) (meta cur csz : Nat) : Option State :=
  (rd s meta 4).bind fun msz =>
  (wr s cur 4 (csz + (msz + METADATA_SIZE))).bind fun s1 =>
  (rd s1 (cur + 8) 8).bind fun nxt =>
  if nxt = 0 then some s1
  else
    (rd s1 cur 4).bind fun csz1 =>
    if cur + csz1 + METADATA_SIZE = nxt then
      (rd s1 nxt 4).bind fun nsz =>
      (wr s1 cur 4 (csz1 + (nsz + METADATA_SIZE))).bind fun s2 =>
      (rd s2 (cur + 8) 8).bind fun nxt2 =>
      (rd s2 (nxt2 + 8) 8).bind fun nn =>
      wr s2 (cur + 8) 8 nn
    else some s1

/-- The body of the loop of `free` when `meta` lies before `curFree->nextFree`,
lines 209-218. -/
def free_between (s : State) (meta cur nxt : Nat) : Option State :=
  (rd s meta 4).bind fun msz =>
  if meta + msz + METADATA_SIZE = nxt then
    (rd s nxt 4).bind fun nsz =>
    (wr s meta 4 (msz + (nsz + METADATA_SIZE))).bind fun s1 =>
    (rd s1 (cur + 8) 8).bind fun nxt1 =>
    (rd s1 (nxt1 + 8) 8).bind fun nn =>
    (wr s1 (meta + 8) 8 nn).bind fun s2 =>
    wr s2 (cur + 8) 8 meta
  else
    (wr s (meta + 8) 8 nxt).bind fun s1 =>
    wr s1 (cur + 8) 8 meta

/-- The loop of `free` over the free list, lines 194-226. -/
def free_loop (meta : Nat) : Nat → State → Nat → Option State
  | 0, _, _ => none
  | fuel + 1, s, cur =>
    if cur = 0 then some s
    else
      (rd s cur 4).bind fun csz =>
      if cur + csz + METADATA_SIZE = meta then free_merge_prev s meta cur csz
      else
        (rd s (cur + 8) 8).bind fun nxt =>
        if nxt ≠ 0 ∧ meta < nxt then free_between s meta cur nxt
        else if nxt = 0 ∧ cur + csz + METADATA_SIZE < meta then wr s (cur + 8) 8 meta
        else free_loop meta fuel s nxt

/-- The insertion before the head of the free list, lines 183-190. -/
def free_before_head (s : State) (meta : Nat) : Option State :=
  (rd s meta 4).bind fun msz =>
  if meta + msz + METADATA_SIZE = s.free_head then
    (rd s s.free_head 4).bind fun hsz =>
    (wr s meta 4 ((msz + hsz) % 2 ^ 32 + METADATA_SIZE)).bind fun s1 =>
    (rd s1 (s1.free_head + 8) 8).bind fun hn =>
    (wr s1 (meta + 8) 8 hn).bind fun s2 =>
    some { s2 with free_head := meta }
  else
    (wr s (meta + 8) 8 s.free_head).bind fun s1 =>
    some { s1 with free_head := meta }

/-- The function `free`. -/
def free (s : State) (ptr : Nat) : Option State :=
  let meta := hdr_of ptr
  (rd s (meta + 4) 1).bind fun used =>
  if used = 0 then some s
  else
    (wr s (meta + 4) 1 0).bind fun s1 =>
    if s1.free_head = 0 then some { s1 with free_head := meta }
    else if meta < s1.free_head then free_before_head s1 meta
    else free_loop meta (loop_fuel s1) s1 s1.free_head

/-! ## `realloc` (alloc.c:277-346) -/

/-- The fallback of `realloc`, lines 339-345. -/
def realloc_move (s : State) (ptr size p_meta : Nat) : Option (Nat × State) :=
  (malloc s size).bind fun r =>
  if r.1 = 0 then some (0, r.2)
  else
    (rd r.2 p_meta 4).bind fun psz =>
    (memcpy r.2 r.1 ptr psz).bind fun s1 =>
    (free s1 ptr).bind fun s2 =>
    some (r.1, s2)

/-- The body of the loop of `realloc` once the free block `curr` starts where
the block of `ptr` ends, lines 305-333. -/
def realloc_grow (s : State) (ptr size p_meta curr prev psz : Nat) : Option (Nat × State) :=
  (rd s curr 4).bind fun csz =>
  if (psz + csz) % 2 ^ 32 + METADATA_SIZE ≥ (size + METADATA_SIZE) % 2 ^ 64 then
    let split_meta := (p_meta + METADATA_SIZE + size) % 2 ^ 64
    (wr s split_meta 4 ((psz + csz) % 2 ^ 32 + METADATA_SIZE - METADATA_SIZE)).bind fun s1 =>
    (wr s1 (split_meta + 4) 1 0).bind fun s2 =>
    (rd s2 (curr + 8) 8).bind fun cn =>
    (wr s2 (split_meta + 8) 8 cn).bind fun s3 =>
    (if prev ≠ 0 then wr s3 (prev + 8) 8 split_meta else some s3).bind fun s4 =>
    let s5 := if curr = s4.free_head then { s4 with free_head := split_meta } else s4
    (wr s5 p_meta 4 size).bind fun s6 =>
    (wr s6 (p_meta + 4) 1 1).bind fun s7 =>
    (wr s7 (p_meta + 8) 8 0).bind fun s8 =>
    some (ptr, s8)
  else
    (if prev ≠ 0 then (rd s (curr + 8) 8).bind fun cn => wr s (prev + 8) 8 cn
     else some s).bind fun s1 =>
    (wr s1 p_meta 4 size).bind fun s2 =>
    (wr s2 (p_meta + 4) 1 1).bind fun s3 =>
    (wr s3 (p_meta + 8) 8 0).bind fun s4 =>
    some (ptr, s4)

/-- The loop of `realloc` over the free list, lines 297-337, followed by the
fallback. -/
def realloc_loop (ptr size p_meta : Nat) : Nat → State → Nat → Nat → Option (Nat × State)
  | 0, _, _, _ => none
  | fuel + 1, s, curr, prev =>
    if curr = 0 then realloc_move s ptr size p_meta
    else
      (rd s p_meta 4).bind fun psz =>
      if p_meta + METADATA_SIZE + psz < curr then realloc_move s ptr size p_meta
      else if p_meta + METADATA_SIZE + psz = curr then
        realloc_grow s ptr size p_meta curr prev psz
      else (rd s (curr + 8) 8).bind fun nxt => realloc_loop ptr size p_meta fuel s nxt curr

/-- The function `realloc`. -/
def realloc (s : State) (ptr size : Nat) : Option (Nat × State) :=
  if ptr = 0 then malloc s size
  else if size = 0 then (free s ptr).bind fun s1 => some (0, s1)
  else
    let p_meta := hdr_of ptr
    (rd s p_meta 4).bind fun psz =>
    if psz ≥ size then some (ptr, s)
    else realloc_loop ptr size p_meta (loop_fuel s) s s.free_head 0

/-! ## The heap invariant -/

/-- The address from which the heap is walked: `startOfHeap`, or the current
break as long as `malloc` has not set it (alloc.c:99). -/
def heapStart (s : State) : Nat := if s.startOfHeap = 0 then s.brk else s.startOfHeap

/-- Walking from `a` by steps of `METADATA_SIZE + size` visits exactly the
headers `bs` and ends at `e`. -/
def tiles (m : Mem) : Nat → List Nat → Nat → Prop
  | a, [], e => a = e
  | a, b :: bs, e => b = a ∧ tiles m (a + METADATA_SIZE + get_size m a) bs e

/-- Following `nextFree` from `h` visits exactly the headers `l`, none of them
null, and ends at `t`. -/
def chain (m : Mem) : Nat → List Nat → Nat → Prop
  | h, [], t => h = t
  | h, b :: l, t => h = b ∧ b ≠ 0 ∧ chain m (get_nextFree m b) l t

/-- The headers of `bs` whose `isUsed` flag is 0, in address order. -/
def freeBlocks (m : Mem) (bs : List Nat) : List Nat :=
  bs.filter fun b => decide (get_isUsed m b = 0)

instance tiles_dec (m : Mem) : ∀ (bs : List Nat) (a e : Nat), Decidable (tiles m a bs e)
  | [], a, e => inferInstanceAs (Decidable (a = e))
  | b :: bs, a, e => @instDecidableAnd (b = a) _ _ (tiles_dec m bs _ e)

instance chain_dec (m : Mem) : ∀ (l : List Nat) (h t : Nat), Decidable (chain m h l t)
  | [], h, t => inferInstanceAs (Decidable (h = t))
  | b :: l, h, t =>
    @instDecidableAnd (h = b) _ _ (@instDecidableAnd (b ≠ 0) _ _ (chain_dec m l _ t))

/-- A well-formed state: the blocks `bs` tile the heap from its start to the
break; the free list starting at `free_head` is null-terminated and consists
of exactly the free blocks, in address order; no two free blocks are
contiguous; a used block has a null `nextFree`.  The first three fields
describe the environment: `NULL` is not a heap address, the heap lies in the
mapped region, and addresses fit in 64 bits. -/
structure WF (s : State) (bs : List Nat) : Prop where
  base_pos : 0 < s.base
  start_ok : s.base ≤ heapStart s
  limit_ok : s.brk ≤ s.limit ∧ s.limit < 2 ^ 64
  tiled : tiles s.mem (heapStart s) bs s.brk
  flist : chain s.mem s.free_head (freeBlocks s.mem bs) 0
  no_adj : ∀ a ∈ bs, ∀ b ∈ bs, get_isUsed s.mem a = 0 → get_isUsed s.mem b = 0 →
    a + METADATA_SIZE + get_size s.mem a ≠ b
  used_next : ∀ a ∈ bs, get_isUsed s.mem a ≠ 0 → get_nextFree s.mem a = 0

/-- The pointer `p` is live: it is the payload address of a used block. -/
def live (s : State) (bs : List Nat) (p : Nat) : Prop :=
  ∃ b ∈ bs, p = b + METADATA_SIZE ∧ get_isUsed s.mem b ≠ 0

/-- What `free` guarantees when it releases the used block `b` of a well-formed
state `s` with blocks `bs`: the new state `s'` is well formed with blocks
`bs'`, the environment and `startOfHeap` are unchanged, the used blocks are
those of `s` other than `b` with their sizes, every byte of `b` and of a
former free block lies in a free block, and only header bytes were written. -/
structure FreeOk (s s' : State) (bs bs' : List Nat) (b : Nat) : Prop where
  wf : WF s' bs'
  base_eq : s'.base = s.base
  brk_eq : s'.brk = s.brk
  limit_eq : s'.limit = s.limit
  start_eq : s'.startOfHeap = s.startOfHeap
  used_iff : ∀ a, (a ∈ bs' ∧ get_isUsed s'.mem a ≠ 0) ↔
    (a ∈ bs ∧ get_isUsed s.mem a ≠ 0 ∧ a ≠ b)
  used_size : ∀ a ∈ bs, get_isUsed s.mem a ≠ 0 → a ≠ b → get_size s'.mem a = get_size s.mem a
  cover : ∀ z, (∃ f ∈ bs, (f = b ∨ get_isUsed s.mem f = 0) ∧ f ≤ z ∧
      z < f + METADATA_SIZE + get_size s.mem f) →
    ∃ f' ∈ freeBlocks s'.mem bs', f' ≤ z ∧ z < f' + METADATA_SIZE + get_size s'.mem f'
  out : ∀ z, (∀ a ∈ bs, z < a ∨ a + METADATA_SIZE ≤ z) → s'.mem z = s.mem z

/-- The size of the block that `free` of the block `b` leaves fits the
`unsigned int` size field: `b`, joined with the free block that ends where `b`
starts and with the free block that starts where `b` ends, when there are
such, has a payload of less than `2^32` bytes. -/
def fits_field (s : State) (bs : List Nat) (b : Nat) : Prop :=
  ∀ a ∈ bs, ∀ n ∈ bs,
    (a = b ∨ (get_isUsed s.mem a = 0 ∧ a + METADATA_SIZE + get_size s.mem a = b)) →
    (n = b ∨ (get_isUsed s.mem n = 0 ∧ b + METADATA_SIZE + get_size s.mem b = n)) →
    n + get_size s.mem n - a < 2 ^ 32

instance fits_field_dec (s : State) (bs : List Nat) (b : Nat) : Decidable (fits_field s bs b) := by
  unfold fits_field; infer_instance

/-- The accounting of a release: the blocks `x :: rest` of `bs`, which are `b`
and the free blocks contiguous with it, are the one block `x` in `bs'`, whose
size has grown by the size plus `METADATA_SIZE` of each absorbed block; the
other blocks are the same, with the same sizes. -/
def Merged (s s' : State) (bs bs' : List Nat) (b : Nat) : Prop :=
  ∃ pre x rest post, bs = pre ++ x :: (rest ++ post) ∧ bs' = pre ++ x :: post
    ∧ b ∈ x :: rest
    ∧ (∀ a ∈ x :: rest, a = b ∨ get_isUsed s.mem a = 0)
    ∧ get_size s'.mem x
        = get_size s.mem x + (rest.map fun a => get_size s.mem a + METADATA_SIZE).sum
    ∧ (∀ a ∈ pre ++ post, get_size s'.mem a = get_size s.mem a)

/-! ## Concrete scenarios -/

/-- A memory filled with zero bytes. -/
def zeroMem : Mem := fun _ => 0

/-- The calls `p = malloc(1); free(p); q = malloc(1)` and a further
`r = malloc(1)`, from the initial state: the three pointers and the state
before the last call. -/
def reuse_scenario : Option (Nat × Nat × Nat × State) :=
  (malloc (init 4096 8192 zeroMem) 1).bind fun r1 =>
  (free r1.2 r1.1).bind fun s2 =>
  (malloc s2 1).bind fun r3 =>
  (malloc r3.2 1).bind fun r4 =>
  some (r1.1, r3.1, r4.1, r3.2)

/-- Three blocks of sizes 8, `n`, 8 allocated from the initial state, the
middle one released: the first pointer and the state. -/
def neighbour_scenario (n : Nat) : Option (Nat × State) :=
  (malloc (init 4096 8192 zeroMem) 8).bind fun r1 =>
  (malloc r1.2 n).bind fun r2 =>
  (malloc r2.2 8).bind fun r3 =>
  (free r3.2 r2.1).bind fun s4 =>
  some (r1.1, s4)

/-- A heap of two blocks of `2^32 - 1` payload bytes each, the first one free and
the second one used, in a memory whose other bytes are `0xFF`. -/
def hugeState : State :=
  { startOfHeap := 4096, free_head := 4096, base := 4096,
    brk := 4096 + 2 * (2 ^ 32 + 15), limit := 2 ^ 40,
    mem := store (store (store (store (fun _ => 255) (4096 + 4) 1 0) (4096 + 8) 8 0)
      (4096 + 2 ^ 32 + 15 + 4) 1 1) (4096 + 2 ^ 32 + 15 + 8) 8 0 }

/-- The headers of the two blocks of `hugeState`. -/
def hugeBlocks : List Nat := [4096, 4096 + 2 ^ 32 + 15]

/-- The payload address of the used block of `hugeState`. -/
def hugePtr : Nat := 4096 + 2 ^ 32 + 15 + 16

/-- A heap of more than 4 GiB: a used block of `2^32 - 1` payload bytes, a free
block of 8 bytes and a used block of 8 bytes. -/
def wideState : State :=
  { startOfHeap := 4096, free_head := 4096 + 2 ^ 32 + 15, base := 4096,
    brk := 4096 + 2 ^ 32 + 15 + 24 + 24, limit := 2 ^ 40,
    mem := store (store (store (store (store zeroMem 4096 4 (2 ^ 32 - 1)) (4096 + 4) 1 1)
      (4096 + 2 ^ 32 + 15) 4 8) (4096 + 2 ^ 32 + 15 + 24) 4 8)
      (4096 + 2 ^ 32 + 15 + 24 + 4) 1 1 }

/-- The headers of the three blocks of `wideState`. -/
def wideBlocks : List Nat := [4096, 4096 + 2 ^ 32 + 15, 4096 + 2 ^ 32 + 15 + 24]

/-- The payload address of the last block of `wideState`. -/
def widePtr : Nat := 4096 + 2 ^ 32 + 15 + 24 + 16

/-- A heap of two blocks of 8 payload bytes each, the first one free and the
second one used. -/
def smallState : State :=
  { startOfHeap := 4096, free_head := 4096, base := 4096, brk := 4144, limit := 8192,
    mem := store (store (store zeroMem 4096 4 8) 4120 4 8) (4120 + 4) 1 1 }

/-- A heap of two blocks of 8 payload bytes each, the first one used with
payload bytes `8, 7, 6, 5, 4, 3, 2, 1`, the second one free. -/
def growState : State :=
  { startOfHeap := 4096, free_head := 4120, base := 4096, brk := 4144, limit := 8192,
    mem := store (store (store (store zeroMem 4096 4 8) (4096 + 4) 1 1)
      4112 8 0x0102030405060708) 4120 4 8 }

/-- The calls `malloc(s_1)`, ..., `malloc(s_N)` for a list of sizes: the
returned pointers, in order, and the state. -/
def malloc_all : List Nat → State → Option (List Nat × State)
  | [], st => some ([], st)
  | sz :: szs, st =>
    (malloc st sz).bind fun r =>
    (malloc_all szs r.2).bind fun q => some (r.1 :: q.1, q.2)

/-- The calls `free(p)` for a list of pointers, in order. -/
def free_all : List Nat → State → Option State
  | [], st => some st
  | p :: ps, st => (free st p).bind fun s1 => free_all ps s1

/-- A release/re-allocate cycle: a round of `malloc` for the sizes, `free` of
the returned pointers in the order of allocation, and a second round of
`malloc` for the same sizes: the break after the first and after the second
round. -/
def release_cycle (sizes : List Nat) (st : State) : Option (Nat × Nat) :=
  (malloc_all sizes st).bind fun r1 =>
  (free_all r1.1 r1.2).bind fun s2 =>
  (malloc_all sizes s2).bind fun r3 => some (r1.2.brk, r3.2.brk)

/-- The number of heap bytes that blocks of the given payload sizes take. -/
def span : List Nat → Nat
  | [] => 0
  | sz :: szs => METADATA_SIZE + sz + span szs

/-- The header addresses of blocks of the given payload sizes laid out from `a`. -/
def hdrs (a : Nat) : List Nat → List Nat
  | [] => []
  | sz :: szs => a :: hdrs (a + METADATA_SIZE + sz) szs

/-- The calls `malloc(size)` repeated `n` times, the results dropped. -/
def malloc_n (size : Nat) : Nat → State → Option State
  | 0, st => some st
  | n + 1, st => (malloc st size).bind fun r => malloc_n size n r.2

/-- The first phase of `tests/samples/10-free-lists.c`: `n` calls `malloc(size)`,
the call `ptr = malloc(size)`, and `m` further calls: the pointer `ptr` and the
state. -/
def alloc_around (size n m : Nat) (st : State) : Option (Nat × State) :=
  (malloc_n size n st).bind fun s1 =>
  (malloc s1 size).bind fun r =>
  (malloc_n size m r.2).bind fun s2 =>
  some (r.1, s2)

/-- One iteration `free(ptr); ptr = malloc(size)`. -/
def free_malloc (size : Nat) (st : State) (ptr : Nat) : Option (Nat × State) :=
  (free st ptr).bind fun s1 => malloc s1 size

/-- The iteration `free(ptr); ptr = malloc(size)` repeated `k` times. -/
def cycle_k (size : Nat) : Nat → State → Nat → Option (Nat × State)
  | 0, st, ptr => some (ptr, st)
  | k + 1, st, ptr => (free_malloc size st ptr).bind fun r => cycle_k size k r.2 r.1

/-- A heap of one free block of 24 payload bytes. -/
def splitState : State :=
  { startOfHeap := 4096, free_head := 4096, base := 4096, brk := 4136, limit := 8192,
    mem := store zeroMem 4096 4 24 }

/-- The calls `p = malloc(1); x = malloc(1); free(p); q = malloc(1);
y = malloc(100); free(y)` from the initial state: the pointers `q` and `y` and
the final state. -/
def link_scenario : Option (Nat × Nat × State) :=
  (malloc (init 4096 8192 zeroMem) 1).bind fun r1 =>
  (malloc r1.2 1).bind fun r2 =>
  (free r2.2 r1.1).bind fun s3 =>
  (malloc s3 1).bind fun r4 =>
  (malloc r4.2 100).bind fun r5 =>
  (free r5.2 r5.1).bind fun s6 =>
  some (r4.1, r5.1, s6)

/-! ## Theorems: concrete runs -/

/-- C1 (code defect): after `p = malloc(1); free(p); q = malloc(1)` the block
of `q` is still the head of the free list, and the next `malloc(1)` returns
the address `q` again although `q` has not been released. -/
theorem malloc_returns_live_pointer :
    reuse_scenario.map (fun r => (r.1, r.2.1, r.2.2.1)) = some (4112, 4112, 4112) := by
  decide

/-- C2 (code defect): after `p = malloc(1); free(p); q = malloc(1)` the block
reachable from `free_head` has `isUsed = 1`: the free list is not the set of
free blocks. -/
theorem free_head_keeps_used_block :
    reuse_scenario.map (fun r => (r.2.2.2.free_head, get_isUsed r.2.2.2.mem r.2.2.2.free_head,
      get_nextFree r.2.2.2.mem r.2.2.2.free_head)) = some (4096, 1, 0) := by
  decide

/-- C5 (code defect): `malloc` does not test the result of `sbrk`.  When the
second extension fails it returns `(void *)-1`, not null, and has moved the
break; when the first one fails it writes through `(void *)-1`. -/
theorem malloc_ignores_sbrk_failure :
    (malloc (init 4096 4116 zeroMem) 8).map (fun r => (r.1, r.2.brk)) = some (2 ^ 64 - 1, 4112)
    ∧ (malloc (init 4096 4100 zeroMem) 8).isNone = true := by
  decide

/-- C6 (code defect): with blocks of sizes 8, 8, 8, the middle one free,
`realloc(p, 100)` of the first pointer returns `p` with a recorded size of 100
although the block and its neighbour span 32 bytes; the heap is not extended
and nothing is relocated. -/
theorem realloc_grows_without_room :
    ((neighbour_scenario 8).bind fun r => (realloc r.2 r.1 100).map fun q =>
      (r.1, q.1, get_size q.2.mem 4096, r.2.brk, q.2.brk))
      = some (4112, 4112, 100, 4168, 4168) := by
  decide

/-- C7 (code defect): with blocks of sizes 8, 100, 8, the middle one free,
`realloc(p, 20)` of the first pointer grows in place and leaves a free
remainder of recorded size 108 at `p + 20`, where 88 bytes are left; the walk
from the remainder misses the header of the third block at 4236. -/
theorem realloc_split_size_wrong :
    ((neighbour_scenario 100).bind fun r => (realloc r.2 r.1 20).map fun q =>
      (q.1, get_size q.2.mem 4096, q.2.free_head, get_size q.2.mem 4132,
       4132 + METADATA_SIZE + get_size q.2.mem 4132))
      = some (4112, 20, 4132, 108, 4256) := by
  decide

/-- C8 (code defect): in the well-formed state `growState` the pointer 4112 is
live with recorded size 8 and payload bytes `8, 7, ..., 1`; the call
`realloc(4112, 2^64 - 8)` returns 4112, and the eight payload bytes are zero
afterwards: `size + METADATA_SIZE` wraps to 8, the test for growing in place
succeeds, and the header of the remainder is written at `p_meta + 8`, its
`nextFree` field over the payload. -/
theorem realloc_overwrites_payload :
    WF growState [4096, 4120] ∧ live growState [4096, 4120] 4112
    ∧ get_size growState.mem (hdr_of 4112) = 8
    ∧ (List.range 8).map (fun i => growState.mem (4112 + i)) = [8, 7, 6, 5, 4, 3, 2, 1]
    ∧ (realloc growState 4112 (2 ^ 64 - 8)).map
        (fun r => (r.1, (List.range 8).map fun i => r.2.mem (4112 + i)))
      = some (4112, [0, 0, 0, 0, 0, 0, 0, 0]) :=
  ⟨⟨by decide, by decide, by decide, by decide, by decide, by decide, by decide⟩,
   ⟨4096, by decide, by decide, by decide⟩, by decide, by decide, by decide⟩

/-! ## Lemmas: byte memory -/

theorem store_out {m : Mem} {a n v x : Nat} (h : x < a ∨ a + n ≤ x) :
    store m a n v x = m x := by
  unfold store; rw [if_neg]; omega

theorem load_congr {m m' : Mem} {a n : Nat}
    (h : ∀ x, a ≤ x → x < a + n → m x = m' x) : load m a n = load m' a n := by
  induction n generalizing a with
  | zero => rfl
  | succ n ih =>
    simp only [load]
    rw [h a (le_refl _) (by omega), ih (fun x h1 h2 => h x (by omega) (by omega))]

theorem load_store_disj {m : Mem} {a n v b k : Nat} (h : b + k ≤ a ∨ a + n ≤ b) :
    load (store m a n v) b k = load m b k :=
  load_congr (fun x h1 h2 => store_out (by omega))

theorem load_lt (m : Mem) (a n : Nat) : load m a n < 256 ^ n := by
  induction n generalizing a with
  | zero => simp [load]
  | succ n ih =>
    simp only [load]
    have h1 := ih (a + 1)
    have h2 := Nat.mod_lt (m a) (by norm_num : 256 > 0)
    rw [pow_succ]; omega

theorem load_store_same (m : Mem) (a n v : Nat) :
    load (store m a n v) a n = v % 256 ^ n := by
  induction n generalizing a v m with
  | zero => simp [load, Nat.mod_one]
  | succ n ih =>
    simp only [load]
    have h1 : store m a (n + 1) v a = v % 256 := by simp [store]
    have h2 : load (store m a (n + 1) v) (a + 1) n
        = load (store m (a + 1) n (v / 256)) (a + 1) n := by
      apply load_congr; intro x hx1 hx2
      simp only [store]; rw [if_pos (by omega), if_pos (by omega)]
      have : x - a = (x - (a + 1)) + 1 := by omega
      rw [this, pow_succ, mul_comm, ← Nat.div_div_eq_div_mul]
    rw [h1, h2, ih, Nat.mod_mod, pow_succ', Nat.mod_mul]

theorem get_size_lt (m : Mem) (a : Nat) : get_size m a < 2 ^ 32 := by
  have := load_lt m a 4
  norm_num at this ⊢
  exact this

theorem get_nextFree_lt (m : Mem) (a : Nat) : get_nextFree m a < 2 ^ 64 := by
  have := load_lt m (a + 8) 8
  norm_num at this ⊢
  exact this

/-- The three fields of the header at `y` are untouched by a store that stays
clear of its 16 bytes. -/
theorem hdr_frame {m : Mem} {x n v y : Nat} (h : y + 16 ≤ x ∨ x + n ≤ y) :
    get_size (store m x n v) y = get_size m y
    ∧ get_isUsed (store m x n v) y = get_isUsed m y
    ∧ get_nextFree (store m x n v) y = get_nextFree m y := by
  refine ⟨load_store_disj (by omega), load_store_disj (by omega), load_store_disj (by omega)⟩

theorem size_store_size (m : Mem) (a v : Nat) (h : v < 2 ^ 32) :
    get_size (store m a 4 v) a = v := by
  unfold get_size; rw [load_store_same]; norm_num; omega

theorem used_store_used (m : Mem) (a v : Nat) (h : v < 256) :
    get_isUsed (store m (a + 4) 1 v) a = v := by
  unfold get_isUsed; rw [load_store_same]; norm_num; omega

theorem next_store_next (m : Mem) (a v : Nat) (h : v < 2 ^ 64) :
    get_nextFree (store m (a + 8) 8 v) a = v := by
  unfold get_nextFree; rw [load_store_same]; norm_num; omega

theorem size_store_used (m : Mem) (a v : Nat) :
    get_size (store m (a + 4) 1 v) a = get_size m a := load_store_disj (by omega)

theorem size_store_next (m : Mem) (a v : Nat) :
    get_size (store m (a + 8) 8 v) a = get_size m a := load_store_disj (by omega)

theorem used_store_size (m : Mem) (a v : Nat) :
    get_isUsed (store m a 4 v) a = get_isUsed m a := load_store_disj (by omega)

theorem used_store_next (m : Mem) (a v : Nat) :
    get_isUsed (store m (a + 8) 8 v) a = get_isUsed m a := load_store_disj (by omega)

theorem next_store_size (m : Mem) (a v : Nat) :
    get_nextFree (store m a 4 v) a = get_nextFree m a := load_store_disj (by omega)

theorem next_store_used (m : Mem) (a v : Nat) :
    get_nextFree (store m (a + 4) 1 v) a = get_nextFree m a := load_store_disj (by omega)

theorem rd_ok {s : State} {a n : Nat} (h1 : s.base ≤ a) (h2 : a + n ≤ s.brk) :
    rd s a n = some (load s.mem a n) := by
  simp [rd, h1, h2]

theorem wr_ok {s : State} {a n : Nat} (v : Nat) (h1 : s.base ≤ a) (h2 : a + n ≤ s.brk) :
    wr s a n v = some { s with mem := store s.mem a n v } := by
  simp [wr, h1, h2]

theorem hdr_of_add (b : Nat) (h : b + 16 < 2 ^ 64) : hdr_of (b + METADATA_SIZE) = b := by
  unfold hdr_of sub64 METADATA_SIZE
  norm_num at h ⊢
  omega

/-! ## Lemmas: walking the heap and the free list -/

theorem tiles_append {m : Mem} {l2 : List Nat} {e : Nat} {l1 : List Nat} {a : Nat} :
    tiles m a (l1 ++ l2) e ↔ ∃ x, tiles m a l1 x ∧ tiles m x l2 e := by
  induction l1 generalizing a with
  | nil => simp [tiles]
  | cons b l1 ih =>
    rw [List.cons_append]
    simp only [tiles]
    rw [ih]
    constructor
    · rintro ⟨h1, x, h2, h3⟩; exact ⟨x, ⟨h1, h2⟩, h3⟩
    · rintro ⟨x, ⟨h1, h2⟩, h3⟩; exact ⟨h1, x, h2, h3⟩

theorem tiles_bounds {m : Mem} {e : Nat} :
    ∀ {l : List Nat} {a : Nat}, tiles m a l e →
      a ≤ e ∧ ∀ b ∈ l, a ≤ b ∧ b + 16 + get_size m b ≤ e
  | [], a, h => by simp [tiles] at h; simp [h]
  | b :: l, a, h => by
    obtain ⟨h1, h2⟩ := h
    have ih := tiles_bounds h2
    unfold METADATA_SIZE at ih
    subst h1
    refine ⟨by omega, ?_⟩
    intro c hc
    rcases List.mem_cons.1 hc with rfl | hc
    · omega
    · have := ih.2 c hc; omega

theorem tiles_congr {m m' : Mem} {e : Nat} :
    ∀ {l : List Nat} {a : Nat}, (∀ b ∈ l, get_size m' b = get_size m b) →
      tiles m a l e → tiles m' a l e
  | [], _, _, h => h
  | b :: l, a, hs, h => by
    obtain ⟨h1, h2⟩ := h
    subst h1
    refine ⟨rfl, ?_⟩
    rw [hs b (List.mem_cons_self _ _)]
    exact tiles_congr (fun c hc => hs c (List.mem_cons_of_mem _ hc)) h2

theorem tiles_length {m : Mem} {e : Nat} :
    ∀ {l : List Nat} {a : Nat}, tiles m a l e → a + 16 * l.length ≤ e
  | [], a, h => by simp [tiles] at h; simp [h]
  | b :: l, a, h => by
    obtain ⟨_, h2⟩ := h
    have := tiles_length h2
    unfold METADATA_SIZE at this
    simp only [List.length_cons]; omega

theorem tiles_head {m : Mem} {l : List Nat} {a b e : Nat} (h : tiles m a (b :: l) e) :
    b = a := h.1

theorem chain_append {m : Mem} {l2 : List Nat} {t : Nat} {l1 : List Nat} {h : Nat} :
    chain m h (l1 ++ l2) t ↔ ∃ x, chain m h l1 x ∧ chain m x l2 t := by
  induction l1 generalizing h with
  | nil => simp [chain]
  | cons b l1 ih =>
    rw [List.cons_append]
    simp only [chain]
    rw [ih]
    constructor
    · rintro ⟨h1, h0, x, h2, h3⟩; exact ⟨x, ⟨h1, h0, h2⟩, h3⟩
    · rintro ⟨x, ⟨h1, h0, h2⟩, h3⟩; exact ⟨h1, h0, x, h2, h3⟩

theorem chain_congr {m m' : Mem} {t : Nat} :
    ∀ {l : List Nat} {h : Nat}, (∀ b ∈ l, get_nextFree m' b = get_nextFree m b) →
      chain m h l t → chain m' h l t
  | [], _, _, hc => hc
  | b :: l, h, hs, hc => by
    obtain ⟨h1, h0, h2⟩ := hc
    refine ⟨h1, h0, ?_⟩
    rw [hs b (List.mem_cons_self _ _)]
    exact chain_congr (fun c hc => hs c (List.mem_cons_of_mem _ hc)) h2

theorem chain_nil_iff {m : Mem} {h t : Nat} : chain m h [] t ↔ h = t := Iff.rfl

theorem chain_zero {m : Mem} {l : List Nat} {t : Nat} (h : chain m 0 l t) : l = [] ∧ t = 0 := by
  cases l with
  | nil => exact ⟨rfl, h.symm⟩
  | cons b l => exact absurd h.1.symm h.2.1

theorem mem_freeBlocks {m : Mem} {l : List Nat} {a : Nat} :
    a ∈ freeBlocks m l ↔ a ∈ l ∧ get_isUsed m a = 0 := by
  simp [freeBlocks, List.mem_filter]

theorem freeBlocks_append (m : Mem) (l1 l2 : List Nat) :
    freeBlocks m (l1 ++ l2) = freeBlocks m l1 ++ freeBlocks m l2 := by
  simp [freeBlocks]

theorem freeBlocks_cons_free {m : Mem} {a : Nat} (l : List Nat) (h : get_isUsed m a = 0) :
    freeBlocks m (a :: l) = a :: freeBlocks m l := by
  simp [freeBlocks, h]

theorem freeBlocks_cons_used {m : Mem} {a : Nat} (l : List Nat) (h : get_isUsed m a ≠ 0) :
    freeBlocks m (a :: l) = freeBlocks m l := by
  simp [freeBlocks, h]

theorem freeBlocks_congr {m m' : Mem} {l : List Nat}
    (h : ∀ b ∈ l, get_isUsed m' b = get_isUsed m b) : freeBlocks m' l = freeBlocks m l := by
  unfold freeBlocks
  apply List.filter_congr
  intro b hb
  rw [h b hb]

/-! ## Lemmas: rebuilding the invariant around one free block -/

theorem heapStart_eq {s s' : State} (h1 : s'.startOfHeap = s.startOfHeap) (h2 : s'.brk = s.brk) :
    heapStart s' = heapStart s := by
  unfold heapStart; rw [h1, h2]

/-- The invariant of a state whose block list is `pre ++ x :: post`, where `x`
is free and `pre`, `post` are segments of the block list of a well-formed
state `s` whose headers kept their fields (a free block of `pre` may have a
new `nextFree`). -/
theorem WF_splice {s s' : State} {bs pre post : List Nat} {x : Nat}
    (hwf : WF s bs)
    (hbase : s'.base = s.base) (hbrk : s'.brk = s.brk) (hlim : s'.limit = s.limit)
    (hstart : s'.startOfHeap = s.startOfHeap)
    (hpre : tiles s.mem (heapStart s) pre x)
    (hpost : tiles s.mem (x + 16 + get_size s'.mem x) post s.brk)
    (hsub1 : ∀ a ∈ pre, a ∈ bs) (hsub2 : ∀ a ∈ post, a ∈ bs)
    (hfr1 : ∀ a ∈ pre, get_size s'.mem a = get_size s.mem a
      ∧ get_isUsed s'.mem a = get_isUsed s.mem a
      ∧ (get_isUsed s.mem a ≠ 0 → get_nextFree s'.mem a = get_nextFree s.mem a))
    (hfr2 : ∀ a ∈ post, get_size s'.mem a = get_size s.mem a
      ∧ get_isUsed s'.mem a = get_isUsed s.mem a
      ∧ get_nextFree s'.mem a = get_nextFree s.mem a)
    (hx0 : x ≠ 0) (hxf : get_isUsed s'.mem x = 0)
    (hc1 : chain s'.mem s'.free_head (freeBlocks s.mem pre) x)
    (hc2 : chain s.mem (get_nextFree s'.mem x) (freeBlocks s.mem post) 0)
    (hadj1 : ∀ a ∈ pre, get_isUsed s.mem a = 0 → a + 16 + get_size s.mem a ≠ x)
    (hadj2 : ∀ a ∈ post, get_isUsed s.mem a = 0 → a ≠ x + 16 + get_size s'.mem x) :
    WF s' (pre ++ x :: post) := by
  have hB1 := tiles_bounds hpre
  have hB2 := tiles_bounds hpost
  have hfb1 : freeBlocks s'.mem pre = freeBlocks s.mem pre :=
    freeBlocks_congr (fun a ha => (hfr1 a ha).2.1)
  have hfb2 : freeBlocks s'.mem post = freeBlocks s.mem post :=
    freeBlocks_congr (fun a ha => (hfr2 a ha).2.1)
  refine ⟨by rw [hbase]; exact hwf.base_pos, ?_, by rw [hbrk, hlim]; exact hwf.limit_ok,
    ?_, ?_, ?_, ?_⟩
  · rw [hbase, heapStart_eq hstart hbrk]; exact hwf.start_ok
  · rw [heapStart_eq hstart hbrk, hbrk]
    exact tiles_append.2 ⟨x, tiles_congr (fun a ha => (hfr1 a ha).1) hpre, rfl,
      tiles_congr (fun a ha => (hfr2 a ha).1) hpost⟩
  · rw [freeBlocks_append, freeBlocks_cons_free _ hxf, hfb1, hfb2]
    refine chain_append.2 ⟨x, hc1, rfl, hx0, ?_⟩
    exact chain_congr (fun a ha => (hfr2 a (mem_freeBlocks.1 ha).1).2.2) hc2
  · intro a ha c hc hfa hfc
    unfold METADATA_SIZE
    rcases List.mem_append.1 ha with ha1 | ha1
    · have ea := hfr1 a ha1
      have ba := hB1.2 a ha1
      rw [ea.2.1] at hfa
      rcases List.mem_append.1 hc with hc1 | hc1
      · have ec := hfr1 c hc1
        rw [ec.2.1] at hfc
        rw [ea.1]
        have := hwf.no_adj a (hsub1 a ha1) c (hsub1 c hc1) hfa hfc
        unfold METADATA_SIZE at this; exact this
      · rcases List.mem_cons.1 hc1 with hcx | hc2
        · rw [ea.1, hcx]; exact hadj1 a ha1 hfa
        · have bc := hB2.2 c hc2
          rw [ea.1]; omega
    · rcases List.mem_cons.1 ha1 with hax | ha2
      · rcases List.mem_append.1 hc with hc1 | hc1
        · have bc := hB1.2 c hc1; omega
        · rcases List.mem_cons.1 hc1 with hcx | hc2
          · omega
          · have ec := hfr2 c hc2
            rw [ec.2.1] at hfc
            rw [hax]
            exact fun h => hadj2 c hc2 hfc h.symm
      · have ea := hfr2 a ha2
        have ba := hB2.2 a ha2
        rw [ea.2.1] at hfa
        rw [ea.1]
        rcases List.mem_append.1 hc with hc1 | hc1
        · have bc := hB1.2 c hc1; omega
        · rcases List.mem_cons.1 hc1 with hcx | hc2
          · omega
          · have ec := hfr2 c hc2
            rw [ec.2.1] at hfc
            have := hwf.no_adj a (hsub2 a ha2) c (hsub2 c hc2) hfa hfc
            unfold METADATA_SIZE at this; exact this
  · intro a ha hua
    rcases List.mem_append.1 ha with ha1 | ha1
    · have ea := hfr1 a ha1
      rw [ea.2.1] at hua
      rw [ea.2.2 hua]; exact hwf.used_next a (hsub1 a ha1) hua
    · rcases List.mem_cons.1 ha1 with hax | ha2
      · rw [hax] at hua; exact absurd hxf hua
      · have ea := hfr2 a ha2
        rw [ea.2.1] at hua
        rw [ea.2.2]; exact hwf.used_next a (hsub2 a ha2) hua

theorem tiles_pairwise {m : Mem} {e : Nat} {l : List Nat} {a : Nat} (h : tiles m a l e) :
    l.Pairwise (fun x y => x + 16 + get_size m x ≤ y) := by
  induction l generalizing a with
  | nil => exact List.Pairwise.nil
  | cons b l ih =>
    obtain ⟨h1, h2⟩ := h
    subst h1
    refine List.Pairwise.cons ?_ (ih h2)
    intro y hy
    have := (tiles_bounds h2).2 y hy
    unfold METADATA_SIZE at this; omega

theorem tiles_sep {m : Mem} {e : Nat} {l : List Nat} {a : Nat} (h : tiles m a l e) :
    ∀ x ∈ l, ∀ y ∈ l, x ≠ y →
      x + 16 + get_size m x ≤ y ∨ y + 16 + get_size m y ≤ x := by
  have hp := tiles_pairwise h
  intro x hx y hy hxy
  induction l generalizing a with
  | nil => cases hx
  | cons b l ih =>
    rw [List.pairwise_cons] at hp
    rcases List.mem_cons.1 hx with hx1 | hx1
    · rcases List.mem_cons.1 hy with hy1 | hy1
      · exact absurd (hx1.trans hy1.symm) hxy
      · left; rw [hx1]; exact hp.1 y hy1
    · rcases List.mem_cons.1 hy with hy1 | hy1
      · right; rw [hy1]; exact hp.1 x hx1
      · exact ih h.2 hp.2 hx1 hy1

theorem fields_of_out {m m' : Mem} {a : Nat}
    (h : ∀ z, a ≤ z → z < a + 16 → m' z = m z) :
    get_size m' a = get_size m a ∧ get_isUsed m' a = get_isUsed m a
      ∧ get_nextFree m' a = get_nextFree m a :=
  ⟨load_congr (fun z h1 h2 => h z h1 (by omega)),
   load_congr (fun z h1 h2 => h z (by omega) (by omega)),
   load_congr (fun z h1 h2 => h z (by omega) (by omega))⟩

theorem chain_head_mem {m : Mem} {l : List Nat} {h t : Nat} (hc : chain m h l t)
    (hl : l ≠ []) : h ∈ l ∧ h ≠ 0 := by
  cases l with
  | nil => exact absurd rfl hl
  | cons b l => obtain ⟨h1, h0, _⟩ := hc; subst h1; exact ⟨List.mem_cons_self _ _, h0⟩

theorem chain_snoc {m : Mem} {l : List Nat} {h c t : Nat} :
    chain m h (l ++ [c]) t ↔ chain m h l c ∧ c ≠ 0 ∧ get_nextFree m c = t := by
  rw [chain_append]
  constructor
  · rintro ⟨x, h1, h2, h3, h4⟩; subst h2; exact ⟨h1, h3, h4⟩
  · rintro ⟨h1, h3, h4⟩; exact ⟨c, h1, rfl, h3, h4⟩

/-- The loop of `free` runs through the free blocks that lie before `meta`
without touching memory, up to the last of them. -/
theorem free_loop_walk {s : State} {meta c t : Nat} :
    ∀ (l : List Nat) (h fuel : Nat),
      chain s.mem h (l ++ [c]) t →
      (∀ y ∈ l ++ [c], s.base ≤ y ∧ y + 16 ≤ s.brk ∧ y < meta) →
      (∀ y ∈ l, y + get_size s.mem y + 16 ≠ meta) →
      l.length < fuel →
      free_loop meta fuel s h = free_loop meta (fuel - l.length) s c := by
  intro l
  induction l with
  | nil =>
    intro h fuel hc _ _ _
    have : h = c := hc.1
    subst this; rfl
  | cons y l ih =>
    intro h fuel hc hv hne hf
    obtain ⟨h1, h0, hc'⟩ := hc
    subst h1
    obtain ⟨f, rfl⟩ : ∃ f, fuel = f + 1 := ⟨fuel - 1, by simp at hf; omega⟩
    have hy := hv h (List.mem_cons_self _ _)
    have hn := chain_head_mem hc' (by simp)
    have hnv := hv _ (List.mem_cons_of_mem _ hn.1)
    have hney := hne h (List.mem_cons_self _ _)
    unfold get_size at hney
    unfold get_nextFree at hn hnv hc'
    have e : free_loop meta (f + 1) s h = free_loop meta f s (load s.mem (h + 8) 8) := by
      rw [free_loop]
      simp (disch := omega) only [rd, if_pos, if_neg, Option.some_bind, METADATA_SIZE]
    rw [e, ih _ f hc' (fun z hz => hv z (List.mem_cons_of_mem _ hz))
      (fun z hz => hne z (List.mem_cons_of_mem _ hz)) (by simp at hf; omega)]
    simp

/-- The guarantees of `free` for a state rebuilt around the free block `x`. -/
theorem splice_ok {s s' : State} {bs pre post : List Nat} {x b : Nat}
    (hwf : WF s bs)
    (hbase : s'.base = s.base) (hbrk : s'.brk = s.brk) (hlim : s'.limit = s.limit)
    (hstart : s'.startOfHeap = s.startOfHeap)
    (hpre : tiles s.mem (heapStart s) pre x)
    (hpost : tiles s.mem (x + 16 + get_size s'.mem x) post s.brk)
    (hsub1 : ∀ a ∈ pre, a ∈ bs ∧ a ≠ b) (hsub2 : ∀ a ∈ post, a ∈ bs ∧ a ≠ b)
    (hmid : ∀ a ∈ bs, a ∈ pre ∨ a ∈ post ∨
      (x ≤ a ∧ a + 16 + get_size s.mem a ≤ x + 16 + get_size s'.mem x
        ∧ (a = b ∨ get_isUsed s.mem a = 0)))
    (hfr1 : ∀ a ∈ pre, get_size s'.mem a = get_size s.mem a
      ∧ get_isUsed s'.mem a = get_isUsed s.mem a
      ∧ (get_isUsed s.mem a ≠ 0 → get_nextFree s'.mem a = get_nextFree s.mem a))
    (hfr2 : ∀ a ∈ post, get_size s'.mem a = get_size s.mem a
      ∧ get_isUsed s'.mem a = get_isUsed s.mem a
      ∧ get_nextFree s'.mem a = get_nextFree s.mem a)
    (hx0 : x ≠ 0) (hxf : get_isUsed s'.mem x = 0)
    (hc1 : chain s'.mem s'.free_head (freeBlocks s.mem pre) x)
    (hc2 : chain s.mem (get_nextFree s'.mem x) (freeBlocks s.mem post) 0)
    (hadj1 : ∀ a ∈ pre, get_isUsed s.mem a = 0 → a + 16 + get_size s.mem a ≠ x)
    (hadj2 : ∀ a ∈ post, get_isUsed s.mem a = 0 → a ≠ x + 16 + get_size s'.mem x)
    (hout : ∀ z, (∀ a ∈ bs, z < a ∨ a + 16 ≤ z) → s'.mem z = s.mem z) :
    FreeOk s s' bs (pre ++ x :: post) b := by
  refine ⟨WF_splice hwf hbase hbrk hlim hstart hpre hpost (fun a ha => (hsub1 a ha).1)
    (fun a ha => (hsub2 a ha).1) hfr1 hfr2 hx0 hxf hc1 hc2 hadj1 hadj2,
    hbase, hbrk, hlim, hstart, ?_, ?_, ?_, hout⟩
  · intro a
    constructor
    · rintro ⟨ha, hua⟩
      rcases List.mem_append.1 ha with ha1 | ha1
      · rw [(hfr1 a ha1).2.1] at hua
        exact ⟨(hsub1 a ha1).1, hua, (hsub1 a ha1).2⟩
      · rcases List.mem_cons.1 ha1 with hax | ha2
        · rw [hax] at hua; exact absurd hxf hua
        · rw [(hfr2 a ha2).2.1] at hua
          exact ⟨(hsub2 a ha2).1, hua, (hsub2 a ha2).2⟩
    · rintro ⟨ha, hua, hab⟩
      rcases hmid a ha with h | h | h
      · exact ⟨List.mem_append_left _ h, by rw [(hfr1 a h).2.1]; exact hua⟩
      · exact ⟨List.mem_append_right _ (List.mem_cons_of_mem _ h),
          by rw [(hfr2 a h).2.1]; exact hua⟩
      · rcases h.2.2 with h | h
        · exact absurd h hab
        · exact absurd h hua
  · intro a ha hua hab
    rcases hmid a ha with h | h | h
    · exact (hfr1 a h).1
    · exact (hfr2 a h).1
    · rcases h.2.2 with h | h
      · exact absurd h hab
      · exact absurd h hua
  · rintro z ⟨f, hf, hfb, hz1, hz2⟩
    unfold METADATA_SIZE at hz2 ⊢
    rcases hmid f hf with h | h | h
    · have hff : get_isUsed s.mem f = 0 := by
        rcases hfb with h' | h'
        · exact absurd h' (hsub1 f h).2
        · exact h'
      refine ⟨f, mem_freeBlocks.2 ⟨List.mem_append_left _ h, ?_⟩, hz1, ?_⟩
      · rw [(hfr1 f h).2.1]; exact hff
      · rw [(hfr1 f h).1]; exact hz2
    · have hff : get_isUsed s.mem f = 0 := by
        rcases hfb with h' | h'
        · exact absurd h' (hsub2 f h).2
        · exact h'
      refine ⟨f, mem_freeBlocks.2 ⟨List.mem_append_right _ (List.mem_cons_of_mem _ h), ?_⟩,
        hz1, ?_⟩
      · rw [(hfr2 f h).2.1]; exact hff
      · rw [(hfr2 f h).1]; exact hz2
    · refine ⟨x, mem_freeBlocks.2 ⟨List.mem_append_right _ (List.mem_cons_self _ _), hxf⟩,
        by omega, by omega⟩

/-- The first entry `nf` of the free list of a tiled segment (or `0`) is its
lowest free block. -/
theorem first_free_facts {m : Mem} {post : List Nat} {a0 e nf : Nat}
    (ht : tiles m a0 post e) (hc : chain m nf (freeBlocks m post) 0) :
    (nf = 0 → ∀ a ∈ post, get_isUsed m a ≠ 0) ∧
    (nf ≠ 0 → nf ∈ post ∧ get_isUsed m nf = 0 ∧
      ∀ a ∈ post, get_isUsed m a = 0 → a = nf ∨ nf + 16 + get_size m nf ≤ a) := by
  have hp : (freeBlocks m post).Pairwise (fun x y => x + 16 + get_size m x ≤ y) :=
    (tiles_pairwise ht).sublist (List.filter_sublist _)
  cases hfo : freeBlocks m post with
  | nil =>
    rw [hfo] at hc
    have h0 : nf = 0 := hc
    refine ⟨fun _ a ha hfa => ?_, fun h => absurd h0 h⟩
    have : a ∈ freeBlocks m post := mem_freeBlocks.2 ⟨ha, hfa⟩
    rw [hfo] at this; cases this
  | cons h fo =>
    rw [hfo] at hc hp
    obtain ⟨h1, h0, _⟩ := hc
    subst h1
    have hm : nf ∈ freeBlocks m post := by rw [hfo]; exact List.mem_cons_self _ _
    refine ⟨fun h => absurd h h0, fun _ => ⟨(mem_freeBlocks.1 hm).1, (mem_freeBlocks.1 hm).2, ?_⟩⟩
    intro a ha hfa
    have : a ∈ freeBlocks m post := mem_freeBlocks.2 ⟨ha, hfa⟩
    rw [hfo] at this
    rcases List.mem_cons.1 this with h | h
    · exact Or.inl h
    · exact Or.inr ((List.pairwise_cons.1 hp).1 a h)

/-- A free list entry that starts where the segment starts is its first block. -/
theorem adjacent_head {m : Mem} {post : List Nat} {a0 e nf : Nat}
    (ht : tiles m a0 post e) (hc : chain m nf (freeBlocks m post) 0)
    (hmem : nf ∈ post) (hfree : get_isUsed m nf = 0) (heq : a0 = nf) :
    ∃ post', post = nf :: post' ∧ tiles m (nf + 16 + get_size m nf) post' e
      ∧ chain m (get_nextFree m nf) (freeBlocks m post') 0 := by
  cases post with
  | nil => cases hmem
  | cons p0 post' =>
    obtain ⟨h1, h2⟩ := ht
    have hp : p0 = nf := h1.trans heq
    subst hp
    rw [freeBlocks_cons_free _ hfree] at hc
    refine ⟨post', rfl, ?_, hc.2.2⟩
    rw [← heq]; exact h2

/-- The last entry `c` of the free list of a tiled segment is its highest free
block. -/
theorem last_free_facts {m : Mem} {pre l : List Nat} {a0 e c : Nat}
    (ht : tiles m a0 pre e) (hfp : freeBlocks m pre = l ++ [c]) :
    c ∈ pre ∧ get_isUsed m c = 0 ∧
    (∀ a ∈ l, a ∈ pre ∧ a + 16 + get_size m a ≤ c) ∧
    (∀ a ∈ pre, get_isUsed m a = 0 → a = c ∨ a + 16 + get_size m a ≤ c) := by
  have hp : (freeBlocks m pre).Pairwise (fun x y => x + 16 + get_size m x ≤ y) :=
    (tiles_pairwise ht).sublist (List.filter_sublist _)
  rw [hfp, List.pairwise_append] at hp
  have hc : c ∈ freeBlocks m pre := by rw [hfp]; simp
  have hl : ∀ a ∈ l, a ∈ pre ∧ a + 16 + get_size m a ≤ c := by
    intro a ha
    have : a ∈ freeBlocks m pre := by rw [hfp]; simp [ha]
    exact ⟨(mem_freeBlocks.1 this).1, hp.2.2 a ha c (by simp)⟩
  refine ⟨(mem_freeBlocks.1 hc).1, (mem_freeBlocks.1 hc).2, hl, ?_⟩
  intro a ha hfa
  have : a ∈ freeBlocks m pre := mem_freeBlocks.2 ⟨ha, hfa⟩
  rw [hfp] at this
  rcases List.mem_append.1 this with h | h
  · exact Or.inr (hl a h).2
  · exact Or.inl (by simpa using h)

/-- A block that ends where the segment ends is its last block. -/
theorem adjacent_last {m : Mem} {pre l : List Nat} {a0 e c : Nat}
    (ht : tiles m a0 pre e) (hfp : freeBlocks m pre = l ++ [c])
    (heq : c + 16 + get_size m c = e) :
    ∃ pre', pre = pre' ++ [c] ∧ tiles m a0 pre' c ∧ freeBlocks m pre' = l := by
  obtain ⟨hc, hcf, _, _⟩ := last_free_facts ht hfp
  rcases List.eq_nil_or_concat pre with h | ⟨pre', z, h⟩
  · rw [h] at hc; cases hc
  · rw [List.concat_eq_append] at h
    subst h
    obtain ⟨x, h1, h2, h3⟩ := tiles_append.1 ht
    have h3' : x + 16 + get_size m x = e := h3
    subst h2
    have hzc : z = c := by
      rcases List.mem_append.1 hc with h | h
      · have := (tiles_bounds h1).2 c h
        unfold METADATA_SIZE at this; omega
      · exact (by simpa using h : c = z).symm
    subst hzc
    refine ⟨pre', rfl, h1, ?_⟩
    rw [freeBlocks_append, freeBlocks_cons_free _ hcf] at hfp
    exact List.append_inj_left' hfp rfl

theorem load_store_same4 {m : Mem} {a v : Nat} (h : v < 4294967296) :
    load (store m a 4 v) a 4 = v := by
  rw [load_store_same]; norm_num; omega

theorem load_store_same1 {m : Mem} {a v : Nat} (h : v < 256) :
    load (store m a 1 v) a 1 = v := by
  rw [load_store_same]; norm_num; omega

theorem load_store_same8 {m : Mem} {a v : Nat} (h : v < 18446744073709551616) :
    load (store m a 8 v) a 8 = v := by
  rw [load_store_same]; norm_num; omega

theorem load4_lt (m : Mem) (a : Nat) : load m a 4 < 4294967296 := by
  have := load_lt m a 4; norm_num at this; exact this

theorem load8_lt (m : Mem) (a : Nat) : load m a 8 < 18446744073709551616 := by
  have := load_lt m a 8; norm_num at this; exact this

theorem load1_lt (m : Mem) (a : Nat) : load m a 1 < 256 := by
  have := load_lt m a 1; norm_num at this; exact this

/-! ## Lemmas: what each path of `free` computes -/

theorem bind_rd {so fh base brk lim : Nat} {m : Mem} {a n : Nat} {α : Type}
    {f : Nat → Option α} (h1 : base ≤ a) (h2 : a + n ≤ brk) :
    (rd ⟨so, fh, base, brk, lim, m⟩ a n).bind f = f (load m a n) := by
  simp [rd, h1, h2]

theorem bind_wr {so fh base brk lim : Nat} {m : Mem} {a n v : Nat} {α : Type}
    {f : State → Option α} (h1 : base ≤ a) (h2 : a + n ≤ brk) :
    (wr ⟨so, fh, base, brk, lim, m⟩ a n v).bind f
      = f ⟨so, fh, base, brk, lim, store m a n v⟩ := by
  simp [wr, h1, h2]

theorem wr_eq {so fh base brk lim : Nat} {m : Mem} {a n v : Nat}
    (h1 : base ≤ a) (h2 : a + n ≤ brk) :
    wr ⟨so, fh, base, brk, lim, m⟩ a n v = some ⟨so, fh, base, brk, lim, store m a n v⟩ := by
  simp [wr, h1, h2]

theorem free_exec_start {s : State} {b : Nat} (hb1 : s.base ≤ b) (hb2 : b + 16 ≤ s.brk)
    (hb3 : b + 16 < 2 ^ 64) (hu : get_isUsed s.mem b ≠ 0) :
    free s (b + METADATA_SIZE) =
      if s.free_head = 0 then
        some { s with mem := store s.mem (b + 4) 1 0, free_head := b }
      else if b < s.free_head then
        free_before_head { s with mem := store s.mem (b + 4) 1 0 } b
      else free_loop b (loop_fuel { s with mem := store s.mem (b + 4) 1 0 })
        { s with mem := store s.mem (b + 4) 1 0 } s.free_head := by
  have hu' : load s.mem (b + 4) 1 ≠ 0 := hu
  unfold free; rw [hdr_of_add b hb3]
  simp only [bind_rd (show s.base ≤ b + 4 by omega) (show b + 4 + 1 ≤ s.brk by omega), hu',
    if_false, bind_wr (show s.base ≤ b + 4 by omega) (show b + 4 + 1 ≤ s.brk by omega)]

theorem free_exec_head_merge {s : State} {b nf : Nat} (hb1 : s.base ≤ b)
    (hfh : s.free_head = nf) (hadj : b + 16 + get_size s.mem b = nf)
    (hnf : nf + 16 ≤ s.brk) (hV : get_size s.mem b + 16 + get_size s.mem nf < 2 ^ 32) :
    free_before_head { s with mem := store s.mem (b + 4) 1 0 } b =
      some { s with
        mem := store (store (store s.mem (b + 4) 1 0) b 4
          (get_size s.mem b + 16 + get_size s.mem nf)) (b + 8) 8 (get_nextFree s.mem nf),
        free_head := b } := by
  unfold get_size at hadj hV
  norm_num at hV
  have e : (load s.mem b 4 + load s.mem nf 4) % 2 ^ 32 + 16
      = load s.mem b 4 + 16 + load s.mem nf 4 := by
    rw [Nat.mod_eq_of_lt (by norm_num; omega)]; omega
  have hcond : b + load s.mem b 4 + 16 = nf := by omega
  unfold free_before_head get_size get_nextFree
  simp only [bind_rd hb1 (show b + 4 ≤ s.brk by omega)]
  simp (disch := omega) only [load_store_disj]
  simp only [METADATA_SIZE, hfh, hcond, if_true,
    bind_rd (show s.base ≤ nf by omega) (show nf + 4 ≤ s.brk by omega)]
  simp (disch := omega) only [load_store_disj]
  simp only [e, bind_wr hb1 (show b + 4 ≤ s.brk by omega),
    bind_rd (show s.base ≤ nf + 8 by omega) (show nf + 8 + 8 ≤ s.brk by omega)]
  simp (disch := omega) only [load_store_disj]
  simp only [bind_wr (show s.base ≤ b + 8 by omega) (show b + 8 + 8 ≤ s.brk by omega)]

theorem free_exec_head_link {s : State} {b nf : Nat} (hb1 : s.base ≤ b)
    (hb2 : b + 16 ≤ s.brk)
    (hfh : s.free_head = nf) (hadj : b + 16 + get_size s.mem b ≠ nf) :
    free_before_head { s with mem := store s.mem (b + 4) 1 0 } b =
      some { s with mem := store (store s.mem (b + 4) 1 0) (b + 8) 8 nf, free_head := b } := by
  unfold get_size at hadj
  have hcond : ¬ (b + load s.mem b 4 + 16 = nf) := by omega
  unfold free_before_head
  simp only [bind_rd hb1 (show b + 4 ≤ s.brk by omega)]
  simp (disch := omega) only [load_store_disj]
  simp only [METADATA_SIZE, hfh, hcond, if_false,
    bind_wr (show s.base ≤ b + 8 by omega) (show b + 8 + 8 ≤ s.brk by omega)]

theorem free_exec_tail {s : State} {b c k : Nat} (hc0 : c ≠ 0) (hc1 : s.base ≤ c)
    (hcb : c + 16 + get_size s.mem c < b) (hb2 : b + 16 ≤ s.brk)
    (hcn : get_nextFree s.mem c = 0) :
    free_loop b (k + 1) { s with mem := store s.mem (b + 4) 1 0 } c =
      some { s with mem := store (store s.mem (b + 4) 1 0) (c + 8) 8 b } := by
  unfold get_size at hcb
  unfold get_nextFree at hcn
  have hcond : ¬ (c + load s.mem c 4 + 16 = b) := by omega
  have hcond2 : c + load s.mem c 4 + 16 < b := by omega
  rw [free_loop, if_neg hc0]
  simp only [bind_rd hc1 (show c + 4 ≤ s.brk by omega)]
  simp (disch := omega) only [load_store_disj]
  simp only [METADATA_SIZE, hcond, if_false,
    bind_rd (show s.base ≤ c + 8 by omega) (show c + 8 + 8 ≤ s.brk by omega)]
  simp (disch := omega) only [load_store_disj]
  simp only [hcn, ne_eq, not_true_eq_false, false_and, if_false, hcond2, and_self, if_true,
    wr_eq (show s.base ≤ c + 8 by omega) (show c + 8 + 8 ≤ s.brk by omega)]

theorem free_exec_between_link {s : State} {b c nf k : Nat} (hc0 : c ≠ 0) (hc1 : s.base ≤ c)
    (hcb : c + 16 + get_size s.mem c < b) (hb2 : b + 16 ≤ s.brk)
    (hcn : get_nextFree s.mem c = nf) (hnf : nf ≠ 0) (hbn : b < nf)
    (hadj : b + 16 + get_size s.mem b ≠ nf) :
    free_loop b (k + 1) { s with mem := store s.mem (b + 4) 1 0 } c =
      some { s with
        mem := store (store (store s.mem (b + 4) 1 0) (b + 8) 8 nf) (c + 8) 8 b } := by
  unfold get_size at hcb hadj
  unfold get_nextFree at hcn
  have hcond : ¬ (c + load s.mem c 4 + 16 = b) := by omega
  have hcond2 : ¬ (b + load s.mem b 4 + 16 = nf) := by omega
  rw [free_loop, if_neg hc0]
  simp only [bind_rd hc1 (show c + 4 ≤ s.brk by omega)]
  simp (disch := omega) only [load_store_disj]
  simp only [METADATA_SIZE, hcond, if_false,
    bind_rd (show s.base ≤ c + 8 by omega) (show c + 8 + 8 ≤ s.brk by omega)]
  simp (disch := omega) only [load_store_disj]
  simp only [hcn, ne_eq, hnf, not_false_eq_true, hbn, and_self, if_true, free_between,
    bind_rd (show s.base ≤ b by omega) (show b + 4 ≤ s.brk by omega)]
  simp (disch := omega) only [load_store_disj]
  simp only [METADATA_SIZE, hcond2, if_false,
    bind_wr (show s.base ≤ b + 8 by omega) (show b + 8 + 8 ≤ s.brk by omega),
    wr_eq (show s.base ≤ c + 8 by omega) (show c + 8 + 8 ≤ s.brk by omega)]

theorem free_exec_between_merge {s : State} {b c nf k : Nat} (hc0 : c ≠ 0)
    (hc1 : s.base ≤ c) (hcb : c + 16 + get_size s.mem c < b)
    (hcn : get_nextFree s.mem c = nf) (hnf : nf ≠ 0) (hnb : nf + 16 ≤ s.brk)
    (hadj : b + 16 + get_size s.mem b = nf) :
    free_loop b (k + 1) { s with mem := store s.mem (b + 4) 1 0 } c =
      some { s with
        mem := store (store (store (store s.mem (b + 4) 1 0) b 4
          (get_size s.mem b + 16 + get_size s.mem nf)) (b + 8) 8 (get_nextFree s.mem nf))
          (c + 8) 8 b } := by
  unfold get_size at hcb hadj
  unfold get_nextFree at hcn
  have e : load s.mem b 4 + (load s.mem nf 4 + 16)
      = load s.mem b 4 + 16 + load s.mem nf 4 := by omega
  have hcond : ¬ (c + load s.mem c 4 + 16 = b) := by omega
  have hcond2 : b + load s.mem b 4 + 16 = nf := by omega
  have hbn : b < nf := by omega
  unfold get_size get_nextFree
  rw [free_loop, if_neg hc0]
  simp only [bind_rd hc1 (show c + 4 ≤ s.brk by omega)]
  simp (disch := omega) only [load_store_disj]
  simp only [METADATA_SIZE, hcond, if_false,
    bind_rd (show s.base ≤ c + 8 by omega) (show c + 8 + 8 ≤ s.brk by omega)]
  simp (disch := omega) only [load_store_disj]
  simp only [hcn, ne_eq, hnf, not_false_eq_true, hbn, and_self, if_true, free_between,
    bind_rd (show s.base ≤ b by omega) (show b + 4 ≤ s.brk by omega)]
  simp (disch := omega) only [load_store_disj]
  simp only [METADATA_SIZE, hcond2, if_true,
    bind_rd (show s.base ≤ nf by omega) (show nf + 4 ≤ s.brk by omega)]
  simp (disch := omega) only [load_store_disj]
  simp only [e, bind_wr (show s.base ≤ b by omega) (show b + 4 ≤ s.brk by omega),
    bind_rd (show s.base ≤ c + 8 by omega) (show c + 8 + 8 ≤ s.brk by omega)]
  simp (disch := omega) only [load_store_disj]
  simp only [hcn, bind_rd (show s.base ≤ nf + 8 by omega) (show nf + 8 + 8 ≤ s.brk by omega)]
  simp (disch := omega) only [load_store_disj]
  simp only [bind_wr (show s.base ≤ b + 8 by omega) (show b + 8 + 8 ≤ s.brk by omega),
    wr_eq (show s.base ≤ c + 8 by omega) (show c + 8 + 8 ≤ s.brk by omega)]

theorem free_exec_prev {s : State} {b c nf k : Nat} (hc0 : c ≠ 0) (hc1 : s.base ≤ c)
    (hcb : c + 16 + get_size s.mem c = b) (hb2 : b + 16 ≤ s.brk)
    (hcn : get_nextFree s.mem c = nf)
    (hadj : nf = 0 ∨ b + 16 + get_size s.mem b ≠ nf)
    (hV : get_size s.mem c + 16 + get_size s.mem b < 2 ^ 32) :
    free_loop b (k + 1) { s with mem := store s.mem (b + 4) 1 0 } c =
      some { s with
        mem := store (store s.mem (b + 4) 1 0) c 4
          (get_size s.mem c + 16 + get_size s.mem b) } := by
  unfold get_size at hcb hadj hV
  unfold get_nextFree at hcn
  norm_num at hV
  have e : load s.mem c 4 + (load s.mem b 4 + 16)
      = load s.mem c 4 + 16 + load s.mem b 4 := by omega
  have hcond : c + load s.mem c 4 + 16 = b := by omega
  unfold get_size
  rw [free_loop, if_neg hc0]
  simp only [bind_rd hc1 (show c + 4 ≤ s.brk by omega)]
  simp (disch := omega) only [load_store_disj]
  simp only [METADATA_SIZE, hcond, if_true, free_merge_prev]
  simp only [bind_rd (show s.base ≤ b by omega) (show b + 4 ≤ s.brk by omega),
    bind_wr hc1 (show c + 4 ≤ s.brk by omega),
    bind_rd (show s.base ≤ c + 8 by omega) (show c + 8 + 8 ≤ s.brk by omega)]
  simp (disch := omega) only [load_store_disj, load_store_same4, hcn, e]
  rcases hadj with h0 | h0
  · simp only [h0, if_true]
  · by_cases h1 : nf = 0
    · simp only [h1, if_true]
    · have hcond2 : ¬ (c + (load s.mem c 4 + 16 + load s.mem b 4) + 16 = nf) := by omega
      simp only [h1, if_false, bind_rd hc1 (show c + 4 ≤ s.brk by omega)]
      simp (disch := omega) only [load_store_same4]
      simp only [hcond2, if_false]

theorem free_exec_prev_next {s : State} {b c nf k : Nat} (hc0 : c ≠ 0) (hc1 : s.base ≤ c)
    (hcb : c + 16 + get_size s.mem c = b)
    (hcn : get_nextFree s.mem c = nf) (hnf : nf ≠ 0) (hnb : nf + 16 ≤ s.brk)
    (hadj : b + 16 + get_size s.mem b = nf)
    (hV : get_size s.mem c + 16 + get_size s.mem b < 2 ^ 32) :
    free_loop b (k + 1) { s with mem := store s.mem (b + 4) 1 0 } c =
      some { s with
        mem := store (store (store (store s.mem (b + 4) 1 0) c 4
          (get_size s.mem c + 16 + get_size s.mem b)) c 4
          (get_size s.mem c + 16 + get_size s.mem b + 16 + get_size s.mem nf)) (c + 8) 8
          (get_nextFree s.mem nf) } := by
  unfold get_size at hcb hadj hV
  unfold get_nextFree at hcn
  norm_num at hV
  have e : load s.mem c 4 + (load s.mem b 4 + 16)
      = load s.mem c 4 + 16 + load s.mem b 4 := by omega
  have e2 : load s.mem c 4 + 16 + load s.mem b 4 + (load s.mem nf 4 + 16)
      = load s.mem c 4 + 16 + load s.mem b 4 + 16 + load s.mem nf 4 := by omega
  have hcond : c + load s.mem c 4 + 16 = b := by omega
  have hcond2 : c + (load s.mem c 4 + 16 + load s.mem b 4) + 16 = nf := by omega
  unfold get_size get_nextFree
  rw [free_loop, if_neg hc0]
  repeat (first
    | simp only [METADATA_SIZE, hcond, hcond2, hnf, hcn, e, e2, if_true, if_false,
        free_merge_prev,
        bind_rd hc1 (show c + 4 ≤ s.brk by omega),
        bind_rd (show s.base ≤ b by omega) (show b + 4 ≤ s.brk by omega),
        bind_rd (show s.base ≤ nf by omega) (show nf + 4 ≤ s.brk by omega),
        bind_rd (show s.base ≤ c + 8 by omega) (show c + 8 + 8 ≤ s.brk by omega),
        bind_rd (show s.base ≤ nf + 8 by omega) (show nf + 8 + 8 ≤ s.brk by omega),
        bind_wr hc1 (show c + 4 ≤ s.brk by omega),
        wr_eq (show s.base ≤ c + 8 by omega) (show c + 8 + 8 ≤ s.brk by omega)]
    | simp (disch := omega) only [load_store_disj, load_store_same4])

/-! ## Lemmas: the effect of each path of `free` on the headers -/

theorem free_post_head_merge {s : State} {b nf : Nat} (hb1 : s.base ≤ b)
    (hfh : s.free_head = nf) (hadj : b + 16 + get_size s.mem b = nf)
    (hnf : nf + 16 ≤ s.brk) (hV : get_size s.mem b + 16 + get_size s.mem nf < 2 ^ 32) :
    ∃ s', free_before_head { s with mem := store s.mem (b + 4) 1 0 } b = some s'
      ∧ s'.base = s.base ∧ s'.brk = s.brk ∧ s'.limit = s.limit
      ∧ s'.startOfHeap = s.startOfHeap ∧ s'.free_head = b
      ∧ (∀ z, (z < b ∨ b + 16 ≤ z) → s'.mem z = s.mem z)
      ∧ get_size s'.mem b = get_size s.mem b + 16 + get_size s.mem nf
      ∧ get_isUsed s'.mem b = 0
      ∧ get_nextFree s'.mem b = get_nextFree s.mem nf := by
  refine ⟨_, free_exec_head_merge hb1 hfh hadj hnf hV, rfl, rfl, rfl, rfl, rfl, ?_, ?_, ?_, ?_⟩
  · intro z hz; dsimp only; simp (disch := omega) only [store_out]
  · dsimp only; rw [size_store_next, size_store_size _ _ _ hV]
  · dsimp only; rw [used_store_next, used_store_size]; exact used_store_used _ _ _ (by norm_num)
  · dsimp only; exact next_store_next _ _ _ (get_nextFree_lt _ _)

theorem free_post_head_link {s : State} {b nf : Nat} (hb1 : s.base ≤ b)
    (hb2 : b + 16 ≤ s.brk) (hfh : s.free_head = nf) (hnf : nf < 2 ^ 64)
    (hadj : b + 16 + get_size s.mem b ≠ nf) :
    ∃ s', free_before_head { s with mem := store s.mem (b + 4) 1 0 } b = some s'
      ∧ s'.base = s.base ∧ s'.brk = s.brk ∧ s'.limit = s.limit
      ∧ s'.startOfHeap = s.startOfHeap ∧ s'.free_head = b
      ∧ (∀ z, (z < b ∨ b + 16 ≤ z) → s'.mem z = s.mem z)
      ∧ get_size s'.mem b = get_size s.mem b
      ∧ get_isUsed s'.mem b = 0
      ∧ get_nextFree s'.mem b = nf := by
  refine ⟨_, free_exec_head_link hb1 hb2 hfh hadj, rfl, rfl, rfl, rfl, rfl, ?_, ?_, ?_, ?_⟩
  · intro z hz; dsimp only; simp (disch := omega) only [store_out]
  · dsimp only; rw [size_store_next, size_store_used]
  · dsimp only; rw [used_store_next]; exact used_store_used _ _ _ (by norm_num)
  · dsimp only; exact next_store_next _ _ _ hnf

theorem free_post_tail {s : State} {b c k : Nat} (hc0 : c ≠ 0) (hc1 : s.base ≤ c)
    (hcb : c + 16 + get_size s.mem c < b) (hb2 : b + 16 ≤ s.brk) (hb3 : b < 2 ^ 64)
    (hcn : get_nextFree s.mem c = 0) :
    ∃ s', free_loop b (k + 1) { s with mem := store s.mem (b + 4) 1 0 } c = some s'
      ∧ s'.base = s.base ∧ s'.brk = s.brk ∧ s'.limit = s.limit
      ∧ s'.startOfHeap = s.startOfHeap ∧ s'.free_head = s.free_head
      ∧ (∀ z, (z < b ∨ b + 16 ≤ z) → (z < c + 8 ∨ c + 16 ≤ z) → s'.mem z = s.mem z)
      ∧ get_size s'.mem b = get_size s.mem b
      ∧ get_isUsed s'.mem b = 0
      ∧ get_nextFree s'.mem b = get_nextFree s.mem b
      ∧ get_nextFree s'.mem c = b := by
  refine ⟨_, free_exec_tail hc0 hc1 hcb hb2 hcn, rfl, rfl, rfl, rfl, rfl, ?_, ?_, ?_, ?_, ?_⟩
  · intro z h1 h2; dsimp only; simp (disch := omega) only [store_out]
  · dsimp only; rw [(hdr_frame (by omega)).1, size_store_used]
  · dsimp only; rw [(hdr_frame (by omega)).2.1]; exact used_store_used _ _ _ (by norm_num)
  · dsimp only; rw [(hdr_frame (by omega)).2.2, next_store_used]
  · dsimp only; exact next_store_next _ _ _ hb3

theorem free_post_between_link {s : State} {b c nf k : Nat} (hc0 : c ≠ 0)
    (hc1 : s.base ≤ c) (hcb : c + 16 + get_size s.mem c < b) (hb2 : b + 16 ≤ s.brk)
    (hb3 : b < 2 ^ 64) (hcn : get_nextFree s.mem c = nf) (hnf : nf ≠ 0) (hbn : b < nf)
    (hadj : b + 16 + get_size s.mem b ≠ nf) :
    ∃ s', free_loop b (k + 1) { s with mem := store s.mem (b + 4) 1 0 } c = some s'
      ∧ s'.base = s.base ∧ s'.brk = s.brk ∧ s'.limit = s.limit
      ∧ s'.startOfHeap = s.startOfHeap ∧ s'.free_head = s.free_head
      ∧ (∀ z, (z < b ∨ b + 16 ≤ z) → (z < c + 8 ∨ c + 16 ≤ z) → s'.mem z = s.mem z)
      ∧ get_size s'.mem b = get_size s.mem b
      ∧ get_isUsed s'.mem b = 0
      ∧ get_nextFree s'.mem b = nf
      ∧ get_nextFree s'.mem c = b := by
  have hnf64 : nf < 2 ^ 64 := by rw [← hcn]; exact get_nextFree_lt _ _
  refine ⟨_, free_exec_between_link hc0 hc1 hcb hb2 hcn hnf hbn hadj, rfl, rfl, rfl, rfl, rfl,
    ?_, ?_, ?_, ?_, ?_⟩
  · intro z h1 h2; dsimp only; simp (disch := omega) only [store_out]
  · dsimp only; rw [(hdr_frame (by omega)).1, size_store_next, size_store_used]
  · dsimp only
    rw [(hdr_frame (by omega)).2.1, used_store_next]; exact used_store_used _ _ _ (by norm_num)
  · dsimp only; rw [(hdr_frame (by omega)).2.2]; exact next_store_next _ _ _ hnf64
  · dsimp only; exact next_store_next _ _ _ hb3

theorem free_post_between_merge {s : State} {b c nf k : Nat} (hc0 : c ≠ 0)
    (hc1 : s.base ≤ c) (hcb : c + 16 + get_size s.mem c < b) (hb3 : b < 2 ^ 64)
    (hcn : get_nextFree s.mem c = nf) (hnf : nf ≠ 0) (hnb : nf + 16 ≤ s.brk)
    (hadj : b + 16 + get_size s.mem b = nf)
    (hV : get_size s.mem b + 16 + get_size s.mem nf < 2 ^ 32) :
    ∃ s', free_loop b (k + 1) { s with mem := store s.mem (b + 4) 1 0 } c = some s'
      ∧ s'.base = s.base ∧ s'.brk = s.brk ∧ s'.limit = s.limit
      ∧ s'.startOfHeap = s.startOfHeap ∧ s'.free_head = s.free_head
      ∧ (∀ z, (z < b ∨ b + 16 ≤ z) → (z < c + 8 ∨ c + 16 ≤ z) → s'.mem z = s.mem z)
      ∧ get_size s'.mem b = get_size s.mem b + 16 + get_size s.mem nf
      ∧ get_isUsed s'.mem b = 0
      ∧ get_nextFree s'.mem b = get_nextFree s.mem nf
      ∧ get_nextFree s'.mem c = b := by
  refine ⟨_, free_exec_between_merge hc0 hc1 hcb hcn hnf hnb hadj, rfl, rfl, rfl, rfl, rfl,
    ?_, ?_, ?_, ?_, ?_⟩
  · intro z h1 h2; dsimp only; simp (disch := omega) only [store_out]
  · dsimp only
    rw [(hdr_frame (by omega)).1, size_store_next, size_store_size _ _ _ hV]
  · dsimp only
    rw [(hdr_frame (by omega)).2.1, used_store_next, used_store_size]
    exact used_store_used _ _ _ (by norm_num)
  · dsimp only
    rw [(hdr_frame (by omega)).2.2]; exact next_store_next _ _ _ (get_nextFree_lt _ _)
  · dsimp only; exact next_store_next _ _ _ hb3

theorem free_post_prev {s : State} {b c nf k : Nat} (hc0 : c ≠ 0) (hc1 : s.base ≤ c)
    (hcb : c + 16 + get_size s.mem c = b) (hb2 : b + 16 ≤ s.brk)
    (hcn : get_nextFree s.mem c = nf)
    (hadj : nf = 0 ∨ b + 16 + get_size s.mem b ≠ nf)
    (hV : get_size s.mem c + 16 + get_size s.mem b < 2 ^ 32) :
    ∃ s', free_loop b (k + 1) { s with mem := store s.mem (b + 4) 1 0 } c = some s'
      ∧ s'.base = s.base ∧ s'.brk = s.brk ∧ s'.limit = s.limit
      ∧ s'.startOfHeap = s.startOfHeap ∧ s'.free_head = s.free_head
      ∧ (∀ z, (z < b ∨ b + 16 ≤ z) → (z < c ∨ c + 16 ≤ z) → s'.mem z = s.mem z)
      ∧ get_size s'.mem c = get_size s.mem c + 16 + get_size s.mem b
      ∧ get_isUsed s'.mem c = get_isUsed s.mem c
      ∧ get_nextFree s'.mem c = nf := by
  refine ⟨_, free_exec_prev hc0 hc1 hcb hb2 hcn hadj hV, rfl, rfl, rfl, rfl, rfl,
    ?_, ?_, ?_, ?_⟩
  · intro z h1 h2; dsimp only; simp (disch := omega) only [store_out]
  · dsimp only; rw [size_store_size _ _ _ hV]
  · dsimp only; rw [used_store_size, (hdr_frame (by omega)).2.1]
  · dsimp only; rw [next_store_size, (hdr_frame (by omega)).2.2, hcn]

theorem free_post_prev_next {s : State} {b c nf k : Nat} (hc0 : c ≠ 0) (hc1 : s.base ≤ c)
    (hcb : c + 16 + get_size s.mem c = b)
    (hcn : get_nextFree s.mem c = nf) (hnf : nf ≠ 0) (hnb : nf + 16 ≤ s.brk)
    (hadj : b + 16 + get_size s.mem b = nf)
    (hV : get_size s.mem c + 16 + get_size s.mem b + 16 + get_size s.mem nf < 2 ^ 32) :
    ∃ s', free_loop b (k + 1) { s with mem := store s.mem (b + 4) 1 0 } c = some s'
      ∧ s'.base = s.base ∧ s'.brk = s.brk ∧ s'.limit = s.limit
      ∧ s'.startOfHeap = s.startOfHeap ∧ s'.free_head = s.free_head
      ∧ (∀ z, (z < b ∨ b + 16 ≤ z) → (z < c ∨ c + 16 ≤ z) → s'.mem z = s.mem z)
      ∧ get_size s'.mem c
          = get_size s.mem c + 16 + get_size s.mem b + 16 + get_size s.mem nf
      ∧ get_isUsed s'.mem c = get_isUsed s.mem c
      ∧ get_nextFree s'.mem c = get_nextFree s.mem nf := by
  refine ⟨_, free_exec_prev_next hc0 hc1 hcb hcn hnf hnb hadj (by omega), rfl, rfl, rfl, rfl,
    rfl, ?_, ?_, ?_, ?_⟩
  · intro z h1 h2; dsimp only; simp (disch := omega) only [store_out]
  · dsimp only; rw [size_store_next, size_store_size _ _ _ hV]
  · dsimp only
    rw [used_store_next, used_store_size, used_store_size, (hdr_frame (by omega)).2.1]
  · dsimp only; exact next_store_next _ _ _ (get_nextFree_lt _ _)

/-! ## Lemmas: `free` preserves the invariant -/

theorem frame_fields {m M : Mem} {b c0 c1 a : Nat}
    (hM : ∀ z, (z < b ∨ b + 16 ≤ z) → (z < c0 ∨ c1 ≤ z) → M z = m z)
    (h1 : a + 16 ≤ b ∨ b + 16 ≤ a) (h2 : a + 16 ≤ c0 ∨ c1 ≤ a) :
    get_size M a = get_size m a ∧ get_isUsed M a = get_isUsed m a
      ∧ get_nextFree M a = get_nextFree m a :=
  fields_of_out (fun z hz1 hz2 => hM z (by omega) (by omega))

theorem frame_fields_weak {m M : Mem} {b c0 c1 a : Nat}
    (hM : ∀ z, (z < b ∨ b + 16 ≤ z) → (z < c0 ∨ c1 ≤ z) → M z = m z)
    (h1 : a + 16 ≤ b ∨ b + 16 ≤ a) (h2 : a + 16 ≤ c0 ∨ c1 ≤ a) :
    get_size M a = get_size m a ∧ get_isUsed M a = get_isUsed m a
      ∧ (get_isUsed m a ≠ 0 → get_nextFree M a = get_nextFree m a) :=
  let h := frame_fields hM h1 h2
  ⟨h.1, h.2.1, fun _ => h.2.2⟩

/-- Releasing the used block `b` of a well-formed state, when the size of the
coalesced block fits the size field, succeeds, re-establishes the invariant
and merges `b` with the free blocks contiguous with it. -/
theorem free_spec_fit {s : State} {bs : List Nat} {b : Nat} (hwf : WF s bs) (hb : b ∈ bs)
    (hu : get_isUsed s.mem b ≠ 0) (hfit : fits_field s bs b) :
    ∃ s', free s (b + METADATA_SIZE) = some s'
      ∧ ∃ bs', FreeOk s s' bs bs' b ∧ Merged s s' bs bs' b := by
  obtain ⟨pre, post, rfl⟩ := List.append_of_mem hb
  obtain ⟨x, ht1, hx, ht2⟩ := tiles_append.1 hwf.tiled
  subst hx
  have hB1 := tiles_bounds ht1
  have hB2 := tiles_bounds ht2
  have hfl := hwf.flist
  rw [freeBlocks_append, freeBlocks_cons_used _ hu, chain_append] at hfl
  obtain ⟨nf, hc1, hc2⟩ := hfl
  have hnb := hwf.used_next b hb hu
  obtain ⟨hlim1, hlim2⟩ := hwf.limit_ok
  have hbase := hwf.base_pos
  have hst := hwf.start_ok
  unfold METADATA_SIZE at ht2 hB2 hB1
  have hb1 : s.base ≤ b := by omega
  have hb2 : b + 16 + get_size s.mem b ≤ s.brk := by omega
  have hfit' : ∀ a ∈ pre ++ b :: post, ∀ n ∈ pre ++ b :: post,
      (a = b ∨ (get_isUsed s.mem a = 0 ∧ a + 16 + get_size s.mem a = b)) →
      (n = b ∨ (get_isUsed s.mem n = 0 ∧ b + 16 + get_size s.mem b = n)) →
      n + get_size s.mem n - a < 4294967296 := fun a ha n hn h1 h2 => by
    have := hfit a ha n hn h1 h2
    norm_num at this
    exact this
  have hlim2' : s.limit < 18446744073709551616 := by norm_num at hlim2; exact hlim2
  have hpre_far : ∀ a ∈ pre, s.base ≤ a ∧ heapStart s ≤ a ∧ a + 16 + get_size s.mem a ≤ b :=
    fun a ha => by have := hB1.2 a ha; omega
  have hpost_far : ∀ a ∈ post, b + 16 + get_size s.mem b ≤ a
      ∧ a + 16 + get_size s.mem a ≤ s.brk := fun a ha => hB2.2 a ha
  have hsub1 : ∀ a ∈ pre, a ∈ pre ++ b :: post ∧ a ≠ b := fun a ha =>
    ⟨List.mem_append_left _ ha, by have := hpre_far a ha; omega⟩
  have hsub2 : ∀ a ∈ post, a ∈ pre ++ b :: post ∧ a ≠ b := fun a ha =>
    ⟨List.mem_append_right _ (List.mem_cons_of_mem _ ha), by have := hpost_far a ha; omega⟩
  have hFF := first_free_facts ht2 hc2
  rw [free_exec_start hb1 (by omega) (by norm_num; omega) hu]
  -- the block list when `b` stays a block of its own
  have hmid_b : ∀ (E : Nat), get_size s.mem b ≤ E → ∀ a ∈ pre ++ b :: post,
      a ∈ pre ∨ a ∈ post ∨ (b ≤ a ∧ a + 16 + get_size s.mem a ≤ b + 16 + E
        ∧ (a = b ∨ get_isUsed s.mem a = 0)) := by
    intro E hE a ha
    rcases List.mem_append.1 ha with h | h
    · exact Or.inl h
    · rcases List.mem_cons.1 h with h | h
      · right; right; rw [h]; exact ⟨le_refl _, by omega, Or.inl rfl⟩
      · exact Or.inr (Or.inl h)
  -- the block list when `b` absorbs the block `nf` that follows it
  have hmerge : ∀ (hnf : nf ≠ 0), b + 16 + get_size s.mem b = nf →
      ∃ post', post = nf :: post' ∧ tiles s.mem (nf + 16 + get_size s.mem nf) post' s.brk
        ∧ chain s.mem (get_nextFree s.mem nf) (freeBlocks s.mem post') 0
        ∧ (∀ a ∈ post', a ∈ pre ++ b :: post ∧ a ≠ b ∧ nf + 16 + get_size s.mem nf ≤ a)
        ∧ (∀ a ∈ post', get_isUsed s.mem a = 0 → a ≠ nf + 16 + get_size s.mem nf)
        ∧ (∀ a ∈ pre ++ b :: post, a ∈ pre ∨ a ∈ post' ∨ (b ≤ a
            ∧ a + 16 + get_size s.mem a ≤ nf + 16 + get_size s.mem nf
            ∧ (a = b ∨ get_isUsed s.mem a = 0)))
        ∧ nf + 16 + get_size s.mem nf ≤ s.brk ∧ get_isUsed s.mem nf = 0 := by
    intro hnf hadj
    obtain ⟨hnfm, hnff, hnfl⟩ := hFF.2 hnf
    obtain ⟨post', hpo, ht3, hc3⟩ := adjacent_head ht2 hc2 hnfm hnff hadj
    have hpm : ∀ a ∈ post', a ∈ post := fun a ha => by
      rw [hpo]; exact List.mem_cons_of_mem _ ha
    have hpf := tiles_bounds ht3
    unfold METADATA_SIZE at hpf
    refine ⟨post', hpo, ht3, hc3, fun a ha => ⟨(hsub2 a (hpm a ha)).1, (hsub2 a (hpm a ha)).2,
      (hpf.2 a ha).1⟩, ?_, ?_, (hpost_far nf hnfm).2, hnff⟩
    · intro a ha hfa
      have := hwf.no_adj nf (hsub2 nf hnfm).1 a (hsub2 a (hpm a ha)).1 hnff hfa
      unfold METADATA_SIZE at this
      omega
    · intro a ha
      rcases List.mem_append.1 ha with h | h
      · exact Or.inl h
      · rcases List.mem_cons.1 h with h | h
        · right; right; rw [h]; exact ⟨le_refl _, by omega, Or.inl rfl⟩
        · rw [hpo] at h
          rcases List.mem_cons.1 h with h | h
          · right; right; rw [h]; exact ⟨by omega, by omega, Or.inr hnff⟩
          · exact Or.inr (Or.inl h)
  -- no free block of `post` starts where `b` ends, unless it is `nf`
  have hnoadj : (nf = 0 ∨ b + 16 + get_size s.mem b ≠ nf) →
      ∀ a ∈ post, get_isUsed s.mem a = 0 → a ≠ b + 16 + get_size s.mem b := by
    intro h a ha hfa
    by_cases hnf : nf = 0
    · exact absurd hfa (hFF.1 hnf a ha)
    · obtain ⟨hnfm, hnff, hnfl⟩ := hFF.2 hnf
      have := hpost_far nf hnfm
      rcases hnfl a ha hfa with h' | h' <;> omega
  rcases List.eq_nil_or_concat (freeBlocks s.mem pre) with hfp | ⟨l, c, hfp⟩
  · -- no free block before `b`
    rw [hfp] at hc1
    have hfh : s.free_head = nf := hc1
    have hpre_used : ∀ a ∈ pre, get_isUsed s.mem a = 0 → ∀ (y : Nat),
        a + 16 + get_size s.mem a ≠ y := by
      intro a ha hfa
      have : a ∈ freeBlocks s.mem pre := mem_freeBlocks.2 ⟨ha, hfa⟩
      rw [hfp] at this; cases this
    have hfr1 : ∀ (M : Mem), (∀ z, (z < b ∨ b + 16 ≤ z) → M z = s.mem z) →
        ∀ a ∈ pre, get_size M a = get_size s.mem a ∧ get_isUsed M a = get_isUsed s.mem a
          ∧ (get_isUsed s.mem a ≠ 0 → get_nextFree M a = get_nextFree s.mem a) :=
      fun M hM a ha => @frame_fields_weak _ _ _ 0 0 _ (fun z h1 _ => hM z h1)
        (by have := hpre_far a ha; omega) (by omega)
    have hfr2 : ∀ (M : Mem), (∀ z, (z < b ∨ b + 16 ≤ z) → M z = s.mem z) →
        ∀ a, b + 16 ≤ a → get_size M a = get_size s.mem a
          ∧ get_isUsed M a = get_isUsed s.mem a
          ∧ get_nextFree M a = get_nextFree s.mem a :=
      fun M hM a ha => @frame_fields _ _ _ 0 0 _ (fun z h1 _ => hM z h1)
        (by omega) (by omega)
    have hout : ∀ (M : Mem), (∀ z, (z < b ∨ b + 16 ≤ z) → M z = s.mem z) →
        ∀ z, (∀ a ∈ pre ++ b :: post, z < a ∨ a + 16 ≤ z) → M z = s.mem z :=
      fun M hM z hz => hM z (hz b hb)
    have hch1 : ∀ (M : Mem), chain M b (freeBlocks s.mem pre) b := by
      intro M; rw [hfp]; rfl
    by_cases hnf : nf = 0
    · -- the free list is empty
      rw [if_pos (hfh.trans hnf)]
      have hM : ∀ z, (z < b ∨ b + 16 ≤ z) → store s.mem (b + 4) 1 0 z = s.mem z :=
        fun z hz => store_out (by omega)
      have hsz : get_size (store s.mem (b + 4) 1 0) b = get_size s.mem b :=
        size_store_used _ _ _
      refine ⟨_, rfl, pre ++ b :: post, ?_,
        ⟨pre, b, [], post, rfl, rfl, List.mem_cons_self _ _, fun a ha => Or.inl (by simpa using ha),
          by dsimp only; rw [hsz]; simp, fun a ha => ?_⟩⟩
      swap
      · rcases List.mem_append.1 ha with h | h
        · exact (hfr1 _ hM a h).1
        · exact (hfr2 _ hM a (by have := hpost_far a h; omega)).1
      refine splice_ok hwf rfl rfl rfl rfl ht1 ?_ hsub1 hsub2 ?_ (hfr1 _ hM)
        (fun a ha => hfr2 _ hM a (by have := hpost_far a ha; omega)) (by omega)
        (used_store_used _ _ _ (by norm_num)) (hch1 _) ?_
        (fun a ha hfa => hpre_used a ha hfa _) ?_ (hout _ hM)
      · dsimp only; rw [hsz]; exact ht2
      · dsimp only; rw [hsz]; exact hmid_b _ (le_refl _)
      · dsimp only; rw [next_store_used, hnb]; rw [hnf] at hc2; exact hc2
      · dsimp only; rw [hsz]; exact hnoadj (Or.inl hnf)
    · -- the head of the free list lies after `b`
      obtain ⟨hnfm, hnff, hnfl⟩ := hFF.2 hnf
      have hnfar := hpost_far nf hnfm
      rw [if_neg (by omega), if_pos (by omega)]
      by_cases hadj : b + 16 + get_size s.mem b = nf
      · -- merge with the head
        obtain ⟨post', hpo, ht3, hc3, hpm, hadj2, hmid, hnfb, _⟩ := hmerge hnf hadj
        have hV := hfit' b hb nf (hsub2 nf hnfm).1 (Or.inl rfl) (Or.inr ⟨hnff, hadj⟩)
        obtain ⟨s', hfree, hbase', hbrk', hlim', hstart', hfh', hM, hszb, hub, hnxb⟩ :=
          free_post_head_merge hb1 hfh hadj (by omega) (by norm_num; omega)
        refine ⟨s', hfree, pre ++ b :: post', ?_,
          ⟨pre, b, [nf], post', by rw [hpo]; rfl, rfl, List.mem_cons_self _ _, ?_,
            by rw [hszb]; simp [METADATA_SIZE]; omega, fun a ha => ?_⟩⟩
        rotate_left
        · intro a ha
          rcases List.mem_cons.1 ha with h | h
          · exact Or.inl h
          · right; rw [show a = nf by simpa using h]; exact hnff
        · rcases List.mem_append.1 ha with h | h
          · exact (hfr1 _ hM a h).1
          · exact (hfr2 _ hM a (by have := (hpm a h).2.2; omega)).1
        refine splice_ok hwf hbase' hbrk' hlim' hstart' ht1 ?_ hsub1
          (fun a ha => ⟨(hpm a ha).1, (hpm a ha).2.1⟩) ?_ (hfr1 _ hM)
          (fun a ha => hfr2 _ hM a (by have := (hpm a ha).2.2; omega)) (by omega) hub
          (by rw [hfh']; exact hch1 _) (by rw [hnxb]; exact hc3)
          (fun a ha hfa => hpre_used a ha hfa _) ?_ (hout _ hM)
        · rw [hszb]
          have : b + 16 + (get_size s.mem b + 16 + get_size s.mem nf)
              = nf + 16 + get_size s.mem nf := by omega
          rw [this]; exact ht3
        · rw [hszb]
          have : b + 16 + (get_size s.mem b + 16 + get_size s.mem nf)
              = nf + 16 + get_size s.mem nf := by omega
          rw [this]; exact hmid
        · rw [hszb]
          have : b + 16 + (get_size s.mem b + 16 + get_size s.mem nf)
              = nf + 16 + get_size s.mem nf := by omega
          rw [this]; exact hadj2
      · -- link before the head
        obtain ⟨s', hfree, hbase', hbrk', hlim', hstart', hfh', hM, hszb, hub, hnxb⟩ :=
          free_post_head_link hb1 (by omega) hfh (by norm_num; omega) hadj
        refine ⟨s', hfree, pre ++ b :: post, ?_,
          ⟨pre, b, [], post, rfl, rfl, List.mem_cons_self _ _,
            fun a ha => Or.inl (by simpa using ha), by rw [hszb]; simp, fun a ha => ?_⟩⟩
        swap
        · rcases List.mem_append.1 ha with h | h
          · exact (hfr1 _ hM a h).1
          · exact (hfr2 _ hM a (by have := hpost_far a h; omega)).1
        refine splice_ok hwf hbase' hbrk' hlim' hstart' ht1 ?_ hsub1 hsub2 ?_ (hfr1 _ hM)
          (fun a ha => hfr2 _ hM a (by have := hpost_far a ha; omega)) (by omega) hub
          (by rw [hfh']; exact hch1 _) (by rw [hnxb]; exact hc2)
          (fun a ha hfa => hpre_used a ha hfa _) ?_ (hout _ hM)
        · rw [hszb]; exact ht2
        · rw [hszb]; exact hmid_b _ (le_refl _)
        · rw [hszb]; exact hnoadj (Or.inr hadj)
  · -- `c` is the last free block before `b`
    rw [List.concat_eq_append] at hfp
    obtain ⟨hcm, hcf, hlf, hprf⟩ := last_free_facts ht1 hfp
    rw [hfp] at hc1
    obtain ⟨hcl, hc0, hcn⟩ := chain_snoc.1 hc1
    have hcfar := hpre_far c hcm
    have hfhm := chain_head_mem hc1 (by simp)
    have hlpre : ∀ y ∈ l ++ [c], y ∈ pre := by
      intro y hy
      have : y ∈ freeBlocks s.mem pre := by rw [hfp]; exact hy
      exact (mem_freeBlocks.1 this).1
    have hfhfar := hpre_far _ (hlpre _ hfhm.1)
    rw [if_neg hfhm.2, if_neg (by omega)]
    have hlen : l.length + 1 ≤ pre.length := by
      have h1 := List.length_filter_le (fun b => decide (get_isUsed s.mem b = 0)) pre
      have h2 : (freeBlocks s.mem pre).length = l.length + 1 := by rw [hfp]; simp
      unfold freeBlocks at h2; omega
    have htl := tiles_length ht1
    have hwalk := @free_loop_walk { s with mem := store s.mem (b + 4) 1 0 } b c nf l s.free_head (loop_fuel { s with mem := store s.mem (b + 4) 1 0 })
      (chain_congr (fun y hy =>
        (hdr_frame (Or.inl (by have := hpre_far y (hlpre y hy); omega))).2.2) hc1)
      (fun y hy => by have := hpre_far y (hlpre y hy); dsimp only; omega)
      (fun y hy => by
        have h1 := hlf y hy
        have h2 := hpre_far y h1.1
        have : get_size (store s.mem (b + 4) 1 0) y = get_size s.mem y :=
          (hdr_frame (Or.inl (by omega))).1
        dsimp only; rw [this]; omega)
      (by unfold loop_fuel; dsimp only; omega)
    obtain ⟨k, hk⟩ : ∃ k, loop_fuel { s with mem := store s.mem (b + 4) 1 0 } - l.length
        = k + 1 := ⟨s.brk - s.base - l.length, by unfold loop_fuel; dsimp only; omega⟩
    rw [hwalk, hk]
    have hout : ∀ (M : Mem) (c0 : Nat), c ≤ c0 →
        (∀ z, (z < b ∨ b + 16 ≤ z) → (z < c0 ∨ c + 16 ≤ z) → M z = s.mem z) →
        ∀ z, (∀ a ∈ pre ++ b :: post, z < a ∨ a + 16 ≤ z) → M z = s.mem z := by
      intro M c0 hc0' hM z hz
      have h1 := hz b hb
      have h2 := hz c (hsub1 c hcm).1
      exact hM z h1 (by omega)
    have hfr2 : ∀ (M : Mem) (c0 : Nat),
        (∀ z, (z < b ∨ b + 16 ≤ z) → (z < c0 ∨ c + 16 ≤ z) → M z = s.mem z) →
        ∀ a, b + 16 ≤ a → get_size M a = get_size s.mem a
          ∧ get_isUsed M a = get_isUsed s.mem a
          ∧ get_nextFree M a = get_nextFree s.mem a :=
      fun M c0 hM a ha => frame_fields hM (by omega) (by omega)
    have hchl : ∀ (M : Mem) (c0 : Nat), c ≤ c0 →
        (∀ z, (z < b ∨ b + 16 ≤ z) → (z < c0 ∨ c + 16 ≤ z) → M z = s.mem z) →
        chain M s.free_head l c := by
      intro M c0 h3 hM
      refine chain_congr (fun y hy => ?_) hcl
      have h1 := hlf y hy
      have h2 := hpre_far y h1.1
      exact (fields_of_out (fun z hz1 hz2 => hM z (by omega) (by omega))).2.2
    by_cases hcadj : c + 16 + get_size s.mem c = b
    · -- `b` is merged into `c`
      obtain ⟨pre', hpe, htp, hfpp⟩ := adjacent_last ht1 hfp hcadj
      have hBp := tiles_bounds htp
      unfold METADATA_SIZE at hBp
      have hpp : ∀ a ∈ pre', a ∈ pre := fun a ha => by
        rw [hpe]; exact List.mem_append_left _ ha
      have hsubp : ∀ a ∈ pre', a ∈ pre ++ b :: post ∧ a ≠ b := fun a ha => hsub1 a (hpp a ha)
      have hfr1 : ∀ (M : Mem),
          (∀ z, (z < b ∨ b + 16 ≤ z) → (z < c ∨ c + 16 ≤ z) → M z = s.mem z) →
          ∀ a ∈ pre', get_size M a = get_size s.mem a
            ∧ get_isUsed M a = get_isUsed s.mem a
            ∧ (get_isUsed s.mem a ≠ 0 → get_nextFree M a = get_nextFree s.mem a) :=
        fun M hM a ha => frame_fields_weak hM (by have := hBp.2 a ha; omega)
          (by have := hBp.2 a ha; omega)
      have hadj1 : ∀ a ∈ pre', get_isUsed s.mem a = 0 → a + 16 + get_size s.mem a ≠ c := by
        intro a ha hfa
        have := hwf.no_adj a (hsubp a ha).1 c (hsub1 c hcm).1 hfa hcf
        unfold METADATA_SIZE at this; exact this
      have hmidc : ∀ a ∈ pre, a ∈ pre' ∨ a = c := by
        intro a ha
        rw [hpe] at ha
        rcases List.mem_append.1 ha with h | h
        · exact Or.inl h
        · exact Or.inr (by simpa using h)
      by_cases hmg : nf ≠ 0 ∧ b + 16 + get_size s.mem b = nf
      · -- and `c` absorbs the block after `b` as well
        obtain ⟨post', hpo, ht3, hc3, hpm, hadj2, hmid, hnfb, hnff⟩ := hmerge hmg.1 hmg.2
        have hV := hfit' c (hsub1 c hcm).1 nf (hsub2 nf (hFF.2 hmg.1).1).1
          (Or.inr ⟨hcf, hcadj⟩) (Or.inr ⟨hnff, hmg.2⟩)
        obtain ⟨s', hfree, hbase', hbrk', hlim', hstart', hfh', hM, hszc, huc, hnxc⟩ :=
          free_post_prev_next (k := k) hc0 hcfar.1 hcadj hcn hmg.1 (by omega) hmg.2
            (by norm_num; omega)
        have hE : c + 16 + (get_size s.mem c + 16 + get_size s.mem b + 16 + get_size s.mem nf)
            = nf + 16 + get_size s.mem nf := by omega
        refine ⟨s', hfree, pre' ++ c :: post', ?_,
          ⟨pre', c, [b, nf], post', by rw [hpe, hpo]; simp, rfl, by simp, ?_,
            by rw [hszc]; simp [METADATA_SIZE]; omega, fun a ha => ?_⟩⟩
        rotate_left
        · intro a ha
          simp only [List.mem_cons, List.mem_singleton, List.not_mem_nil, or_false] at ha
          rcases ha with h | h | h
          · right; rw [h]; exact hcf
          · exact Or.inl h
          · right; rw [h]; exact hnff
        · rcases List.mem_append.1 ha with h | h
          · exact (hfr1 _ hM a h).1
          · exact (hfr2 _ _ hM a (by have := (hpm a h).2.2; omega)).1
        refine splice_ok hwf hbase' hbrk' hlim' hstart' htp ?_ hsubp
          (fun a ha => ⟨(hpm a ha).1, (hpm a ha).2.1⟩) ?_ (hfr1 _ hM)
          (fun a ha => hfr2 _ _ hM a (by have := (hpm a ha).2.2; omega)) hc0
          (by rw [huc]; exact hcf)
          (by rw [hfh', hfpp]; exact hchl _ _ (le_refl _) hM) (by rw [hnxc]; exact hc3)
          hadj1 ?_ (hout _ _ (le_refl _) hM)
        · rw [hszc, hE]; exact ht3
        · rw [hszc, hE]
          intro a ha
          rcases hmid a ha with h | h | h
          · rcases hmidc a h with h' | h'
            · exact Or.inl h'
            · right; right; rw [h']; exact ⟨le_refl _, by omega, Or.inr hcf⟩
          · exact Or.inr (Or.inl h)
          · right; right; exact ⟨by omega, h.2.1, h.2.2⟩
        · rw [hszc, hE]; exact hadj2
      · -- only `b` is absorbed
        have hmg' : nf = 0 ∨ b + 16 + get_size s.mem b ≠ nf := by
          by_cases h0 : nf = 0
          · exact Or.inl h0
          · exact Or.inr (fun h => hmg ⟨h0, h⟩)
        have hV := hfit' c (hsub1 c hcm).1 b hb (Or.inr ⟨hcf, hcadj⟩) (Or.inl rfl)
        obtain ⟨s', hfree, hbase', hbrk', hlim', hstart', hfh', hM, hszc, huc, hnxc⟩ :=
          free_post_prev (k := k) hc0 hcfar.1 hcadj (by omega) hcn hmg' (by norm_num; omega)
        have hE : c + 16 + (get_size s.mem c + 16 + get_size s.mem b)
            = b + 16 + get_size s.mem b := by omega
        refine ⟨s', hfree, pre' ++ c :: post, ?_,
          ⟨pre', c, [b], post, by rw [hpe]; simp, rfl, by simp, ?_,
            by rw [hszc]; simp [METADATA_SIZE]; omega, fun a ha => ?_⟩⟩
        rotate_left
        · intro a ha
          simp only [List.mem_cons, List.mem_singleton, List.not_mem_nil, or_false] at ha
          rcases ha with h | h
          · right; rw [h]; exact hcf
          · exact Or.inl h
        · rcases List.mem_append.1 ha with h | h
          · exact (hfr1 _ hM a h).1
          · exact (hfr2 _ _ hM a (by have := hpost_far a h; omega)).1
        refine splice_ok hwf hbase' hbrk' hlim' hstart' htp ?_ hsubp hsub2 ?_ (hfr1 _ hM)
          (fun a ha => hfr2 _ _ hM a (by have := hpost_far a ha; omega)) hc0
          (by rw [huc]; exact hcf)
          (by rw [hfh', hfpp]; exact hchl _ _ (le_refl _) hM) (by rw [hnxc]; exact hc2)
          hadj1 ?_ (hout _ _ (le_refl _) hM)
        · rw [hszc, hE]; exact ht2
        · rw [hszc, hE]
          intro a ha
          rcases hmid_b _ (le_refl _) a ha with h | h | h
          · rcases hmidc a h with h' | h'
            · exact Or.inl h'
            · right; right; rw [h']; exact ⟨le_refl _, by omega, Or.inr hcf⟩
          · exact Or.inr (Or.inl h)
          · right; right; exact ⟨by omega, h.2.1, h.2.2⟩
        · rw [hszc, hE]; exact hnoadj hmg'
    · -- `c` is not contiguous with `b`
      have hcadj2 : c + 16 + get_size s.mem c < b := by omega
      have hfr1 : ∀ (M : Mem),
          (∀ z, (z < b ∨ b + 16 ≤ z) → (z < c + 8 ∨ c + 16 ≤ z) → M z = s.mem z) →
          ∀ a ∈ pre, get_size M a = get_size s.mem a
            ∧ get_isUsed M a = get_isUsed s.mem a
            ∧ (get_isUsed s.mem a ≠ 0 → get_nextFree M a = get_nextFree s.mem a) := by
        intro M hM a ha
        have hf := hpre_far a ha
        by_cases hac : a = c
        · subst hac
          exact ⟨load_congr (fun z h1 h2 => hM z (by omega) (by omega)),
            load_congr (fun z h1 h2 => hM z (by omega) (by omega)),
            fun h => absurd hcf h⟩
        · have hs := tiles_sep ht1 a ha c hcm hac
          exact frame_fields_weak hM (by omega) (by omega)
      have hch1 : ∀ (M : Mem),
          (∀ z, (z < b ∨ b + 16 ≤ z) → (z < c + 8 ∨ c + 16 ≤ z) → M z = s.mem z) →
          get_nextFree M c = b → chain M s.free_head (freeBlocks s.mem pre) b := by
        intro M hM hn
        rw [hfp]
        exact chain_snoc.2 ⟨hchl _ _ (by omega) hM, hc0, hn⟩
      have hadj1 : ∀ a ∈ pre, get_isUsed s.mem a = 0 → a + 16 + get_size s.mem a ≠ b := by
        intro a ha hfa
        rcases hprf a ha hfa with h | h
        · rw [h]; exact hcadj
        · omega
      by_cases hnf : nf = 0
      · -- `b` becomes the tail of the free list
        obtain ⟨s', hfree, hbase', hbrk', hlim', hstart', hfh', hM, hszb, hub, hnxb, hnxc⟩ :=
          free_post_tail (k := k) hc0 hcfar.1 hcadj2 (by omega) (by norm_num; omega)
            (hcn.trans hnf)
        refine ⟨s', hfree, pre ++ b :: post, ?_,
          ⟨pre, b, [], post, rfl, rfl, List.mem_cons_self _ _,
            fun a ha => Or.inl (by simpa using ha), by rw [hszb]; simp, fun a ha => ?_⟩⟩
        swap
        · rcases List.mem_append.1 ha with h | h
          · exact (hfr1 _ hM a h).1
          · exact (hfr2 _ _ hM a (by have := hpost_far a h; omega)).1
        refine splice_ok hwf hbase' hbrk' hlim' hstart' ht1 ?_ hsub1 hsub2 ?_ (hfr1 _ hM)
          (fun a ha => hfr2 _ _ hM a (by have := hpost_far a ha; omega)) (by omega) hub
          (by rw [hfh']; exact hch1 _ hM hnxc)
          (by rw [hnxb, hnb]; rw [hnf] at hc2; exact hc2)
          hadj1 ?_ (hout _ _ (by omega) hM)
        · rw [hszb]; exact ht2
        · rw [hszb]; exact hmid_b _ (le_refl _)
        · rw [hszb]; exact hnoadj (Or.inl hnf)
      · -- `b` is linked between `c` and `nf`
        obtain ⟨hnfm, hnff, hnfl⟩ := hFF.2 hnf
        have hnfar := hpost_far nf hnfm
        by_cases hadj : b + 16 + get_size s.mem b = nf
        · -- merge with `nf`
          obtain ⟨post', hpo, ht3, hc3, hpm, hadj2, hmid, hnfb, _⟩ := hmerge hnf hadj
          have hV := hfit' b hb nf (hsub2 nf hnfm).1 (Or.inl rfl) (Or.inr ⟨hnff, hadj⟩)
          obtain ⟨s', hfree, hbase', hbrk', hlim', hstart', hfh', hM, hszb, hub, hnxb,
              hnxc⟩ :=
            free_post_between_merge (k := k) hc0 hcfar.1 hcadj2 (by norm_num; omega) hcn hnf
              (by omega) hadj (by norm_num; omega)
          have hE : b + 16 + (get_size s.mem b + 16 + get_size s.mem nf)
              = nf + 16 + get_size s.mem nf := by omega
          refine ⟨s', hfree, pre ++ b :: post', ?_,
            ⟨pre, b, [nf], post', by rw [hpo]; rfl, rfl, List.mem_cons_self _ _, ?_,
              by rw [hszb]; simp [METADATA_SIZE]; omega, fun a ha => ?_⟩⟩
          rotate_left
          · intro a ha
            rcases List.mem_cons.1 ha with h | h
            · exact Or.inl h
            · right; rw [show a = nf by simpa using h]; exact hnff
          · rcases List.mem_append.1 ha with h | h
            · exact (hfr1 _ hM a h).1
            · exact (hfr2 _ _ hM a (by have := (hpm a h).2.2; omega)).1
          refine splice_ok hwf hbase' hbrk' hlim' hstart' ht1 ?_ hsub1
            (fun a ha => ⟨(hpm a ha).1, (hpm a ha).2.1⟩) ?_ (hfr1 _ hM)
            (fun a ha => hfr2 _ _ hM a (by have := (hpm a ha).2.2; omega)) (by omega) hub
            (by rw [hfh']; exact hch1 _ hM hnxc) (by rw [hnxb]; exact hc3)
            hadj1 ?_ (hout _ _ (by omega) hM)
          · rw [hszb, hE]; exact ht3
          · rw [hszb, hE]; exact hmid
          · rw [hszb, hE]; exact hadj2
        · -- no merge
          obtain ⟨s', hfree, hbase', hbrk', hlim', hstart', hfh', hM, hszb, hub, hnxb,
              hnxc⟩ :=
            free_post_between_link (k := k) hc0 hcfar.1 hcadj2 (by omega) (by norm_num; omega)
              hcn hnf (by omega) hadj
          refine ⟨s', hfree, pre ++ b :: post, ?_,
            ⟨pre, b, [], post, rfl, rfl, List.mem_cons_self _ _,
              fun a ha => Or.inl (by simpa using ha), by rw [hszb]; simp, fun a ha => ?_⟩⟩
          swap
          · rcases List.mem_append.1 ha with h | h
            · exact (hfr1 _ hM a h).1
            · exact (hfr2 _ _ hM a (by have := hpost_far a h; omega)).1
          refine splice_ok hwf hbase' hbrk' hlim' hstart' ht1 ?_ hsub1 hsub2 ?_ (hfr1 _ hM)
            (fun a ha => hfr2 _ _ hM a (by have := hpost_far a ha; omega)) (by omega) hub
            (by rw [hfh']; exact hch1 _ hM hnxc) (by rw [hnxb]; exact hc2)
            hadj1 ?_ (hout _ _ (by omega) hM)
          · rw [hszb]; exact ht2
          · rw [hszb]; exact hmid_b _ (le_refl _)
          · rw [hszb]; exact hnoadj (Or.inr hadj)

/-- A heap that spans less than `2^32` bytes has no block whose size does not
fit the size field. -/
theorem fits_of_span {s : State} {bs : List Nat} (hwf : WF s bs) (b : Nat)
    (hspan : s.brk - heapStart s < 2 ^ 32) : fits_field s bs b := by
  intro a ha n hn _ _
  have hB := tiles_bounds hwf.tiled
  have h1 := hB.2 a ha
  have h2 := hB.2 n hn
  norm_num at hspan ⊢
  omega

/-- Releasing the used block `b` of a well-formed state whose heap spans less
than `2^32` bytes succeeds and re-establishes the invariant. -/
theorem free_spec {s : State} {bs : List Nat} {b : Nat} (hwf : WF s bs) (hb : b ∈ bs)
    (hu : get_isUsed s.mem b ≠ 0) (hspan : s.brk - heapStart s < 2 ^ 32) :
    ∃ s', free s (b + METADATA_SIZE) = some s' ∧ ∃ bs', FreeOk s s' bs bs' b := by
  obtain ⟨s', he, bs', hok, _⟩ := free_spec_fit hwf hb hu (fits_of_span hwf b hspan)
  exact ⟨s', he, bs', hok⟩

/-! ## Lemmas: what each path of `malloc` computes -/

theorem malloc_start {s : State} (size : Nat) (h : s.brk ≤ s.limit) :
    malloc s size = malloc_loop size (loop_fuel s) { s with startOfHeap := heapStart s }
      s.free_head 0 := by
  unfold malloc heapStart sbrk
  by_cases h0 : s.startOfHeap = 0
  · simp only [h0, if_true, Nat.add_zero, h, show (0 : Nat) < 2 ^ 63 by norm_num]; rfl
  · simp only [h0, if_false]

theorem sub64_sub64 {csz size : Nat} (h1 : size + 16 ≤ csz) (h2 : csz < 2 ^ 32) :
    sub64 (sub64 csz size) METADATA_SIZE = csz - size - 16 := by
  unfold sub64 METADATA_SIZE
  norm_num at h2 ⊢
  omega

theorem malloc_exec_miss {s : State} {size : Nat} (h1 : s.base ≤ s.brk)
    (h2 : s.brk + 16 + size ≤ s.limit) (h3 : size < 2 ^ 63) :
    malloc_miss s size = some (s.brk + 16,
      { s with brk := s.brk + 16 + size,
               mem := store (store (store s.mem s.brk 4 size) (s.brk + 4) 1 1)
                 (s.brk + 8) 8 0 }) := by
  unfold malloc_miss sbrk
  simp only [METADATA_SIZE, show s.brk + 16 ≤ s.limit by omega, if_true,
    show (16 : Nat) < 2 ^ 63 by norm_num]
  simp only [bind_wr h1 (show s.brk + 4 ≤ s.brk + 16 by omega),
    bind_wr (show s.base ≤ s.brk + 4 by omega) (show s.brk + 4 + 1 ≤ s.brk + 16 by omega),
    h2, h3, if_true,
    bind_wr (show s.base ≤ s.brk + 8 by omega)
      (show s.brk + 8 + 8 ≤ s.brk + 16 + size by omega)]

/-- The split path of `malloc` on the head of the free list. -/
theorem malloc_exec_split_head {s : State} {size c : Nat} (hc1 : s.base ≤ c)
    (hc2 : c + 16 + get_size s.mem c ≤ s.brk) (hsz : size + 16 ≤ get_size s.mem c)
    (hfh : s.free_head = c) :
    malloc_hit s size c 0 (get_size s.mem c) = some (c + 16,
      { s with free_head := c + 16 + size,
               mem := store (store (store (store (store (store s.mem
                 (c + 16 + size) 4 (get_size s.mem c - size - 16))
                 (c + 16 + size + 4) 1 0)
                 (c + 16 + size + 8) 8 (get_nextFree s.mem c))
                 c 4 size) (c + 4) 1 1) (c + 8) 8 0 }) := by
  have hlt := get_size_lt s.mem c
  have e : sub64 (sub64 (get_size s.mem c) size) 16 = get_size s.mem c - size - 16 :=
    sub64_sub64 hsz hlt
  unfold get_size at hc2 hsz hlt e
  norm_num at hlt
  have hcond : load s.mem c 4 ≥ (size + 16) % 18446744073709551616 := by omega
  unfold malloc_hit get_size get_nextFree
  repeat (first
    | simp only [METADATA_SIZE, hcond, e, hfh, if_true, if_false, ne_eq, not_true_eq_false,
        Option.some_bind, Nat.reducePow,
        bind_wr (show s.base ≤ c + 16 + size by omega)
          (show c + 16 + size + 4 ≤ s.brk by omega),
        bind_wr (show s.base ≤ c + 16 + size + 4 by omega)
          (show c + 16 + size + 4 + 1 ≤ s.brk by omega),
        bind_wr (show s.base ≤ c + 16 + size + 8 by omega)
          (show c + 16 + size + 8 + 8 ≤ s.brk by omega),
        bind_rd (show s.base ≤ c + 8 by omega) (show c + 8 + 8 ≤ s.brk by omega),
        bind_wr hc1 (show c + 4 ≤ s.brk by omega),
        bind_wr (show s.base ≤ c + 4 by omega) (show c + 4 + 1 ≤ s.brk by omega),
        bind_wr (show s.base ≤ c + 8 by omega) (show c + 8 + 8 ≤ s.brk by omega)]
    | simp (disch := omega) only [load_store_disj])

/-- The split path of `malloc` on a free block with a predecessor in the list. -/
theorem malloc_exec_split_inner {s : State} {size c prev : Nat} (hc1 : s.base ≤ c)
    (hc2 : c + 16 + get_size s.mem c ≤ s.brk) (hsz : size + 16 ≤ get_size s.mem c)
    (hp0 : prev ≠ 0) (hp1 : s.base ≤ prev) (hp2 : prev + 16 ≤ s.brk)
    (hfh : s.free_head ≠ c) :
    malloc_hit s size c prev (get_size s.mem c) = some (c + 16,
      { s with mem := store (store (store (store (store (store (store s.mem
                 (c + 16 + size) 4 (get_size s.mem c - size - 16))
                 (c + 16 + size + 4) 1 0)
                 (c + 16 + size + 8) 8 (get_nextFree s.mem c))
                 (prev + 8) 8 (c + 16 + size))
                 c 4 size) (c + 4) 1 1) (c + 8) 8 0 }) := by
  have hlt := get_size_lt s.mem c
  have e : sub64 (sub64 (get_size s.mem c) size) 16 = get_size s.mem c - size - 16 :=
    sub64_sub64 hsz hlt
  unfold get_size at hc2 hsz hlt e
  norm_num at hlt
  have hcond : load s.mem c 4 ≥ (size + 16) % 18446744073709551616 := by omega
  have hfh' : ¬ (c = s.free_head) := fun h => hfh h.symm
  unfold malloc_hit get_size get_nextFree
  repeat (first
    | simp only [METADATA_SIZE, hcond, e, hfh', hp0, if_true, if_false, ne_eq,
        not_false_eq_true, Option.some_bind, Nat.reducePow,
        bind_wr (show s.base ≤ c + 16 + size by omega)
          (show c + 16 + size + 4 ≤ s.brk by omega),
        bind_wr (show s.base ≤ c + 16 + size + 4 by omega)
          (show c + 16 + size + 4 + 1 ≤ s.brk by omega),
        bind_wr (show s.base ≤ c + 16 + size + 8 by omega)
          (show c + 16 + size + 8 + 8 ≤ s.brk by omega),
        bind_rd (show s.base ≤ c + 8 by omega) (show c + 8 + 8 ≤ s.brk by omega),
        bind_wr (show s.base ≤ prev + 8 by omega) (show prev + 8 + 8 ≤ s.brk by omega),
        wr_eq (show s.base ≤ prev + 8 by omega) (show prev + 8 + 8 ≤ s.brk by omega),
        bind_wr hc1 (show c + 4 ≤ s.brk by omega),
        bind_wr (show s.base ≤ c + 4 by omega) (show c + 4 + 1 ≤ s.brk by omega),
        bind_wr (show s.base ≤ c + 8 by omega) (show c + 8 + 8 ≤ s.brk by omega)]
    | simp (disch := omega) only [load_store_disj])

/-- The whole-block path of `malloc` on the head of the free list: `free_head`
is left as it is. -/
theorem malloc_exec_whole_head {s : State} {size c : Nat} (hc1 : s.base ≤ c)
    (hc2 : c + 16 ≤ s.brk) (hsz : get_size s.mem c < size + 16) (hs64 : size + 16 < 2 ^ 64) :
    malloc_hit s size c 0 (get_size s.mem c) = some (c + 16,
      { s with mem := store (store s.mem (c + 4) 1 1) (c + 8) 8 0 }) := by
  unfold get_size at hsz
  norm_num at hs64
  have hcond : ¬ (load s.mem c 4 ≥ (size + 16) % 18446744073709551616) := by omega
  unfold malloc_hit get_size
  simp only [METADATA_SIZE, hcond, if_false, ne_eq, not_true_eq_false, Option.some_bind,
    Nat.reducePow,
    bind_wr (show s.base ≤ c + 4 by omega) (show c + 4 + 1 ≤ s.brk by omega),
    bind_wr (show s.base ≤ c + 8 by omega) (show c + 8 + 8 ≤ s.brk by omega)]

/-- The whole-block path of `malloc` on a free block with a predecessor. -/
theorem malloc_exec_whole_inner {s : State} {size c prev : Nat} (hc1 : s.base ≤ c)
    (hc2 : c + 16 ≤ s.brk) (hsz : get_size s.mem c < size + 16) (hs64 : size + 16 < 2 ^ 64)
    (hp0 : prev ≠ 0) (hp1 : s.base ≤ prev) (hp2 : prev + 16 ≤ s.brk) :
    malloc_hit s size c prev (get_size s.mem c) = some (c + 16,
      { s with mem := store (store (store s.mem (prev + 8) 8 (get_nextFree s.mem c))
                 (c + 4) 1 1) (c + 8) 8 0 }) := by
  unfold get_size at hsz
  norm_num at hs64
  have hcond : ¬ (load s.mem c 4 ≥ (size + 16) % 18446744073709551616) := by omega
  unfold malloc_hit get_size get_nextFree
  simp only [METADATA_SIZE, hcond, hp0, if_true, if_false, ne_eq, not_false_eq_true,
    Option.some_bind, Nat.reducePow,
    bind_rd (show s.base ≤ c + 8 by omega) (show c + 8 + 8 ≤ s.brk by omega),
    bind_wr (show s.base ≤ prev + 8 by omega) (show prev + 8 + 8 ≤ s.brk by omega),
    bind_wr (show s.base ≤ c + 4 by omega) (show c + 4 + 1 ≤ s.brk by omega),
    bind_wr (show s.base ≤ c + 8 by omega) (show c + 8 + 8 ≤ s.brk by omega)]

/-- The loop of `malloc` runs through the free blocks that are too small. -/
theorem malloc_loop_walk {s : State} {size h' : Nat} :
    ∀ (l : List Nat) (h prev fuel : Nat),
      chain s.mem h l h' →
      (∀ y ∈ l, s.base ≤ y ∧ y + 16 ≤ s.brk ∧ get_size s.mem y < size) →
      l.length < fuel →
      malloc_loop size fuel s h prev
        = malloc_loop size (fuel - l.length) s h' (l.getLast?.getD prev) := by
  intro l
  induction l with
  | nil =>
    intro h prev fuel hc _ _
    have : h = h' := hc
    subst this; rfl
  | cons y l ih =>
    intro h prev fuel hc hv hf
    obtain ⟨h1, h0, hc'⟩ := hc
    subst h1
    obtain ⟨f, rfl⟩ : ∃ f, fuel = f + 1 := ⟨fuel - 1, by simp at hf; omega⟩
    have hy := hv h (List.mem_cons_self _ _)
    have hlt : ¬ (load s.mem h 4 ≥ size) := by unfold get_size at hy; omega
    have e : malloc_loop size (f + 1) s h prev
        = malloc_loop size f s (get_nextFree s.mem h) h := by
      rw [malloc_loop, if_neg h0]
      unfold get_nextFree
      simp only [bind_rd hy.1 (show h + 4 ≤ s.brk by omega), hlt, if_false,
        bind_rd (show s.base ≤ h + 8 by omega) (show h + 8 + 8 ≤ s.brk by omega)]
    rw [e, ih _ h f hc' (fun z hz => hv z (List.mem_cons_of_mem _ hz))
      (by simp at hf; omega)]
    have e2 : (h :: l).getLast?.getD prev = l.getLast?.getD h := by
      cases l with
      | nil => rfl
      | cons z l =>
        rw [List.getLast?_cons_cons]
        cases hh : (z :: l).getLast? with
        | none => simp at hh
        | some w => rfl
    rw [e2]
    simp

/-- First fit: a list of free blocks either has no block of the requested size or
splits at the first one. -/
theorem first_fit_split (m : Mem) (size : Nat) (fl : List Nat) :
    (∀ y ∈ fl, get_size m y < size) ∨
    ∃ l c r, fl = l ++ c :: r ∧ (∀ y ∈ l, get_size m y < size) ∧ size ≤ get_size m c := by
  induction fl with
  | nil => exact Or.inl (fun y hy => by cases hy)
  | cons a fl ih =>
    by_cases ha : get_size m a < size
    · rcases ih with h | ⟨l, c, r, h1, h2, h3⟩
      · left
        intro y hy
        rcases List.mem_cons.1 hy with h' | h'
        · rw [h']; exact ha
        · exact h y h'
      · right
        refine ⟨a :: l, c, r, by rw [h1]; rfl, ?_, h3⟩
        intro y hy
        rcases List.mem_cons.1 hy with h' | h'
        · rw [h']; exact ha
        · exact h2 y h'
    · refine Or.inr ⟨[], a, fl, rfl, ?_, by omega⟩
      intro y hy; cases hy

/-! ## Lemmas: the effect of each path of `malloc` on the headers -/

theorem malloc_post_miss {s : State} {size : Nat} (h1 : s.base ≤ s.brk)
    (h2 : s.brk + 16 + size ≤ s.limit) (h3 : size < 2 ^ 32) :
    ∃ s', malloc_miss s size = some (s.brk + 16, s')
      ∧ s'.base = s.base ∧ s'.brk = s.brk + 16 + size ∧ s'.limit = s.limit
      ∧ s'.startOfHeap = s.startOfHeap ∧ s'.free_head = s.free_head
      ∧ (∀ z, z < s.brk → s'.mem z = s.mem z)
      ∧ (∀ z, s.brk + 16 ≤ z → s'.mem z = s.mem z)
      ∧ get_size s'.mem s.brk = size
      ∧ get_isUsed s'.mem s.brk = 1
      ∧ get_nextFree s'.mem s.brk = 0 := by
  refine ⟨_, malloc_exec_miss h1 h2 (by norm_num at h3 ⊢; omega), rfl, rfl, rfl, rfl, rfl,
    ?_, ?_, ?_, ?_, ?_⟩
  · intro z hz; dsimp only; simp (disch := omega) only [store_out]
  · intro z hz; dsimp only; simp (disch := omega) only [store_out]
  · dsimp only; rw [size_store_next, size_store_used, size_store_size _ _ _ h3]
  · dsimp only; rw [used_store_next]; exact used_store_used _ _ _ (by norm_num)
  · dsimp only; exact next_store_next _ _ _ (by norm_num)

theorem malloc_post_split {s : State} {size c prev : Nat} (hc1 : s.base ≤ c)
    (hc2 : c + 16 + get_size s.mem c ≤ s.brk) (hsz : size + 16 ≤ get_size s.mem c)
    (hc3 : c + 16 + get_size s.mem c < 2 ^ 64)
    (hprev : (prev = 0 ∧ s.free_head = c) ∨
      (prev ≠ 0 ∧ s.base ≤ prev ∧ prev + 16 ≤ s.brk ∧ s.free_head ≠ c
        ∧ (prev + 16 ≤ c ∨ c + 16 + get_size s.mem c ≤ prev))) :
    ∃ s', malloc_hit s size c prev (get_size s.mem c) = some (c + 16, s')
      ∧ s'.base = s.base ∧ s'.brk = s.brk ∧ s'.limit = s.limit
      ∧ s'.startOfHeap = s.startOfHeap
      ∧ s'.free_head = (if prev = 0 then c + 16 + size else s.free_head)
      ∧ (∀ z, (z < c ∨ c + 16 + size + 16 ≤ z) →
          (prev = 0 ∨ z < prev + 8 ∨ prev + 16 ≤ z) → s'.mem z = s.mem z)
      ∧ (∀ z, c + 16 ≤ z → z < c + 16 + size → s'.mem z = s.mem z)
      ∧ get_size s'.mem c = size ∧ get_isUsed s'.mem c = 1 ∧ get_nextFree s'.mem c = 0
      ∧ get_size s'.mem (c + 16 + size) = get_size s.mem c - size - 16
      ∧ get_isUsed s'.mem (c + 16 + size) = 0
      ∧ get_nextFree s'.mem (c + 16 + size) = get_nextFree s.mem c
      ∧ (prev ≠ 0 → get_nextFree s'.mem prev = c + 16 + size) := by
  have hlt := get_size_lt s.mem c
  have hnl := get_nextFree_lt s.mem c
  have hs32 : size < 2 ^ 32 := by omega
  have hr32 : get_size s.mem c - size - 16 < 2 ^ 32 := by omega
  rcases hprev with ⟨hp0, hfh⟩ | ⟨hp0, hp1, hp2, hfh, hpc⟩
  · subst hp0
    refine ⟨_, malloc_exec_split_head hc1 hc2 hsz hfh, rfl, rfl, rfl, rfl, by simp,
      ?_, ?_, ?_, ?_, ?_, ?_, ?_, ?_, fun h => absurd rfl h⟩
    · intro z h1 h2; dsimp only; simp (disch := omega) only [store_out]
    · intro z h1 h2; dsimp only; simp (disch := omega) only [store_out]
    · dsimp only; rw [size_store_next, size_store_used, size_store_size _ _ _ hs32]
    · dsimp only; rw [used_store_next]; exact used_store_used _ _ _ (by norm_num)
    · dsimp only; exact next_store_next _ _ _ (by norm_num)
    · dsimp only
      rw [(hdr_frame (by omega)).1, (hdr_frame (by omega)).1, (hdr_frame (by omega)).1,
        size_store_next, size_store_used, size_store_size _ _ _ hr32]
    · dsimp only
      rw [(hdr_frame (by omega)).2.1, (hdr_frame (by omega)).2.1, (hdr_frame (by omega)).2.1,
        used_store_next]
      exact used_store_used _ _ _ (by norm_num)
    · dsimp only
      rw [(hdr_frame (by omega)).2.2, (hdr_frame (by omega)).2.2, (hdr_frame (by omega)).2.2]
      exact next_store_next _ _ _ hnl
  · refine ⟨_, malloc_exec_split_inner hc1 hc2 hsz hp0 hp1 hp2 hfh, rfl, rfl, rfl, rfl,
      by simp [hp0], ?_, ?_, ?_, ?_, ?_, ?_, ?_, ?_, fun _ => ?_⟩
    · intro z h1 h2; dsimp only; simp (disch := omega) only [store_out]
    · intro z h1 h2; dsimp only; simp (disch := omega) only [store_out]
    · dsimp only; rw [size_store_next, size_store_used, size_store_size _ _ _ hs32]
    · dsimp only; rw [used_store_next]; exact used_store_used _ _ _ (by norm_num)
    · dsimp only; exact next_store_next _ _ _ (by norm_num)
    · dsimp only
      rw [(hdr_frame (by omega)).1, (hdr_frame (by omega)).1, (hdr_frame (by omega)).1,
        (hdr_frame (by omega)).1,
        size_store_next, size_store_used, size_store_size _ _ _ hr32]
    · dsimp only
      rw [(hdr_frame (by omega)).2.1, (hdr_frame (by omega)).2.1, (hdr_frame (by omega)).2.1,
        (hdr_frame (by omega)).2.1, used_store_next]
      exact used_store_used _ _ _ (by norm_num)
    · dsimp only
      rw [(hdr_frame (by omega)).2.2, (hdr_frame (by omega)).2.2, (hdr_frame (by omega)).2.2,
        (hdr_frame (by omega)).2.2]
      exact next_store_next _ _ _ hnl
    · dsimp only
      rw [(hdr_frame (by omega)).2.2, (hdr_frame (by omega)).2.2, (hdr_frame (by omega)).2.2]
      exact next_store_next _ _ _ (by omega)

theorem malloc_post_whole {s : State} {size c prev : Nat} (hc1 : s.base ≤ c)
    (hc2 : c + 16 ≤ s.brk) (hsz : get_size s.mem c < size + 16) (hs64 : size + 16 < 2 ^ 64)
    (hprev : prev = 0 ∨
      (prev ≠ 0 ∧ s.base ≤ prev ∧ prev + 16 ≤ s.brk ∧ (prev + 16 ≤ c ∨ c + 16 ≤ prev))) :
    ∃ s', malloc_hit s size c prev (get_size s.mem c) = some (c + 16, s')
      ∧ s'.base = s.base ∧ s'.brk = s.brk ∧ s'.limit = s.limit
      ∧ s'.startOfHeap = s.startOfHeap ∧ s'.free_head = s.free_head
      ∧ (∀ z, (z < c + 4 ∨ c + 16 ≤ z) →
          (prev = 0 ∨ z < prev + 8 ∨ prev + 16 ≤ z) → s'.mem z = s.mem z)
      ∧ get_size s'.mem c = get_size s.mem c ∧ get_isUsed s'.mem c = 1
      ∧ get_nextFree s'.mem c = 0
      ∧ (prev ≠ 0 → get_nextFree s'.mem prev = get_nextFree s.mem c) := by
  have hnl := get_nextFree_lt s.mem c
  rcases hprev with hp0 | ⟨hp0, hp1, hp2, hpc⟩
  · subst hp0
    refine ⟨_, malloc_exec_whole_head hc1 hc2 hsz hs64, rfl, rfl, rfl, rfl, rfl,
      ?_, ?_, ?_, ?_, fun h => absurd rfl h⟩
    · intro z h1 h2; dsimp only; simp (disch := omega) only [store_out]
    · dsimp only; rw [size_store_next, size_store_used]
    · dsimp only; rw [used_store_next]; exact used_store_used _ _ _ (by norm_num)
    · dsimp only; exact next_store_next _ _ _ (by norm_num)
  · refine ⟨_, malloc_exec_whole_inner hc1 hc2 hsz hs64 hp0 hp1 hp2, rfl, rfl, rfl, rfl, rfl,
      ?_, ?_, ?_, ?_, fun _ => ?_⟩
    · intro z h1 h2; dsimp only; simp (disch := omega) only [store_out]
    · dsimp only; rw [size_store_next, size_store_used, (hdr_frame (by omega)).1]
    · dsimp only; rw [used_store_next]; exact used_store_used _ _ _ (by norm_num)
    · dsimp only; exact next_store_next _ _ _ (by norm_num)
    · dsimp only
      rw [(hdr_frame (by omega)).2.2, (hdr_frame (by omega)).2.2]
      exact next_store_next _ _ _ hnl

/-! ## Lemmas: first fit -/

theorem WF_free_sorted {s : State} {bs : List Nat} (hwf : WF s bs) :
    (freeBlocks s.mem bs).Pairwise (fun x y => x + 16 + get_size s.mem x ≤ y) :=
  (tiles_pairwise hwf.tiled).sublist (List.filter_sublist _)

theorem WF_block_valid {s : State} {bs : List Nat} (hwf : WF s bs) {a : Nat} (ha : a ∈ bs) :
    0 < a ∧ s.base ≤ a ∧ heapStart s ≤ a ∧ a + 16 + get_size s.mem a ≤ s.brk := by
  have h := (tiles_bounds hwf.tiled).2 a ha
  have h1 := hwf.base_pos
  have h2 := hwf.start_ok
  unfold METADATA_SIZE at h
  omega

/-- On a well-formed state `malloc` either finds no free block of the requested
size and takes the miss path, or takes the hit path on the first free block in
list order that is large enough, with its predecessor in the free list (or
null). -/
theorem malloc_select {s : State} {bs : List Nat} (hwf : WF s bs) (size : Nat) :
    ((∀ y ∈ freeBlocks s.mem bs, get_size s.mem y < size) ∧
       malloc s size = malloc_miss { s with startOfHeap := heapStart s } size) ∨
    (∃ l c r, freeBlocks s.mem bs = l ++ c :: r ∧ (∀ y ∈ l, get_size s.mem y < size)
       ∧ size ≤ get_size s.mem c
       ∧ malloc s size = malloc_hit { s with startOfHeap := heapStart s } size c
           (l.getLast?.getD 0) (get_size s.mem c)) := by
  rw [malloc_start size hwf.limit_ok.1]
  have hlen : (freeBlocks s.mem bs).length ≤ bs.length := List.length_filter_le _ _
  have htl := tiles_length hwf.tiled
  have hst := hwf.start_ok
  have hval : ∀ y ∈ freeBlocks s.mem bs, s.base ≤ y ∧ y + 16 ≤ s.brk := by
    intro y hy
    have := WF_block_valid hwf (mem_freeBlocks.1 hy).1
    omega
  rcases first_fit_split s.mem size (freeBlocks s.mem bs) with h | ⟨l, c, r, h1, h2, h3⟩
  · left
    refine ⟨h, ?_⟩
    rw [malloc_loop_walk (s := { s with startOfHeap := heapStart s })
      (freeBlocks s.mem bs) s.free_head 0 (loop_fuel s) hwf.flist
      (fun y hy => ⟨(hval y hy).1, (hval y hy).2, h y hy⟩)
      (by unfold loop_fuel; omega)]
    obtain ⟨k, hk⟩ : ∃ k, loop_fuel s - (freeBlocks s.mem bs).length = k + 1 :=
      ⟨s.brk - s.base - (freeBlocks s.mem bs).length, by unfold loop_fuel; omega⟩
    rw [hk, malloc_loop, if_pos rfl]
  · right
    refine ⟨l, c, r, h1, h2, h3, ?_⟩
    have hfl := hwf.flist
    rw [h1, chain_append] at hfl
    obtain ⟨x, hc1, hx, hc0, _⟩ := hfl
    subst hx
    have hll : l.length < (freeBlocks s.mem bs).length := by rw [h1]; simp
    have hlm : ∀ y ∈ l, y ∈ freeBlocks s.mem bs := fun y hy => by
      rw [h1]; exact List.mem_append_left _ hy
    have hcm : x ∈ freeBlocks s.mem bs := by rw [h1]; simp
    rw [malloc_loop_walk (s := { s with startOfHeap := heapStart s })
      l s.free_head 0 (loop_fuel s) hc1
      (fun y hy => ⟨(hval y (hlm y hy)).1, (hval y (hlm y hy)).2, h2 y hy⟩)
      (by unfold loop_fuel; omega)]
    obtain ⟨k, hk⟩ : ∃ k, loop_fuel s - l.length = k + 1 :=
      ⟨s.brk - s.base - l.length, by unfold loop_fuel; omega⟩
    have hge : load s.mem x 4 ≥ size := h3
    rw [hk, malloc_loop, if_neg hc0]
    simp only [bind_rd (hval x hcm).1 (show x + 4 ≤ s.brk by have := (hval x hcm).2; omega),
      hge, if_true]
    rfl

/-! ## Lemmas: `malloc` keeps the heap tiled -/

/-- The predecessor handed to the hit path is null exactly when the block is the
head of the free list, and is a free block that ends at or before it otherwise. -/
theorem malloc_prev_facts {s : State} {bs l r : List Nat} {c : Nat} (hwf : WF s bs)
    (hfl : freeBlocks s.mem bs = l ++ c :: r) :
    c ∈ bs ∧ get_isUsed s.mem c = 0 ∧
    ((l.getLast?.getD 0 = 0 ∧ s.free_head = c) ∨
      (l.getLast?.getD 0 ≠ 0 ∧ l.getLast?.getD 0 ∈ bs ∧ s.free_head ≠ c
        ∧ get_isUsed s.mem (l.getLast?.getD 0) = 0
        ∧ l.getLast?.getD 0 + 16 + get_size s.mem (l.getLast?.getD 0) ≤ c)) := by
  have hcm : c ∈ freeBlocks s.mem bs := by rw [hfl]; simp
  have hsort := WF_free_sorted hwf
  rw [hfl, List.pairwise_append] at hsort
  have hch := hwf.flist
  rw [hfl, chain_append] at hch
  obtain ⟨x, hc1, hx, _, _⟩ := hch
  subst hx
  refine ⟨(mem_freeBlocks.1 hcm).1, (mem_freeBlocks.1 hcm).2, ?_⟩
  rcases List.eq_nil_or_concat l with hl | ⟨l', p, hl⟩
  · subst hl
    left
    exact ⟨rfl, hc1⟩
  · rw [List.concat_eq_append] at hl
    subst hl
    right
    have hpm : p ∈ freeBlocks s.mem bs := by rw [hfl]; simp
    have hp := WF_block_valid hwf (mem_freeBlocks.1 hpm).1
    have e : (l' ++ [p]).getLast?.getD 0 = p := by simp
    rw [e]
    have hfh := chain_head_mem hc1 (by simp)
    have h1 := hsort.2.2 _ hfh.1 x (List.mem_cons_self _ _)
    have h2 := hsort.2.2 p (by simp) x (List.mem_cons_self _ _)
    exact ⟨by omega, (mem_freeBlocks.1 hpm).1, by omega, (mem_freeBlocks.1 hpm).2, h2⟩

/-- One call of `malloc` on a well-formed state, with `size < 2^32` and room for
an extension when no free block fits, returns and leaves the heap tiled from
the same start: a miss appends one block of `size` bytes at the former break,
a split replaces the block by two with the same total, and a block handed
out whole keeps its size. -/
theorem malloc_account {s : State} {bs : List Nat} (hwf : WF s bs) {size : Nat}
    (hsize : size < 2 ^ 32)
    (hroom : (∀ y ∈ freeBlocks s.mem bs, get_size s.mem y < size) →
      s.brk + 16 + size ≤ s.limit) :
    ∃ q s' bs', malloc s size = some (q, s')
      ∧ tiles s'.mem (heapStart s') bs' s'.brk
      ∧ heapStart s' = heapStart s
      ∧ (((∀ y ∈ freeBlocks s.mem bs, get_size s.mem y < size)
            ∧ q = s.brk + 16 ∧ s'.brk = s.brk + 16 + size ∧ bs' = bs ++ [s.brk]
            ∧ get_size s'.mem s.brk = size
            ∧ ∀ a ∈ bs, get_size s'.mem a = get_size s.mem a)
        ∨ (∃ B pre post, B ∈ freeBlocks s.mem bs ∧ size ≤ get_size s.mem B
            ∧ q = B + 16 ∧ s'.brk = s.brk ∧ bs = pre ++ B :: post
            ∧ (∀ a ∈ pre ++ post, get_size s'.mem a = get_size s.mem a)
            ∧ ((size + 16 ≤ get_size s.mem B
                  ∧ bs' = pre ++ B :: (B + 16 + size) :: post
                  ∧ get_size s'.mem B = size
                  ∧ size + 16 + get_size s'.mem (B + 16 + size) = get_size s.mem B)
              ∨ (get_size s.mem B < size + 16 ∧ bs' = bs
                  ∧ get_size s'.mem B = get_size s.mem B)))) := by
  have hbp := hwf.base_pos
  have hst := hwf.start_ok
  have hB := tiles_bounds hwf.tiled
  have hlim := hwf.limit_ok
  have hs0 : heapStart s ≠ 0 := by omega
  have hstart : ∀ (s' : State), s'.startOfHeap = heapStart s → heapStart s' = heapStart s := by
    intro s' h; unfold heapStart at h ⊢; rw [h]; unfold heapStart at hs0; simp [hs0]
  rcases malloc_select hwf size with ⟨hall, hm⟩ | ⟨l, c, r, hfl, _, hge, hm⟩
  · -- miss: the heap grows by one block
    obtain ⟨s', he, hbase', hbrk', hlim', hso', hfh', hlo, hhi, hsz, hu, hn⟩ :=
      @malloc_post_miss { s with startOfHeap := heapStart s } size
        (by dsimp only; omega) (hroom hall) hsize
    dsimp only at he hbase' hbrk' hlim' hso' hfh' hlo hhi hsz hu hn
    have hsame : ∀ a ∈ bs, get_size s'.mem a = get_size s.mem a := by
      intro a ha
      have := hB.2 a ha
      unfold METADATA_SIZE at this
      exact load_congr (fun z h1 h2 => hlo z (by omega))
    refine ⟨s.brk + 16, s', bs ++ [s.brk], hm.trans he, ?_, hstart s' hso',
      Or.inl ⟨hall, rfl, hbrk', rfl, hsz, hsame⟩⟩
    rw [hstart s' hso', hbrk']
    refine tiles_append.2 ⟨s.brk, tiles_congr hsame hwf.tiled, rfl, ?_⟩
    show s.brk + METADATA_SIZE + get_size s'.mem s.brk = s.brk + 16 + size
    rw [hsz]; rfl
  · -- hit
    obtain ⟨hcm, hcf, hprev⟩ := malloc_prev_facts hwf hfl
    have hcfm : c ∈ freeBlocks s.mem bs := mem_freeBlocks.2 ⟨hcm, hcf⟩
    have hcv := WF_block_valid hwf hcm
    have hc64 : c + 16 + get_size s.mem c < 2 ^ 64 := by norm_num at hlim ⊢; omega
    obtain ⟨pre, post, hbs⟩ := List.append_of_mem hcm
    have ht := hwf.tiled
    rw [hbs] at ht
    obtain ⟨x, ht1, hx, ht2⟩ := tiles_append.1 ht
    subst hx
    unfold METADATA_SIZE at ht2
    have hB1 := tiles_bounds ht1
    have hB2 := tiles_bounds ht2
    unfold METADATA_SIZE at hB1 hB2
    -- the size fields of the other blocks are out of reach of the writes
    have hsizes : ∀ (M : Mem) (e : Nat), e ≤ c + 16 + get_size s.mem c →
        (∀ z, (z < c ∨ e ≤ z) → (l.getLast?.getD 0 = 0 ∨ z < l.getLast?.getD 0 + 8
          ∨ l.getLast?.getD 0 + 16 ≤ z) → M z = s.mem z) →
        ∀ a ∈ bs, a ≠ c → get_size M a = get_size s.mem a := by
      intro M e he hM a ha hac
      have hsep := tiles_sep hwf.tiled a ha c hcm hac
      refine load_congr (fun z h1 h2 => hM z (by omega) ?_)
      rcases hprev with ⟨h0, _⟩ | ⟨h0, hpm, _, _, _⟩
      · exact Or.inl h0
      · by_cases hap : a = l.getLast?.getD 0
        · rw [← hap]; omega
        · have := tiles_sep hwf.tiled a ha _ hpm hap
          omega
    have hpre_in : ∀ a ∈ pre, a ∈ bs ∧ a ≠ c := fun a ha =>
      ⟨by rw [hbs]; exact List.mem_append_left _ ha, by have := hB1.2 a ha; omega⟩
    have hpost_in : ∀ a ∈ post, a ∈ bs ∧ a ≠ c := fun a ha =>
      ⟨by rw [hbs]; exact List.mem_append_right _ (List.mem_cons_of_mem _ ha),
        by have := hB2.2 a ha; omega⟩
    have hothers : ∀ (M : Mem), (∀ a ∈ bs, a ≠ c → get_size M a = get_size s.mem a) →
        ∀ a ∈ pre ++ post, get_size M a = get_size s.mem a := by
      intro M hM a ha
      rcases List.mem_append.1 ha with h | h
      · exact hM a (hpre_in a h).1 (hpre_in a h).2
      · exact hM a (hpost_in a h).1 (hpost_in a h).2
    by_cases hsplit : size + 16 ≤ get_size s.mem c
    · -- split
      obtain ⟨s', he, hbase', hbrk', hlim', hso', hfh', hM, _, hszc, huc, hnc, hszs, hus, hns,
          hnp⟩ :=
        @malloc_post_split { s with startOfHeap := heapStart s } size c
          (l.getLast?.getD 0) hcv.2.1 hcv.2.2.2 hsplit hc64
          (by
            rcases hprev with ⟨h0, h1⟩ | ⟨h0, hpm, h1, _, h2⟩
            · exact Or.inl ⟨h0, h1⟩
            · have := WF_block_valid hwf hpm
              exact Or.inr ⟨h0, this.2.1, by dsimp only; omega, h1, Or.inl (by omega)⟩)
      dsimp only at he hbase' hbrk' hlim' hso' hfh' hM hszc huc hnc hszs hus hns hnp
      have hsz := hsizes s'.mem (c + 16 + size + 16) (by omega) hM
      refine ⟨c + 16, s', pre ++ c :: (c + 16 + size) :: post, hm.trans he, ?_,
        hstart s' hso', Or.inr ⟨c, pre, post, hcfm, hge, rfl, hbrk', hbs, hothers _ hsz,
          Or.inl ⟨hsplit, rfl, hszc, by rw [hszs]; omega⟩⟩⟩
      rw [hstart s' hso', hbrk']
      refine tiles_append.2 ⟨c, tiles_congr (fun a ha => hsz a (hpre_in a ha).1
        (hpre_in a ha).2) ht1, rfl, ?_⟩
      unfold METADATA_SIZE
      rw [hszc]
      refine ⟨rfl, ?_⟩
      rw [hszs]
      have e : c + 16 + size + METADATA_SIZE + (get_size s.mem c - size - 16)
          = c + 16 + get_size s.mem c := by unfold METADATA_SIZE; omega
      rw [e]
      exact tiles_congr (fun a ha => hsz a (hpost_in a ha).1 (hpost_in a ha).2) ht2
    · -- the whole block is handed out
      obtain ⟨s', he, hbase', hbrk', hlim', hso', hfh', hM, hszc, huc, hnc, hnp⟩ :=
        @malloc_post_whole { s with startOfHeap := heapStart s } size c
          (l.getLast?.getD 0) hcv.2.1 (by dsimp only; omega)
          (by dsimp only; omega) (by norm_num at hsize ⊢; omega)
          (by
            rcases hprev with ⟨h0, h1⟩ | ⟨h0, hpm, h1, _, h2⟩
            · exact Or.inl h0
            · have := WF_block_valid hwf hpm
              exact Or.inr ⟨h0, this.2.1, by dsimp only; omega, Or.inl (by omega)⟩)
      dsimp only at he hbase' hbrk' hlim' hso' hfh' hM hszc huc hnc hnp
      have hsz := hsizes s'.mem (c + 16) (by omega) (fun z h1 h2 => hM z (by omega) h2)
      refine ⟨c + 16, s', bs, hm.trans he, ?_, hstart s' hso',
        Or.inr ⟨c, pre, post, hcfm, hge, rfl, hbrk', hbs, hothers _ hsz,
          Or.inr ⟨by omega, rfl, hszc⟩⟩⟩
      rw [hstart s' hso', hbrk']
      refine tiles_congr (fun a ha => ?_) hwf.tiled
      by_cases hac : a = c
      · rw [hac]; exact hszc
      · exact hsz a ha hac

/-! ## Theorems: release -/

theorem hugeState_wf : WF hugeState hugeBlocks :=
  ⟨by decide, by decide, by decide, by decide, by decide, by decide, by decide⟩

theorem hugePtr_live : live hugeState hugeBlocks hugePtr :=
  ⟨4096 + 2 ^ 32 + 15, by decide, by decide, by decide⟩

theorem smallState_wf : WF smallState [4096, 4120] :=
  ⟨by decide, by decide, by decide, by decide, by decide, by decide, by decide⟩

theorem smallPtr_live : live smallState [4096, 4120] 4136 :=
  ⟨4120, by decide, by decide, by decide⟩

theorem wideState_wf : WF wideState wideBlocks :=
  ⟨by decide, by decide, by decide, by decide, by decide, by decide, by decide⟩

theorem widePtr_live : live wideState wideBlocks widePtr :=
  ⟨4096 + 2 ^ 32 + 15 + 24, by decide, by decide, by decide⟩

theorem widePtr_fits : fits_field wideState wideBlocks (hdr_of widePtr) := by
  decide

theorem WF_free_ascending {s : State} {bs : List Nat} (hwf : WF s bs) :
    (freeBlocks s.mem bs).Pairwise (· < ·) :=
  (WF_free_sorted hwf).imp (fun h => by omega)

theorem live_hdr {s : State} {bs : List Nat} {p : Nat} (hwf : WF s bs) (hp : live s bs p) :
    ∃ b ∈ bs, p = b + METADATA_SIZE ∧ get_isUsed s.mem b ≠ 0 ∧ hdr_of p = b := by
  obtain ⟨b, hb, hpb, hu⟩ := hp
  refine ⟨b, hb, hpb, hu, ?_⟩
  have hv := WF_block_valid hwf hb
  have hl := hwf.limit_ok
  rw [hpb]
  exact hdr_of_add b (by norm_num at hl ⊢; omega)

/-- C3 (as stated, refuted): in `hugeState` the blocks tile the heap and the free
list is valid, yet after `free` of the live pointer the free list does not
cover the released bytes: the merged size `2^32 - 1 + 16 + 2^32 - 1` does not
fit the `unsigned int` field and is stored as 14. -/
theorem free_coalesce_overflow :
    WF hugeState hugeBlocks ∧ live hugeState hugeBlocks hugePtr ∧
    ¬ ∃ s' fl, free hugeState hugePtr = some s'
      ∧ chain s'.mem s'.free_head fl 0
      ∧ fl.Pairwise (· < ·)
      ∧ (∀ a ∈ fl, ∀ c ∈ fl, a + METADATA_SIZE + get_size s'.mem a ≠ c)
      ∧ (∀ z, (hdr_of hugePtr ≤ z ∧ z < hugePtr + get_size hugeState.mem (hdr_of hugePtr))
            ∨ (∃ f ∈ freeBlocks hugeState.mem hugeBlocks,
                f ≤ z ∧ z < f + METADATA_SIZE + get_size hugeState.mem f) →
          ∃ f' ∈ fl, f' ≤ z ∧ z < f' + METADATA_SIZE + get_size s'.mem f') := by
  refine ⟨hugeState_wf, hugePtr_live, ?_⟩
  rintro ⟨s', fl, hfree, hch, _, _, hcov⟩
  have hE : (free hugeState hugePtr).map
      (fun t => (t.free_head, get_size t.mem 4096, get_nextFree t.mem 4096))
      = some (4096, 14, 0) := by decide
  rw [hfree] at hE
  simp only [Option.map_some', Option.some.injEq, Prod.mk.injEq] at hE
  obtain ⟨h1, h2, h3⟩ := hE
  rw [h1] at hch
  cases fl with
  | nil => exact absurd (show (4096 : Nat) = 0 from hch) (by decide)
  | cons a l =>
    obtain ⟨ha, _, hl⟩ := hch
    subst ha
    rw [h3] at hl
    obtain ⟨hl', _⟩ := chain_zero hl
    subst hl'
    obtain ⟨f', hf', hz1, hz2⟩ := hcov 5000 (Or.inr ⟨4096, by decide, by decide, by decide⟩)
    have : f' = 4096 := by simpa using hf'
    subst this
    rw [h2] at hz2
    unfold METADATA_SIZE at hz2
    omega

/-- C3 (amended): in a well-formed state, when the size of the block that `free`
leaves (the block of `p` joined with the free blocks contiguous with it) fits
the `unsigned int` size field, `free` of the live pointer `p` returns; the free
list of the new state is null-terminated and strictly ascending, no two of its
entries are contiguous, and it covers every byte of the released block and of
the former free blocks.  The new state is again well formed. -/
theorem free_keeps_list_coalesced (s : State) (bs : List Nat) (p : Nat)
    (hwf : WF s bs) (hp : live s bs p) (hfit : fits_field s bs (hdr_of p)) :
    ∃ s' fl, free s p = some s'
      ∧ chain s'.mem s'.free_head fl 0
      ∧ fl.Pairwise (· < ·)
      ∧ (∀ a ∈ fl, ∀ c ∈ fl, a + METADATA_SIZE + get_size s'.mem a ≠ c)
      ∧ (∀ z, (hdr_of p ≤ z ∧ z < p + get_size s.mem (hdr_of p))
            ∨ (∃ f ∈ freeBlocks s.mem bs, f ≤ z ∧ z < f + METADATA_SIZE + get_size s.mem f) →
          ∃ f' ∈ fl, f' ≤ z ∧ z < f' + METADATA_SIZE + get_size s'.mem f')
      ∧ ∃ bs', WF s' bs' ∧ fl = freeBlocks s'.mem bs' := by
  obtain ⟨b, hb, hpb, hu, hhdr⟩ := live_hdr hwf hp
  rw [hhdr] at hfit
  obtain ⟨s', hfree, bs', hok, _⟩ := free_spec_fit hwf hb hu hfit
  refine ⟨s', freeBlocks s'.mem bs', by rw [hpb]; exact hfree, hok.wf.flist,
    WF_free_ascending hok.wf, ?_, ?_, bs', hok.wf, rfl⟩
  · intro a ha c hc
    exact hok.wf.no_adj a (mem_freeBlocks.1 ha).1 c (mem_freeBlocks.1 hc).1
      (mem_freeBlocks.1 ha).2 (mem_freeBlocks.1 hc).2
  · intro z hz
    apply hok.cover z
    rcases hz with ⟨h1, h2⟩ | ⟨f, hf, h1, h2⟩
    · rw [hhdr] at h1 h2
      rw [hpb] at h2
      exact ⟨b, hb, Or.inl rfl, h1, by unfold METADATA_SIZE at h2 ⊢; omega⟩
    · exact ⟨f, (mem_freeBlocks.1 hf).1, Or.inr (mem_freeBlocks.1 hf).2, h1, h2⟩

/-- Witness of C3 (amended) on a heap of more than 4 GiB: the released block
of 8 bytes is merged into the free block of 8 bytes before it. -/
theorem free_keeps_list_coalesced_witness :
    WF wideState wideBlocks ∧ live wideState wideBlocks widePtr ∧
    fits_field wideState wideBlocks (hdr_of widePtr) ∧
    ∃ s' fl, free wideState widePtr = some s'
      ∧ chain s'.mem s'.free_head fl 0
      ∧ fl.Pairwise (· < ·)
      ∧ (∀ a ∈ fl, ∀ c ∈ fl, a + METADATA_SIZE + get_size s'.mem a ≠ c)
      ∧ (∀ z, (hdr_of widePtr ≤ z ∧ z < widePtr + get_size wideState.mem (hdr_of widePtr))
            ∨ (∃ f ∈ freeBlocks wideState.mem wideBlocks,
                f ≤ z ∧ z < f + METADATA_SIZE + get_size wideState.mem f) →
          ∃ f' ∈ fl, f' ≤ z ∧ z < f' + METADATA_SIZE + get_size s'.mem f')
      ∧ ∃ bs', WF s' bs' ∧ fl = freeBlocks s'.mem bs' :=
  ⟨wideState_wf, widePtr_live, widePtr_fits,
    free_keeps_list_coalesced wideState wideBlocks widePtr wideState_wf widePtr_live
      widePtr_fits⟩

/-! ## Theorems: heap tiling -/

/-- C4 (as stated, refuted): in `hugeState` `free` of the live pointer stores
the merged size modulo `2^32`; the walk from `startOfHeap` then steps into the
payloads and passes the end of the heap. -/
theorem free_breaks_tiling :
    WF hugeState hugeBlocks ∧ live hugeState hugeBlocks hugePtr ∧
    ¬ ∃ s' bs', free hugeState hugePtr = some s'
      ∧ tiles s'.mem (heapStart s') bs' s'.brk := by
  refine ⟨hugeState_wf, hugePtr_live, ?_⟩
  rintro ⟨s', bs', hfree, ht⟩
  have hE : (free hugeState hugePtr).map
      (fun t => (heapStart t, t.brk, get_size t.mem 4096, get_size t.mem 4126,
        get_size t.mem 4294971437))
      = some (4096, 8589938718, 14, 4294967295, 4294967295) := by decide
  rw [hfree] at hE
  simp only [Option.map_some', Option.some.injEq, Prod.mk.injEq] at hE
  obtain ⟨h1, h2, h3, h4, h5⟩ := hE
  rw [h1, h2] at ht
  cases bs' with
  | nil => exact absurd (show (4096 : Nat) = 8589938718 from ht) (by decide)
  | cons b0 r0 =>
    obtain ⟨hb0, ht⟩ := ht
    rw [h3] at ht
    cases r0 with
    | nil => exact absurd (show 4096 + METADATA_SIZE + 14 = 8589938718 from ht) (by decide)
    | cons b1 r1 =>
      obtain ⟨hb1, ht⟩ := ht
      have e1 : 4096 + METADATA_SIZE + 14 = 4126 := by decide
      rw [e1, h4] at ht
      cases r1 with
      | nil =>
        exact absurd (show 4126 + METADATA_SIZE + 4294967295 = 8589938718 from ht) (by decide)
      | cons b2 r2 =>
        obtain ⟨hb2, ht⟩ := ht
        have e2 : 4126 + METADATA_SIZE + 4294967295 = 4294971437 := by decide
        rw [e2, h5] at ht
        have := (tiles_bounds ht).1
        unfold METADATA_SIZE at this
        omega

/-- C4 (amended): from a well-formed state, `malloc(size)` with `size < 2^32`
and, when no free block fits, room for the extension returns and leaves the
heap tiled from the same start: a miss grows the heap by exactly
`METADATA_SIZE + size` and appends one block of size `size`; a split replaces
the block `B` by `B` and the remainder with
`size + METADATA_SIZE + remainder = B.size`, the break unchanged; a block
handed out whole keeps its size.  `free` of a live pointer, when the size of
the block that it leaves fits the `unsigned int` size field, returns and leaves
the heap tiled from the same start with the break unchanged: the blocks merged
become one block, whose size grows by the size plus `METADATA_SIZE` of each
absorbed block.  In both cases the other blocks keep their sizes. -/
theorem heap_tiling_preserved (s : State) (bs : List Nat) (hwf : WF s bs) :
    (∀ size, size < 2 ^ 32 →
      ((∀ y ∈ freeBlocks s.mem bs, get_size s.mem y < size) →
        s.brk + METADATA_SIZE + size ≤ s.limit) →
      ∃ q s' bs', malloc s size = some (q, s')
        ∧ tiles s'.mem (heapStart s') bs' s'.brk
        ∧ heapStart s' = heapStart s
        ∧ (((∀ y ∈ freeBlocks s.mem bs, get_size s.mem y < size)
              ∧ q = s.brk + METADATA_SIZE ∧ s'.brk = s.brk + METADATA_SIZE + size
              ∧ bs' = bs ++ [s.brk] ∧ get_size s'.mem s.brk = size
              ∧ ∀ a ∈ bs, get_size s'.mem a = get_size s.mem a)
          ∨ (∃ B pre post, B ∈ freeBlocks s.mem bs ∧ size ≤ get_size s.mem B
              ∧ q = B + METADATA_SIZE ∧ s'.brk = s.brk ∧ bs = pre ++ B :: post
              ∧ (∀ a ∈ pre ++ post, get_size s'.mem a = get_size s.mem a)
              ∧ ((size + METADATA_SIZE ≤ get_size s.mem B
                    ∧ bs' = pre ++ B :: (B + METADATA_SIZE + size) :: post
                    ∧ get_size s'.mem B = size
                    ∧ size + METADATA_SIZE + get_size s'.mem (B + METADATA_SIZE + size)
                        = get_size s.mem B)
                ∨ (get_size s.mem B < size + METADATA_SIZE ∧ bs' = bs
                    ∧ get_size s'.mem B = get_size s.mem B)))))
    ∧ (∀ p, live s bs p → fits_field s bs (hdr_of p) →
      ∃ s' bs', free s p = some s'
        ∧ tiles s'.mem (heapStart s') bs' s'.brk
        ∧ heapStart s' = heapStart s ∧ s'.brk = s.brk
        ∧ Merged s s' bs bs' (hdr_of p)) := by
  constructor
  · intro size h1 h2
    exact malloc_account hwf h1 h2
  · intro p hp hfit
    obtain ⟨b, hb, hpb, hu, hhdr⟩ := live_hdr hwf hp
    rw [hhdr] at hfit ⊢
    obtain ⟨s', hfree, bs', hok, hmg⟩ := free_spec_fit hwf hb hu hfit
    exact ⟨s', bs', by rw [hpb]; exact hfree, hok.wf.tiled,
      heapStart_eq hok.start_eq hok.brk_eq, hok.brk_eq, hmg⟩

/-- Witness of C4 (amended): `malloc(4)` on a heap of two 8-byte blocks, and
`free` on a heap of more than 4 GiB. -/
theorem heap_tiling_preserved_witness :
    WF smallState [4096, 4120] ∧ WF wideState wideBlocks
    ∧ live wideState wideBlocks widePtr ∧ fits_field wideState wideBlocks (hdr_of widePtr)
    ∧ (∃ q s' bs', malloc smallState 4 = some (q, s')
        ∧ tiles s'.mem (heapStart s') bs' s'.brk
        ∧ heapStart s' = heapStart smallState
        ∧ (((∀ y ∈ freeBlocks smallState.mem [4096, 4120], get_size smallState.mem y < 4)
              ∧ q = smallState.brk + METADATA_SIZE
              ∧ s'.brk = smallState.brk + METADATA_SIZE + 4
              ∧ bs' = [4096, 4120] ++ [smallState.brk] ∧ get_size s'.mem smallState.brk = 4
              ∧ ∀ a ∈ [4096, 4120], get_size s'.mem a = get_size smallState.mem a)
          ∨ (∃ B pre post, B ∈ freeBlocks smallState.mem [4096, 4120]
              ∧ 4 ≤ get_size smallState.mem B
              ∧ q = B + METADATA_SIZE ∧ s'.brk = smallState.brk
              ∧ [4096, 4120] = pre ++ B :: post
              ∧ (∀ a ∈ pre ++ post, get_size s'.mem a = get_size smallState.mem a)
              ∧ ((4 + METADATA_SIZE ≤ get_size smallState.mem B
                    ∧ bs' = pre ++ B :: (B + METADATA_SIZE + 4) :: post
                    ∧ get_size s'.mem B = 4
                    ∧ 4 + METADATA_SIZE + get_size s'.mem (B + METADATA_SIZE + 4)
                        = get_size smallState.mem B)
                ∨ (get_size smallState.mem B < 4 + METADATA_SIZE ∧ bs' = [4096, 4120]
                    ∧ get_size s'.mem B = get_size smallState.mem B)))))
    ∧ (∃ s' bs', free wideState widePtr = some s'
        ∧ tiles s'.mem (heapStart s') bs' s'.brk
        ∧ heapStart s' = heapStart wideState ∧ s'.brk = wideState.brk
        ∧ Merged wideState s' wideBlocks bs' (hdr_of widePtr)) :=
  ⟨smallState_wf, wideState_wf, widePtr_live, widePtr_fits,
    (heap_tiling_preserved smallState [4096, 4120] smallState_wf).1 4 (by decide)
      (fun _ => by decide),
    (heap_tiling_preserved wideState wideBlocks wideState_wf).2 widePtr widePtr_live
      widePtr_fits⟩

/-! ## Theorems: the free/re-allocate loop -/

/-- With an empty free list `malloc` extends the heap by one block. -/
theorem malloc_empty {s : State} {size : Nat} (hfh : s.free_head = 0)
    (hb : s.base ≤ s.brk) (hroom : s.brk + 16 + size ≤ s.limit) (hsize : size < 2 ^ 32) :
    ∃ s', malloc s size = some (s.brk + 16, s')
      ∧ s'.base = s.base ∧ s'.brk = s.brk + 16 + size ∧ s'.limit = s.limit
      ∧ s'.startOfHeap = heapStart s ∧ s'.free_head = 0
      ∧ (∀ z, z < s.brk → s'.mem z = s.mem z)
      ∧ get_size s'.mem s.brk = size
      ∧ get_isUsed s'.mem s.brk = 1
      ∧ get_nextFree s'.mem s.brk = 0 := by
  obtain ⟨s', he, h1, h2, h3, h4, h5, h6, _, h8, h9, h10⟩ :=
    @malloc_post_miss { s with startOfHeap := heapStart s } size hb hroom hsize
  refine ⟨s', ?_, h1, h2, h3, h4, h5.trans hfh, h6, h8, h9, h10⟩
  rw [malloc_start size (by omega)]
  have : loop_fuel s = (s.brk - s.base) + 1 := rfl
  rw [this, malloc_loop, if_pos hfh]
  exact he

/-- Repeated `malloc` with an empty free list only appends blocks. -/
theorem malloc_n_empty {size : Nat} (hsize : size < 2 ^ 32) :
    ∀ (n : Nat) (s : State), s.free_head = 0 → 0 < s.base → s.base ≤ s.brk →
      s.brk + n * (16 + size) ≤ s.limit →
      ∃ s', malloc_n size n s = some s'
        ∧ s'.base = s.base ∧ s'.brk = s.brk + n * (16 + size) ∧ s'.limit = s.limit
        ∧ s'.free_head = 0
        ∧ (s.startOfHeap ≠ 0 → s'.startOfHeap = s.startOfHeap)
        ∧ (∀ z, z < s.brk → s'.mem z = s.mem z) := by
  intro n
  induction n with
  | zero =>
    intro s hfh _ _ _
    exact ⟨s, rfl, rfl, by simp, rfl, hfh, fun _ => rfl, fun _ _ => rfl⟩
  | succ n ih =>
    intro s hfh hb0 hb hroom
    have hr : s.brk + 16 + size + n * (16 + size) ≤ s.limit := by
      have : (n + 1) * (16 + size) = n * (16 + size) + (16 + size) := by ring
      omega
    obtain ⟨s1, he, h1, h2, h3, h4, h5, h6, _⟩ :=
      @malloc_empty s size hfh hb (by omega) hsize
    obtain ⟨s2, he2, g1, g2, g3, g4, g5, g6⟩ :=
      ih s1 h5 (by omega) (by omega) (by rw [h2, h3]; exact hr)
    refine ⟨s2, ?_, g1.trans h1, ?_, g3.trans h3, g4, ?_, ?_⟩
    · simp only [malloc_n, he, Option.some_bind]; exact he2
    · rw [g2, h2]; ring
    · intro h0
      have e1 : s1.startOfHeap = s.startOfHeap := by
        rw [h4]; unfold heapStart; simp [h0]
      rw [g5 (by rw [e1]; exact h0), e1]
    · intro z hz
      rw [g6 z (by omega), h6 z hz]

/-- Writing `isUsed = 1` and `nextFree = NULL` twice is writing them once. -/
theorem restore_header (m : Mem) (b : Nat) :
    store (store (store (store m (b + 4) 1 1) (b + 8) 8 0) (b + 4) 1 1) (b + 8) 8 0
      = store (store m (b + 4) 1 1) (b + 8) 8 0 := by
  funext z
  unfold store
  by_cases h1 : b + 8 ≤ z ∧ z < b + 8 + 8
  · simp only [h1, and_self, if_true]
  · by_cases h2 : b + 4 ≤ z ∧ z < b + 4 + 1
    · simp only [h1, h2, and_self, if_true, if_false]
    · simp only [h1, h2, if_false]

/-- Writing `isUsed = 0` before `isUsed = 1` leaves no trace. -/
theorem restore_header_first (m : Mem) (b : Nat) :
    store (store (store m (b + 4) 1 0) (b + 4) 1 1) (b + 8) 8 0
      = store (store m (b + 4) 1 1) (b + 8) 8 0 := by
  funext z
  unfold store
  by_cases h1 : b + 8 ≤ z ∧ z < b + 8 + 8
  · simp only [h1, and_self, if_true]
  · by_cases h2 : b + 4 ≤ z ∧ z < b + 4 + 1
    · simp only [h1, h2, and_self, if_true, if_false]
    · simp only [h1, h2, if_false]

/-- The iteration `free(ptr); ptr = malloc(size)` on the only entry of the free
list, or on a used block when the list is empty, whose size is `size`: the block
is handed out again and `free_head` keeps pointing at it. -/
theorem free_malloc_fixed {s : State} {b size : Nat} (hb0 : 0 < s.base) (hb1 : s.base ≤ b)
    (hb2 : b + 16 + size ≤ s.brk) (hl : s.brk ≤ s.limit) (hlim : s.limit < 2 ^ 64)
    (hso : s.startOfHeap ≠ 0)
    (hfh : s.free_head = 0 ∨ s.free_head = b)
    (hsz : get_size s.mem b = size) (hu : get_isUsed s.mem b ≠ 0)
    (hn : get_nextFree s.mem b = 0) :
    free_malloc size s (b + METADATA_SIZE) = some (b + METADATA_SIZE,
      { s with free_head := b, mem := store (store s.mem (b + 4) 1 1) (b + 8) 8 0 }) := by
  have hs32 := get_size_lt s.mem b
  rw [hsz] at hs32
  have hfree : free s (b + METADATA_SIZE)
      = some { s with free_head := b, mem := store s.mem (b + 4) 1 0 } := by
    rw [free_exec_start hb1 (by omega) (by norm_num at hlim ⊢; omega) hu]
    rcases hfh with h0 | h0
    · rw [if_pos h0]
    · rw [if_neg (by omega), if_neg (by omega), h0]
      obtain ⟨k', hf2⟩ : ∃ k', s.brk - s.base = k' + 1 := ⟨s.brk - s.base - 1, by omega⟩
      have hsz' : load s.mem b 4 = size := hsz
      have hn' : load s.mem (b + 8) 8 = 0 := hn
      have hc1 : ¬ (b + size + 16 = b) := by omega
      have hc2 : ¬ (b + size + 16 < b) := by omega
      show free_loop b ((s.brk - s.base) + 1) _ b = _
      rw [free_loop, if_neg (by omega)]
      simp only [bind_rd hb1 (show b + 4 ≤ s.brk by omega),
        bind_rd (show s.base ≤ b + 8 by omega) (show b + 8 + 8 ≤ s.brk by omega)]
      simp (disch := omega) only [load_store_disj]
      simp only [hsz', hn', METADATA_SIZE, hc1, hc2, if_false, ne_eq, not_true_eq_false,
        false_and, and_false]
      rw [hf2, free_loop, if_pos rfl]
  unfold free_malloc
  rw [hfree, Option.some_bind, malloc_start size (by exact hl)]
  have hst : heapStart { s with free_head := b, mem := store s.mem (b + 4) 1 0 }
      = s.startOfHeap := by unfold heapStart; simp [hso]
  rw [hst]
  have hf : loop_fuel { s with free_head := b, mem := store s.mem (b + 4) 1 0 }
      = (s.brk - s.base) + 1 := rfl
  have hsz1 : get_size (store s.mem (b + 4) 1 0) b = size := by rw [size_store_used, hsz]
  have hge : load (store s.mem (b + 4) 1 0) b 4 ≥ size := by
    have : load (store s.mem (b + 4) 1 0) b 4 = size := hsz1
    omega
  rw [hf, malloc_loop]
  dsimp only
  rw [if_neg (by omega)]
  simp only [bind_rd hb1 (show b + 4 ≤ s.brk by omega), hge, if_true]
  have hw := @malloc_exec_whole_head
    { startOfHeap := s.startOfHeap, free_head := b, base := s.base, brk := s.brk,
      limit := s.limit, mem := store s.mem (b + 4) 1 0 }
    size b hb1 (by dsimp only; omega) (by rw [hsz1]; omega)
    (by norm_num at hs32 ⊢; omega)
  rw [hsz1] at hw
  have e : load (store s.mem (b + 4) 1 0) b 4 = size := hsz1
  rw [e, hw]
  dsimp only
  rw [restore_header_first]
  rfl



/-- C9: from the initial state, after `n` calls `malloc(size)`, the call
`P = malloc(size)` and `m` further calls, all granted by the environment, the
iteration `free(P); P = malloc(size)` returns the same address `P` and leaves
the same state `s1` however often it is repeated; the heap end stays where the
`n + 1 + m` allocations left it. -/
theorem free_malloc_loop_stable (base limit : Nat) (mem : Mem) (n m size : Nat)
    (hbase : 0 < base) (hlimit : limit < 2 ^ 64) (hsize : size < 2 ^ 32)
    (hroom : base + (n + 1 + m) * (METADATA_SIZE + size) ≤ limit) :
    ∃ P sN s1, alloc_around size n m (init base limit mem) = some (P, sN)
      ∧ sN.brk = base + (n + 1 + m) * (METADATA_SIZE + size)
      ∧ free_malloc size sN P = some (P, s1)
      ∧ s1.brk = sN.brk
      ∧ ∀ k, 0 < k → cycle_k size k sN P = some (P, s1) := by
  unfold METADATA_SIZE at hroom ⊢
  have e : (n + 1 + m) * (16 + size) = n * (16 + size) + (16 + size) + m * (16 + size) := by
    ring
  obtain ⟨sA, hA, a1, a2, a3, a4, _, _⟩ :=
    malloc_n_empty hsize n (init base limit mem) rfl hbase (le_refl _)
      (by show base + n * (16 + size) ≤ limit; omega)
  have a1' : sA.base = base := a1
  have a2' : sA.brk = base + n * (16 + size) := a2
  have a3' : sA.limit = limit := a3
  obtain ⟨sB, hB, b1, b2, b3, b4, b5, _, b7, b8, b9⟩ :=
    @malloc_empty sA size a4 (by omega) (by omega) hsize
  have hsoB : sB.startOfHeap ≠ 0 := by
    rw [b4]; unfold heapStart
    by_cases h0 : sA.startOfHeap = 0
    · simp only [h0, if_true]; omega
    · simp only [h0, if_false]; exact h0
  obtain ⟨sN, hN, c1, c2, c3, c4, c5, c6⟩ :=
    malloc_n_empty hsize m sB b5 (by omega) (by omega) (by omega)
  have hfld : get_size sN.mem sA.brk = size ∧ get_isUsed sN.mem sA.brk = 1
      ∧ get_nextFree sN.mem sA.brk = 0 := by
    have := @fields_of_out sB.mem sN.mem sA.brk
      (fun z h1 h2 => c6 z (by omega))
    rw [this.1, this.2.1, this.2.2]
    exact ⟨b7, b8, b9⟩
  have hstep := @free_malloc_fixed sN sA.brk size (by omega) (by omega)
    (by omega) (by omega) (by omega) (by rw [c5 hsoB]; exact hsoB) (Or.inl c4) hfld.1
    (by rw [hfld.2.1]; decide) hfld.2.2
  unfold METADATA_SIZE at hstep
  obtain ⟨s1, hs1⟩ : ∃ s1 : State, s1 = { sN with
      free_head := sA.brk,
      mem := store (store sN.mem (sA.brk + 4) 1 1) (sA.brk + 8) 8 0 } := ⟨_, rfl⟩
  rw [← hs1] at hstep
  have hstep2 : free_malloc size s1 (sA.brk + 16) = some (sA.brk + 16, s1) := by
    have h := @free_malloc_fixed s1 sA.brk size
      (by rw [hs1]; dsimp only; omega) (by rw [hs1]; dsimp only; omega)
      (by rw [hs1]; dsimp only; omega) (by rw [hs1]; dsimp only; omega)
      (by rw [hs1]; dsimp only; omega)
      (by rw [hs1]; dsimp only; rw [c5 hsoB]; exact hsoB) (Or.inr (by rw [hs1]))
      (by rw [hs1]; dsimp only; rw [size_store_next, size_store_used]; exact hfld.1)
      (by rw [hs1]; dsimp only
          rw [used_store_next, used_store_used _ _ _ (by norm_num)]; decide)
      (by rw [hs1]; dsimp only; exact next_store_next _ _ _ (by norm_num))
    unfold METADATA_SIZE at h
    rw [h]
    congr 2
    rw [hs1]
    dsimp only
    rw [restore_header]
  have hfix : ∀ k, cycle_k size k s1 (sA.brk + 16) = some (sA.brk + 16, s1) := by
    intro k
    induction k with
    | zero => rfl
    | succ k ih => rw [cycle_k, hstep2, Option.some_bind]; exact ih
  refine ⟨sA.brk + 16, sN, s1, ?_, ?_, hstep, by rw [hs1], ?_⟩
  · unfold alloc_around
    rw [hA, Option.some_bind, hB, Option.some_bind]
    dsimp only
    rw [hN, Option.some_bind]
  · rw [c2, b2, a2', e]; omega
  · intro k hk
    obtain ⟨j, rfl⟩ : ∃ j, k = j + 1 := ⟨k - 1, by omega⟩
    rw [cycle_k, hstep, Option.some_bind]
    exact hfix j

/-- Witness of C9 with the numbers of `tests/samples/10-free-lists.c`. -/
theorem free_malloc_loop_stable_witness :
    0 < 4096 ∧ 2 ^ 20 < 2 ^ 64 ∧ 100 < 2 ^ 32
    ∧ 4096 + (100 + 1 + 100) * (METADATA_SIZE + 100) ≤ 2 ^ 20
    ∧ ∃ P sN s1, alloc_around 100 100 100 (init 4096 (2 ^ 20) zeroMem) = some (P, sN)
      ∧ sN.brk = 4096 + (100 + 1 + 100) * (METADATA_SIZE + 100)
      ∧ free_malloc 100 sN P = some (P, s1)
      ∧ s1.brk = sN.brk
      ∧ ∀ k, 0 < k → cycle_k 100 k sN P = some (P, s1) :=
  ⟨by decide, by decide, by decide, by decide,
    free_malloc_loop_stable 4096 (2 ^ 20) zeroMem 100 100 100 (by decide) (by decide)
      (by decide) (by decide)⟩

/-! ## A release/re-allocate cycle -/

theorem span_pos {sizes : List Nat} (h : sizes ≠ []) : 16 ≤ span sizes := by
  cases sizes with
  | nil => exact absurd rfl h
  | cons a t => simp only [span, METADATA_SIZE]; omega

theorem span_mem {sizes : List Nat} {sz : Nat} (h : sz ∈ sizes) : 16 + sz ≤ span sizes := by
  induction sizes with
  | nil => cases h
  | cons a t ih =>
    simp only [span, METADATA_SIZE]
    rcases List.mem_cons.1 h with e | h1
    · omega
    · have := ih h1; omega

/-- A round of `malloc` with an empty free list appends one used block per
size. -/
theorem malloc_all_empty :
    ∀ (sizes : List Nat) (s : State), s.free_head = 0 → 0 < s.base → s.base ≤ s.brk →
      s.brk + span sizes ≤ s.limit → (∀ sz ∈ sizes, sz < 2 ^ 32) →
      ∃ s', malloc_all sizes s = some ((hdrs s.brk sizes).map (· + 16), s')
        ∧ s'.base = s.base ∧ s'.brk = s.brk + span sizes ∧ s'.limit = s.limit
        ∧ s'.free_head = 0 ∧ heapStart s' = heapStart s
        ∧ (∀ z, z < s.brk → s'.mem z = s.mem z)
        ∧ tiles s'.mem s.brk (hdrs s.brk sizes) s'.brk
        ∧ ∀ b ∈ hdrs s.brk sizes, get_isUsed s'.mem b = 1 ∧ get_nextFree s'.mem b = 0 := by
  intro sizes
  induction sizes with
  | nil =>
    intro s hfh _ _ _ _
    exact ⟨s, rfl, rfl, by simp [span], rfl, hfh, rfl, fun _ _ => rfl, by simp [hdrs, tiles],
      by simp [hdrs]⟩
  | cons sz rest ih =>
    intro s hfh hb0 hb hroom hsz
    simp only [span, METADATA_SIZE] at hroom
    obtain ⟨s1, he, h1, h2, h3, h4, h5, h6, h7, h8, h9⟩ :=
      @malloc_empty s sz hfh hb (by omega) (hsz sz (List.mem_cons_self _ _))
    obtain ⟨s2, he2, g1, g2, g3, g4, g5, g6, g7, g8⟩ :=
      ih s1 h5 (by omega) (by omega) (by rw [h2, h3]; omega)
        (fun x hx => hsz x (List.mem_cons_of_mem _ hx))
    have hf := @fields_of_out s1.mem s2.mem s.brk (fun z _ hz => g6 z (by omega))
    have hs0 : heapStart s ≠ 0 := by
      unfold heapStart; split_ifs with h0
      · omega
      · exact h0
    refine ⟨s2, ?_, g1.trans h1, ?_, g3.trans h3, g4, ?_, ?_, ?_, ?_⟩
    · simp only [malloc_all, he, Option.some_bind, he2, hdrs, List.map_cons, METADATA_SIZE, h2]
    · rw [g2, h2]; simp only [span, METADATA_SIZE]; omega
    · rw [g5]; unfold heapStart; rw [h4, if_neg hs0]; rfl
    · intro z hz
      rw [g6 z (by omega), h6 z hz]
    · refine ⟨rfl, ?_⟩
      rw [hf.1, h7]
      show tiles s2.mem (s.brk + 16 + sz) (hdrs (s.brk + 16 + sz) rest) s2.brk
      rw [← h2]; exact g7
    · intro b hb'
      simp only [hdrs, List.mem_cons] at hb'
      rcases hb' with e | hb'
      · rw [e, hf.2.1, hf.2.2, h8, h9]; exact ⟨rfl, rfl⟩
      · have hb2 : b ∈ hdrs (s.brk + 16 + sz) rest := hb'
        rw [← h2] at hb2
        exact g8 b hb2

/-- Releasing distinct live pointers one after the other keeps the state well
formed and leaves used only blocks that were used and not released. -/
theorem free_all_spec :
    ∀ (order : List Nat) (s : State) (bs : List Nat), WF s bs →
      s.brk - heapStart s < 2 ^ 32 → order.Nodup → (∀ p ∈ order, live s bs p) →
      ∃ s' bs', free_all order s = some s' ∧ WF s' bs'
        ∧ s'.base = s.base ∧ s'.brk = s.brk ∧ s'.limit = s.limit
        ∧ s'.startOfHeap = s.startOfHeap
        ∧ ∀ a, a ∈ bs' → get_isUsed s'.mem a ≠ 0 →
            a ∈ bs ∧ get_isUsed s.mem a ≠ 0 ∧ a + 16 ∉ order := by
  intro order
  induction order with
  | nil =>
    intro s bs hwf _ _ _
    exact ⟨s, bs, rfl, hwf, rfl, rfl, rfl, rfl, fun a h1 h2 => ⟨h1, h2, by simp⟩⟩
  | cons p rest ih =>
    intro s bs hwf hspan hnd hlive
    obtain ⟨b, hb, hpb, hu⟩ := hlive p (List.mem_cons_self _ _)
    obtain ⟨s1, he1, bs1, hok⟩ := free_spec hwf hb hu hspan
    have hhs : heapStart s1 = heapStart s := by
      unfold heapStart; rw [hok.start_eq, hok.brk_eq]
    have hnd' := List.nodup_cons.1 hnd
    obtain ⟨s2, bs2, he2, hwf2, g1, g2, g3, g4, g5⟩ :=
      ih s1 bs1 hok.wf (by rw [hhs, hok.brk_eq]; exact hspan) hnd'.2 (by
        intro q hq
        obtain ⟨b', hb', hq', hu'⟩ := hlive q (List.mem_cons_of_mem _ hq)
        have hne : b' ≠ b := by
          intro e; apply hnd'.1; rw [hpb, ← e, ← hq']; exact hq
        have := (hok.used_iff b').2 ⟨hb', hu', hne⟩
        exact ⟨b', this.1, hq', this.2⟩)
    refine ⟨s2, bs2, ?_, hwf2, g1.trans hok.base_eq, g2.trans hok.brk_eq,
      g3.trans hok.limit_eq, g4.trans hok.start_eq, ?_⟩
    · simp only [free_all]
      rw [hpb, he1]; exact he2
    · intro a ha hua
      obtain ⟨k1, k2, k3⟩ := g5 a ha hua
      obtain ⟨m1, m2, m3⟩ := (hok.used_iff a).1 ⟨k1, k2⟩
      refine ⟨m1, m2, ?_⟩
      intro hmem
      rcases List.mem_cons.1 hmem with e | hmem
      · apply m3; rw [hpb] at e; unfold METADATA_SIZE at e; omega
      · exact k3 hmem

/-- A well-formed heap without used blocks is empty or one free block. -/
theorem all_free_single {s : State} {bs : List Nat} (hwf : WF s bs)
    (hfree : ∀ a ∈ bs, get_isUsed s.mem a = 0) (hne : heapStart s < s.brk) :
    s.free_head = heapStart s ∧ heapStart s + 16 + get_size s.mem (heapStart s) = s.brk := by
  have ht := hwf.tiled
  have hf := hwf.flist
  cases bs with
  | nil =>
    simp only [tiles] at ht; omega
  | cons c t =>
    cases t with
    | nil =>
      obtain ⟨h1, h2⟩ := ht
      simp only [tiles, METADATA_SIZE] at h2
      have : freeBlocks s.mem [c] = [c] := by
        unfold freeBlocks
        simp [hfree c (List.mem_cons_self _ _)]
      rw [this] at hf
      obtain ⟨h3, _, _⟩ := hf
      rw [← h1] at h2 ⊢
      exact ⟨h3, h2⟩
    | cons d t =>
      exfalso
      obtain ⟨h1, h2, _⟩ := ht
      rw [← h1] at h2
      exact hwf.no_adj c (List.mem_cons_self _ _) d
        (List.mem_cons_of_mem _ (List.mem_cons_self _ _))
        (hfree c (List.mem_cons_self _ _))
        (hfree d (List.mem_cons_of_mem _ (List.mem_cons_self _ _))) h2.symm

/-- When the head of the free list is large enough, `malloc` serves the request
from it. -/
theorem malloc_head_hit {s : State} {size c : Nat} (hfh : s.free_head = c) (hc0 : c ≠ 0)
    (hc1 : s.base ≤ c) (hc2 : c + 4 ≤ s.brk) (hl : s.brk ≤ s.limit)
    (hsz : size ≤ get_size s.mem c) :
    malloc s size
      = malloc_hit { s with startOfHeap := heapStart s } size c 0 (get_size s.mem c) := by
  rw [malloc_start size hl]
  have : loop_fuel s = (s.brk - s.base) + 1 := rfl
  rw [this, malloc_loop, hfh, if_neg hc0]
  have hge : load s.mem c 4 ≥ size := hsz
  simp only [bind_rd hc1 hc2, hge, if_true, get_size]

/-- A round of `malloc` whose sizes add up to the single free block at the
head of the free list is served from that block. -/
theorem malloc_all_reuse :
    ∀ (sizes : List Nat) (s : State) (c : Nat), sizes ≠ [] → s.free_head = c → 0 < c →
      s.base ≤ c → c + span sizes = s.brk → s.brk ≤ s.limit → s.limit < 2 ^ 64 →
      get_size s.mem c + 16 = span sizes →
      ∃ qs s', malloc_all sizes s = some (qs, s') ∧ s'.brk = s.brk := by
  intro sizes
  induction sizes with
  | nil => intro s c h; exact absurd rfl h
  | cons sz rest ih =>
    intro s c _ hfh hc0 hc1 hend hl hl64 hsize
    simp only [span, METADATA_SIZE] at hend hsize
    have hhit := @malloc_head_hit s sz c hfh (by omega) hc1 (by omega) hl (by omega)
    by_cases hr : rest = []
    · subst hr
      simp only [span] at hend hsize
      obtain ⟨s1, he, _, h2, _⟩ :=
        @malloc_post_whole { s with startOfHeap := heapStart s } sz c 0 hc1
          (by dsimp only; omega) (by dsimp only; omega) (by norm_num at hl64 ⊢; omega)
          (Or.inl rfl)
      refine ⟨[c + 16], s1, ?_, h2⟩
      simp only [malloc_all, hhit, he, Option.some_bind]
    · have hp := span_pos hr
      obtain ⟨s1, he, h1, h2, h3, _, h5, _, _, _, _, _, h12, _⟩ :=
        @malloc_post_split { s with startOfHeap := heapStart s } sz c 0 hc1
          (by dsimp only; omega) (by dsimp only; omega) (by dsimp only; omega)
          (Or.inl ⟨rfl, hfh⟩)
      dsimp only at h1 h2 h3 h5 h12
      simp only [if_true] at h5
      obtain ⟨qs, s2, he2, hb2⟩ := ih s1 (c + 16 + sz) hr h5 (by omega) (by omega)
        (by omega) (by omega) (by omega) (by omega)
      refine ⟨(c + 16) :: qs, s2, ?_, hb2.trans h2⟩
      simp only [malloc_all, hhit, he, Option.some_bind, he2]

theorem hdrs_nodup {m : Mem} {e : Nat} {l : List Nat} {a : Nat} (h : tiles m a l e) :
    (l.map (· + 16)).Nodup := by
  have hp : l.Pairwise (· < ·) := (tiles_pairwise h).imp (fun h => by omega)
  exact (List.Pairwise.imp (fun h => Nat.ne_of_lt h) hp).map _
    (fun x y hxy h => hxy (by omega))

/-- C10 (as stated, refuted): two blocks of `2^32 - 1` bytes are allocated from
the initial state and released in the order of allocation; the merged size
`2^32 - 1 + 16 + 2^32 - 1` does not fit the `unsigned int` field and is stored
as 14, so the second round is not served from the free list and the heap grows
by another two blocks. -/
theorem release_cycle_grows_heap :
    release_cycle [2 ^ 32 - 1, 2 ^ 32 - 1] (init 4096 (2 ^ 40) zeroMem)
      = some (4096 + 2 * (2 ^ 32 + 15), 4096 + 4 * (2 ^ 32 + 15)) := by
  decide

/-- C10 (amended): from the initial state, when the environment grants the first
round `malloc(s_1)`, ..., `malloc(s_N)` and the `N` blocks take less than `2^32`
bytes, all calls return, and after `free` of the `N` returned pointers in any
order the second round `malloc(s_1)`, ..., `malloc(s_N)` returns and leaves the
end of the heap where the first round left it. -/
theorem second_round_reuses_heap (base limit : Nat) (mem : Mem) (sizes : List Nat)
    (hbase : 0 < base) (hlimit : limit < 2 ^ 64)
    (hroom : base + span sizes ≤ limit) (hspan : span sizes < 2 ^ 32) :
    ∃ ps s1, malloc_all sizes (init base limit mem) = some (ps, s1)
      ∧ s1.brk = base + span sizes
      ∧ ∀ order, order.Perm ps →
          ∃ s2 qs s3, free_all order s1 = some s2
            ∧ malloc_all sizes s2 = some (qs, s3)
            ∧ s3.brk = s1.brk := by
  have hsz : ∀ sz ∈ sizes, sz < 2 ^ 32 := fun sz h => by
    have := span_mem h; omega
  obtain ⟨s1, he, h1, h2, h3, h4, h5, _, h7, h8⟩ :=
    malloc_all_empty sizes (init base limit mem) rfl hbase (Nat.le_refl _) hroom hsz
  have hbrk : s1.brk = base + span sizes := h2
  have hbase1 : s1.base = base := h1
  have hlim1 : s1.limit = limit := h3
  have hs1 : heapStart s1 = base := h5
  have ht : tiles s1.mem base (hdrs base sizes) s1.brk := h7
  have hu : ∀ b ∈ hdrs base sizes, get_isUsed s1.mem b = 1 ∧ get_nextFree s1.mem b = 0 := h8
  refine ⟨_, s1, he, hbrk, ?_⟩
  intro order hperm
  by_cases hne : sizes = []
  · subst hne
    have ho : order = [] := List.Perm.eq_nil (by simpa [hdrs, init] using hperm)
    subst ho
    exact ⟨s1, [], s1, rfl, rfl, rfl⟩
  have hwf : WF s1 (hdrs base sizes) := by
    refine ⟨by omega, by omega, ⟨by omega, by omega⟩, by rw [hs1]; exact ht, ?_, ?_, ?_⟩
    · have : freeBlocks s1.mem (hdrs base sizes) = [] := by
        unfold freeBlocks
        rw [List.filter_eq_nil_iff]
        intro a ha
        simp [(hu a ha).1]
      rw [this]
      exact h4
    · intro a ha _ _ h0
      rw [(hu a ha).1] at h0
      exact absurd h0 (by decide)
    · intro a ha _
      exact (hu a ha).2
  have hnd : order.Nodup := (List.Perm.nodup_iff hperm).2 (hdrs_nodup ht)
  have hlive : ∀ p ∈ order, live s1 (hdrs base sizes) p := by
    intro p hp
    have hp' := (List.Perm.mem_iff hperm).1 hp
    obtain ⟨b, hb, hbp⟩ := List.mem_map.1 hp'
    refine ⟨b, hb, hbp.symm, ?_⟩
    rw [(hu b hb).1]; decide
  obtain ⟨s2, bs2, hf, hwf2, g1, g2, g3, g4, g5⟩ :=
    free_all_spec order s1 (hdrs base sizes) hwf (by rw [hs1, hbrk]; omega) hnd hlive
  have hfree : ∀ a ∈ bs2, get_isUsed s2.mem a = 0 := by
    intro a ha
    by_contra hua
    obtain ⟨k1, _, k3⟩ := g5 a ha hua
    exact k3 ((List.Perm.mem_iff hperm).2 (List.mem_map.2 ⟨a, k1, rfl⟩))
  have hs2 : heapStart s2 = base := by
    rw [← hs1]; unfold heapStart; rw [g4, g2]
  have hpos := span_pos hne
  obtain ⟨hh, hsize⟩ := all_free_single hwf2 hfree (by rw [hs2, g2, hbrk]; omega)
  rw [hs2] at hh hsize
  obtain ⟨qs, s3, he3, hb3⟩ := malloc_all_reuse sizes s2 base hne hh hbase (by omega)
    (by omega) (by omega) (by omega) (by omega)
  exact ⟨s2, qs, s3, hf, he3, hb3.trans g2⟩

/-- Witness of C10 (amended) for the sizes 100, 0 and 24. -/
theorem second_round_reuses_heap_witness :
    0 < 4096 ∧ 8192 < 2 ^ 64 ∧ 4096 + span [100, 0, 24] ≤ 8192 ∧ span [100, 0, 24] < 2 ^ 32
    ∧ ∃ ps s1, malloc_all [100, 0, 24] (init 4096 8192 zeroMem) = some (ps, s1)
      ∧ s1.brk = 4096 + span [100, 0, 24]
      ∧ ∀ order, order.Perm ps →
          ∃ s2 qs s3, free_all order s1 = some s2
            ∧ malloc_all [100, 0, 24] s2 = some (qs, s3)
            ∧ s3.brk = s1.brk :=
  ⟨by decide, by decide, by decide, by decide,
    second_round_reuses_heap 4096 8192 zeroMem [100, 0, 24] (by decide) (by decide)
      (by decide) (by decide)⟩

/-! ## Theorems: null pointers, failed extensions and the head of the free list -/

/-- C12 (code defect): `free(NULL)` computes the header address
`NULL - METADATA_SIZE` and reads `isUsed` there: whenever the heap ends below
that address the call is an access outside of the mapped region. -/
theorem free_null_reads_header (s : State) (h : s.brk < 2 ^ 64 - 11) : free s 0 = none := by
  have e : hdr_of 0 = 2 ^ 64 - 16 := by decide
  unfold free
  rw [e]
  simp only [rd]
  rw [if_neg (by norm_num at h ⊢; omega)]
  rfl

/-- Witness of C12 on the initial state. -/
theorem free_null_reads_header_witness :
    (init 4096 8192 zeroMem).brk < 2 ^ 64 - 11 ∧ free (init 4096 8192 zeroMem) 0 = none :=
  ⟨by decide, free_null_reads_header (init 4096 8192 zeroMem) (by decide)⟩

/-- C14 (code defect): `calloc(1, 8)` when the environment grants the header
but not the payload: `malloc(8)` returns `(void *)-1` with the break moved, so
`calloc` does not see a null pointer and passes `(void *)-1` to `memset`. -/
theorem calloc_misses_malloc_failure :
    (malloc (init 4096 4116 zeroMem) (1 * 8 % 2 ^ 64)).map (fun r => (r.1, r.2.brk))
      = some (2 ^ 64 - 1, 4112)
    ∧ (calloc (init 4096 4116 zeroMem) 1 8).isNone = true := by
  decide

/-- C17 (code defect): in `smallState` the only free block, of size 8, is the
head of the free list; `malloc(8)` hands it out whole, marks it used and keeps
its size, and `free_head` still points to it. -/
theorem whole_block_head_stays_linked :
    WF smallState [4096, 4120]
    ∧ freeBlocks smallState.mem [4096, 4120] = [4096]
    ∧ get_size smallState.mem 4096 = 8
    ∧ (malloc smallState 8).map (fun r => (r.1, get_isUsed r.2.mem 4096, get_size r.2.mem 4096,
        r.2.free_head)) = some (4112, 1, 8, 4096) :=
  ⟨⟨by decide, by decide, by decide, by decide, by decide, by decide, by decide⟩,
   by decide, by decide, by decide⟩

/-- C20 (code defect): after `p = malloc(1); x = malloc(1); free(p);
q = malloc(1); y = malloc(100); free(y)` the block of the live pointer `q` has
`isUsed = 1` and its `nextFree` points to the block of `y`. -/
theorem used_block_gets_link :
    link_scenario.map (fun r => (r.1, r.2.1, get_isUsed r.2.2.mem (hdr_of r.1),
      get_nextFree r.2.2.mem (hdr_of r.1), r.2.2.free_head))
      = some (4112, 4146, 1, 4130, 4096) := by
  decide

/-- C15: when the header of `p` is mapped and records a size of at least
`newSize > 0`, `realloc(p, newSize)` returns `p` and the state is the state
before the call. -/
theorem realloc_fits_unchanged (s : State) (p newSize : Nat) (hp : p ≠ 0)
    (hn : 0 < newSize) (h1 : s.base ≤ hdr_of p) (h2 : hdr_of p + METADATA_SIZE ≤ s.brk)
    (hfit : newSize ≤ get_size s.mem (hdr_of p)) :
    realloc s p newSize = some (p, s) := by
  unfold METADATA_SIZE at h2
  have hge : load s.mem (hdr_of p) 4 ≥ newSize := hfit
  unfold realloc
  rw [if_neg hp, if_neg (by omega)]
  simp only [bind_rd h1 (show hdr_of p + 4 ≤ s.brk by omega), hge, if_true]

/-- Witness of C15: `realloc(4112, 5)` on a block of 8 bytes. -/
theorem realloc_fits_unchanged_witness :
    4112 ≠ 0 ∧ 0 < 5 ∧ growState.base ≤ hdr_of 4112
    ∧ hdr_of 4112 + METADATA_SIZE ≤ growState.brk
    ∧ 5 ≤ get_size growState.mem (hdr_of 4112)
    ∧ realloc growState 4112 5 = some (4112, growState) :=
  ⟨by decide, by decide, by decide, by decide, by decide,
    realloc_fits_unchanged growState 4112 5 (by decide) (by decide) (by decide) (by decide)
      (by decide)⟩

/-- C16: `realloc(NULL, n)` is `malloc(n)`: the same result and state; and
`realloc(p, 0)` for a non-null `p` returns null with the state of `free(p)`. -/
theorem realloc_degenerate (s : State) (p n : Nat) (hp : p ≠ 0) :
    realloc s 0 n = malloc s n
    ∧ realloc s p 0 = (free s p).map fun s1 => (0, s1) := by
  constructor
  · unfold realloc; rw [if_pos rfl]
  · unfold realloc; rw [if_neg hp, if_pos rfl]
    cases free s p <;> rfl

/-- Witness of C16 on a heap of two 8-byte blocks. -/
theorem realloc_degenerate_witness :
    4112 ≠ 0 ∧ realloc growState 0 8 = malloc growState 8
    ∧ realloc growState 4112 0 = (free growState 4112).map fun s1 => (0, s1) :=
  ⟨by decide, realloc_degenerate growState 4112 8 (by decide)⟩

/-! ## Lemmas: the hit path of `malloc` on a well-formed state -/

/-- On a well-formed state `malloc` takes the hit path on the first free block
in list order that is large enough. -/
theorem malloc_hit_at {s : State} {bs l r : List Nat} {c size : Nat} (hwf : WF s bs)
    (hfl : freeBlocks s.mem bs = l ++ c :: r) (hl : ∀ y ∈ l, get_size s.mem y < size)
    (hc : size ≤ get_size s.mem c) :
    malloc s size = malloc_hit { s with startOfHeap := heapStart s } size c
      (l.getLast?.getD 0) (get_size s.mem c) := by
  rw [malloc_start size hwf.limit_ok.1]
  have hlen : (freeBlocks s.mem bs).length ≤ bs.length := List.length_filter_le _ _
  have htl := tiles_length hwf.tiled
  have hst := hwf.start_ok
  have hval : ∀ y ∈ freeBlocks s.mem bs, s.base ≤ y ∧ y + 16 ≤ s.brk := by
    intro y hy
    have := WF_block_valid hwf (mem_freeBlocks.1 hy).1
    omega
  have hfl0 := hwf.flist
  rw [hfl, chain_append] at hfl0
  obtain ⟨x, hc1, hx, hc0, _⟩ := hfl0
  subst hx
  have hll : l.length < (freeBlocks s.mem bs).length := by rw [hfl]; simp
  have hlm : ∀ y ∈ l, y ∈ freeBlocks s.mem bs := fun y hy => by
    rw [hfl]; exact List.mem_append_left _ hy
  have hcm : x ∈ freeBlocks s.mem bs := by rw [hfl]; simp
  rw [malloc_loop_walk (s := { s with startOfHeap := heapStart s })
    l s.free_head 0 (loop_fuel s) hc1
    (fun y hy => ⟨(hval y (hlm y hy)).1, (hval y (hlm y hy)).2, hl y hy⟩)
    (by unfold loop_fuel; omega)]
  obtain ⟨k, hk⟩ : ∃ k, loop_fuel s - l.length = k + 1 :=
    ⟨s.brk - s.base - l.length, by unfold loop_fuel; omega⟩
  have hge : load s.mem x 4 ≥ size := hc
  rw [hk, malloc_loop, if_neg hc0]
  simp only [bind_rd (hval x hcm).1 (show x + 4 ≤ s.brk by have := (hval x hcm).2; omega),
    hge, if_true]
  rfl

/-- Where the other entries of the free list lie with respect to the entry `c`
and to its predecessor. -/
theorem free_list_layout {s : State} {bs l r : List Nat} {c : Nat} (hwf : WF s bs)
    (hfl : freeBlocks s.mem bs = l ++ c :: r) :
    (∀ y ∈ l, y ∈ bs ∧ y + 16 + get_size s.mem y ≤ c)
    ∧ (∀ y ∈ r, y ∈ bs ∧ c + 16 + get_size s.mem c ≤ y)
    ∧ (∀ y ∈ l ++ r, y ≠ l.getLast?.getD 0 →
        l.getLast?.getD 0 = 0 ∨ y + 16 ≤ l.getLast?.getD 0 ∨ l.getLast?.getD 0 + 16 ≤ y) := by
  have hsort := WF_free_sorted hwf
  rw [hfl, List.pairwise_append, List.pairwise_cons] at hsort
  have hin : ∀ y ∈ l ++ c :: r, y ∈ bs := fun y hy => by
    rw [← hfl] at hy; exact (mem_freeBlocks.1 hy).1
  have h1 : ∀ y ∈ l, y ∈ bs ∧ y + 16 + get_size s.mem y ≤ c := fun y hy =>
    ⟨hin y (List.mem_append_left _ hy), hsort.2.2 y hy c (List.mem_cons_self _ _)⟩
  have h2 : ∀ y ∈ r, y ∈ bs ∧ c + 16 + get_size s.mem c ≤ y := fun y hy =>
    ⟨hin y (List.mem_append_right _ (List.mem_cons_of_mem _ hy)), hsort.2.1.1 y hy⟩
  refine ⟨h1, h2, ?_⟩
  intro y hy hne
  rcases List.eq_nil_or_concat l with hl | ⟨l', p, hl⟩
  · subst hl; left; rfl
  · rw [List.concat_eq_append] at hl
    subst hl
    have e : (l' ++ [p]).getLast?.getD 0 = p := by simp
    rw [e] at hne ⊢
    right
    have hp := h1 p (by simp)
    rcases List.mem_append.1 hy with hy1 | hy1
    · have := tiles_sep hwf.tiled y (h1 y hy1).1 p hp.1 hne
      omega
    · have := h2 y hy1
      omega

/-- The hit path of `malloc` on a well-formed state: the first free block `c`
in list order that is large enough is handed out, the heap is not extended,
and a split puts the remainder in the place of `c` in the free list. -/
theorem malloc_hit_spec {s : State} {bs l r : List Nat} {c size : Nat} (hwf : WF s bs)
    (hfl : freeBlocks s.mem bs = l ++ c :: r) (hl : ∀ y ∈ l, get_size s.mem y < size)
    (hc : size ≤ get_size s.mem c) :
    ∃ s', malloc s size = some (c + 16, s')
      ∧ s'.base = s.base ∧ s'.brk = s.brk ∧ s'.limit = s.limit
      ∧ (size + 16 ≤ get_size s.mem c →
          get_size s'.mem c = size ∧ get_isUsed s'.mem c = 1 ∧ get_nextFree s'.mem c = 0
          ∧ get_size s'.mem (c + 16 + size) = get_size s.mem c - size - 16
          ∧ get_isUsed s'.mem (c + 16 + size) = 0
          ∧ get_nextFree s'.mem (c + 16 + size) = get_nextFree s.mem c
          ∧ chain s'.mem s'.free_head (l ++ (c + 16 + size) :: r) 0
          ∧ (∀ y ∈ l ++ r, get_size s'.mem y = get_size s.mem y
              ∧ get_isUsed s'.mem y = get_isUsed s.mem y
              ∧ (y ≠ l.getLast?.getD 0 → get_nextFree s'.mem y = get_nextFree s.mem y)))
      ∧ (get_size s.mem c < size + 16 →
          get_size s'.mem c = get_size s.mem c ∧ get_isUsed s'.mem c = 1
          ∧ get_nextFree s'.mem c = 0) := by
  have hm := malloc_hit_at hwf hfl hl hc
  obtain ⟨hcm, hcf, hprev⟩ := malloc_prev_facts hwf hfl
  obtain ⟨hL, hR, hP⟩ := free_list_layout hwf hfl
  have hcv := WF_block_valid hwf hcm
  have hlim := hwf.limit_ok
  have hc64 : c + 16 + get_size s.mem c < 2 ^ 64 := by norm_num at hlim ⊢; omega
  have hc32 := get_size_lt s.mem c
  by_cases hsplit : size + 16 ≤ get_size s.mem c
  · obtain ⟨s', he, hbase', hbrk', hlim', _, hfh', hM, _, hszc, huc, hnc, hszs, hus, hns,
        hnp⟩ :=
      @malloc_post_split { s with startOfHeap := heapStart s } size c
        (l.getLast?.getD 0) hcv.2.1 hcv.2.2.2 hsplit hc64
        (by
          rcases hprev with ⟨h0, h1⟩ | ⟨h0, hpm, h1, _, h2⟩
          · exact Or.inl ⟨h0, h1⟩
          · have := WF_block_valid hwf hpm
            exact Or.inr ⟨h0, this.2.1, by dsimp only; omega, h1, Or.inl (by omega)⟩)
    dsimp only at he hbase' hbrk' hlim' hfh' hM hszc huc hnc hszs hus hns hnp
    refine ⟨s', hm.trans he, hbase', hbrk', hlim', fun _ => ?_, fun h => absurd hsplit (by omega)⟩
    -- the headers of the other entries
    have hsep : ∀ y ∈ l ++ r, y + 16 ≤ c ∨ c + 16 + size + 16 ≤ y := by
      intro y hy
      rcases List.mem_append.1 hy with h | h
      · have := (hL y h).2; omega
      · have := (hR y h).2; omega
    have hfields : ∀ y ∈ l ++ r, get_size s'.mem y = get_size s.mem y
        ∧ get_isUsed s'.mem y = get_isUsed s.mem y
        ∧ (y ≠ l.getLast?.getD 0 → get_nextFree s'.mem y = get_nextFree s.mem y) := by
      intro y hy
      have h1 := hsep y hy
      have hPy : l.getLast?.getD 0 = 0 ∨ y + 8 ≤ l.getLast?.getD 0 + 8
          ∨ l.getLast?.getD 0 + 16 ≤ y := by
        by_cases hne : y = l.getLast?.getD 0
        · right; left; omega
        · rcases hP y hy hne with h | h | h
          · exact Or.inl h
          · right; left; omega
          · right; right; exact h
      refine ⟨load_congr (fun z h2 h3 => hM z (by omega) (by omega)),
        load_congr (fun z h2 h3 => hM z (by omega) (by omega)), fun hne => ?_⟩
      have := hP y hy hne
      exact load_congr (fun z h2 h3 => hM z (by omega) (by omega))
    refine ⟨hszc, huc, hnc, hszs, hus, hns, ?_, hfields⟩
    -- the free list
    have hch := hwf.flist
    rw [hfl, chain_append] at hch
    obtain ⟨x, hc1, hx, hc0, hc2⟩ := hch
    subst hx
    have hT0 : x + 16 + size ≠ 0 := by omega
    refine chain_append.2 ⟨x + 16 + size, ?_, rfl, hT0, ?_⟩
    · rcases List.eq_nil_or_concat l with hl0 | ⟨l', p, hl0⟩
      · subst hl0
        rw [hfh']
        simp
        exact rfl
      · rw [List.concat_eq_append] at hl0
        subst hl0
        have e : (l' ++ [p]).getLast?.getD 0 = p := by simp
        rw [e] at hfh' hnp hfields
        have hp0 : p ≠ 0 := by
          have := WF_block_valid hwf (hL p (by simp)).1; omega
        rw [hfh', if_neg hp0]
        rw [chain_snoc] at hc1 ⊢
        refine ⟨chain_congr (fun b hb => ?_) hc1.1, hp0, hnp hp0⟩
        have hbp : b ≠ p := by
          have hs := WF_free_sorted hwf
          rw [hfl, List.pairwise_append, List.pairwise_append] at hs
          have := hs.1.2.2 b hb p (by simp)
          omega
        exact (hfields b (by simp [hb])).2.2 hbp
    · rw [hns]
      refine chain_congr (fun b hb => ?_) hc2
      have hbp : b ≠ l.getLast?.getD 0 := by
        rcases hprev with ⟨h0, _⟩ | ⟨_, hpm, _, _, h2⟩
        · rw [h0]
          have := WF_block_valid hwf (hR b hb).1; omega
        · have := (hR b hb).2; omega
      exact (hfields b (List.mem_append_right _ hb)).2.2 hbp
  · obtain ⟨s', he, hbase', hbrk', hlim', _, _, _, hszc, huc, hnc, _⟩ :=
      @malloc_post_whole { s with startOfHeap := heapStart s } size c
        (l.getLast?.getD 0) hcv.2.1 (by dsimp only; omega)
        (by dsimp only; omega) (by norm_num at hc32 ⊢; omega)
        (by
          rcases hprev with ⟨h0, h1⟩ | ⟨h0, hpm, h1, _, h2⟩
          · exact Or.inl h0
          · have := WF_block_valid hwf hpm
            exact Or.inr ⟨h0, this.2.1, by dsimp only; omega, Or.inl (by omega)⟩)
    dsimp only at he hbase' hbrk' hlim' hszc huc hnc
    exact ⟨s', hm.trans he, hbase', hbrk', hlim', fun h => absurd h hsplit,
      fun _ => ⟨hszc, huc, hnc⟩⟩

theorem splitState_wf : WF splitState [4096] :=
  ⟨by decide, by decide, by decide, by decide, by decide, by decide, by decide⟩

/-! ## Theorems: capacity, first fit and split -/

/-- C13 (as stated, refuted): `malloc(2^32)` from the initial state, granted by
the environment, returns 4112 and records the size 0: the `unsigned int` field
keeps the low 32 bits of the request. -/
theorem malloc_truncates_size :
    WF (init 4096 (2 ^ 40) zeroMem) []
    ∧ (malloc (init 4096 (2 ^ 40) zeroMem) (2 ^ 32)).map
        (fun r => (r.1, get_size r.2.mem (hdr_of r.1), r.2.brk))
      = some (4112, 0, 4096 + 16 + 2 ^ 32) :=
  ⟨⟨by decide, by decide, by decide, by decide, by decide, by decide, by decide⟩, by decide⟩

/-- C13 (amended): on a well-formed state, for a request `size < 2^32` that a
free block can serve or for which the environment grants the extension,
`malloc(size)` returns the payload of a block whose recorded size is at least
`size`. -/
theorem malloc_capacity (s : State) (bs : List Nat) (size : Nat) (hwf : WF s bs)
    (hsize : size < 2 ^ 32)
    (hroom : (∀ y ∈ freeBlocks s.mem bs, get_size s.mem y < size) →
      s.brk + METADATA_SIZE + size ≤ s.limit) :
    ∃ q s', malloc s size = some (q, s') ∧ size ≤ get_size s'.mem (hdr_of q) := by
  have hlim := hwf.limit_ok
  have hst := hwf.start_ok
  have hB := (tiles_bounds hwf.tiled).1
  rcases malloc_select hwf size with ⟨hall, hm⟩ | ⟨l, c, r, hfl, hl, hge, _⟩
  · have hr := hroom hall
    unfold METADATA_SIZE at hr
    obtain ⟨s', he, _, _, _, _, _, _, _, hsz, _⟩ :=
      @malloc_post_miss { s with startOfHeap := heapStart s } size
        (by dsimp only; omega) hr hsize
    dsimp only at he hsz
    refine ⟨s.brk + 16, s', hm.trans he, ?_⟩
    have e : hdr_of (s.brk + 16) = s.brk := hdr_of_add s.brk (by norm_num at hlim ⊢; omega)
    rw [e, hsz]
  · obtain ⟨s', he, _, _, _, h1, h2⟩ := malloc_hit_spec hwf hfl hl hge
    have hcm : c ∈ freeBlocks s.mem bs := by rw [hfl]; simp
    have hcv := WF_block_valid hwf (mem_freeBlocks.1 hcm).1
    have e : hdr_of (c + 16) = c := hdr_of_add c (by norm_num at hlim ⊢; omega)
    refine ⟨c + 16, s', he, ?_⟩
    rw [e]
    by_cases hsplit : size + 16 ≤ get_size s.mem c
    · rw [(h1 hsplit).1]
    · rw [(h2 (by omega)).1]; exact hge

/-- Witness of C13 (amended) on a heap of two 8-byte blocks. -/
theorem malloc_capacity_witness :
    WF smallState [4096, 4120] ∧ 4 < 2 ^ 32
    ∧ ∃ q s', malloc smallState 4 = some (q, s') ∧ 4 ≤ get_size s'.mem (hdr_of q) :=
  ⟨smallState_wf, by decide,
    malloc_capacity smallState [4096, 4120] 4 smallState_wf (by decide) (fun _ => by decide)⟩

/-- C18: on a well-formed state in which some free block has at least `size`
bytes, `malloc(size)` returns the payload of the first such block `B` in list
order, which is the one at the lowest address, and keeps the break; when
`B.size >= size + METADATA_SIZE`, `B` is used with size `size` afterwards, the
free block `T` at `B + METADATA_SIZE + size` has size
`B.size - size - METADATA_SIZE` and the former successor of `B` as `nextFree`,
the free list is the former one with `T` in the place of `B`, and the other
entries keep their fields, but for the `nextFree` of the predecessor of `B`. -/
theorem first_fit_split_in_place (s : State) (bs : List Nat) (size : Nat) (hwf : WF s bs)
    (hfit : ∃ y ∈ freeBlocks s.mem bs, size ≤ get_size s.mem y) :
    ∃ l B r s', freeBlocks s.mem bs = l ++ B :: r
      ∧ (∀ y ∈ l, get_size s.mem y < size) ∧ size ≤ get_size s.mem B
      ∧ (∀ y ∈ freeBlocks s.mem bs, size ≤ get_size s.mem y → B ≤ y)
      ∧ malloc s size = some (B + METADATA_SIZE, s') ∧ s'.brk = s.brk
      ∧ (size + METADATA_SIZE ≤ get_size s.mem B →
          get_isUsed s'.mem B = 1 ∧ get_size s'.mem B = size
          ∧ get_isUsed s'.mem (B + METADATA_SIZE + size) = 0
          ∧ get_size s'.mem (B + METADATA_SIZE + size)
              = get_size s.mem B - size - METADATA_SIZE
          ∧ get_nextFree s'.mem (B + METADATA_SIZE + size) = get_nextFree s.mem B
          ∧ chain s'.mem s'.free_head (l ++ (B + METADATA_SIZE + size) :: r) 0
          ∧ (∀ y ∈ l ++ r, get_size s'.mem y = get_size s.mem y
              ∧ get_isUsed s'.mem y = get_isUsed s.mem y
              ∧ (y ≠ l.getLast?.getD 0 → get_nextFree s'.mem y = get_nextFree s.mem y))) := by
  obtain ⟨y0, hy0, hy0s⟩ := hfit
  rcases first_fit_split s.mem size (freeBlocks s.mem bs) with hall | ⟨l, B, r, hfl, hl, hB⟩
  · exact absurd (hall y0 hy0) (by omega)
  obtain ⟨s', he, _, hbrk, _, h1, _⟩ := malloc_hit_spec hwf hfl hl hB
  obtain ⟨hL, hR, _⟩ := free_list_layout hwf hfl
  refine ⟨l, B, r, s', hfl, hl, hB, ?_, he, hbrk, ?_⟩
  · intro y hy hys
    rw [hfl] at hy
    rcases List.mem_append.1 hy with h | h
    · exact absurd (hl y h) (by omega)
    · rcases List.mem_cons.1 h with h | h
      · omega
      · have := (hR y h).2; omega
  · intro hsplit
    obtain ⟨a1, a2, _, a4, a5, a6, a7, a8⟩ := h1 hsplit
    exact ⟨a2, a1, a5, a4, a6, a7, a8⟩

/-- Witness of C18: `malloc(4)` on a heap of one free block of 24 bytes. -/
theorem first_fit_split_in_place_witness :
    WF splitState [4096]
    ∧ (∃ y ∈ freeBlocks splitState.mem [4096], 4 ≤ get_size splitState.mem y)
    ∧ ∃ l B r s', freeBlocks splitState.mem [4096] = l ++ B :: r
      ∧ (∀ y ∈ l, get_size splitState.mem y < 4) ∧ 4 ≤ get_size splitState.mem B
      ∧ (∀ y ∈ freeBlocks splitState.mem [4096], 4 ≤ get_size splitState.mem y → B ≤ y)
      ∧ malloc splitState 4 = some (B + METADATA_SIZE, s') ∧ s'.brk = splitState.brk
      ∧ (4 + METADATA_SIZE ≤ get_size splitState.mem B →
          get_isUsed s'.mem B = 1 ∧ get_size s'.mem B = 4
          ∧ get_isUsed s'.mem (B + METADATA_SIZE + 4) = 0
          ∧ get_size s'.mem (B + METADATA_SIZE + 4)
              = get_size splitState.mem B - 4 - METADATA_SIZE
          ∧ get_nextFree s'.mem (B + METADATA_SIZE + 4) = get_nextFree splitState.mem B
          ∧ chain s'.mem s'.free_head (l ++ (B + METADATA_SIZE + 4) :: r) 0
          ∧ (∀ y ∈ l ++ r, get_size s'.mem y = get_size splitState.mem y
              ∧ get_isUsed s'.mem y = get_isUsed splitState.mem y
              ∧ (y ≠ l.getLast?.getD 0 →
                  get_nextFree s'.mem y = get_nextFree splitState.mem y))) :=
  ⟨splitState_wf, ⟨4096, by decide, by decide⟩,
    first_fit_split_in_place splitState [4096] 4 splitState_wf ⟨4096, by decide, by decide⟩⟩

/-- C19 (as stated, refuted): in `splitState` the free block has size 24;
`malloc(8)` splits it, and the free block created by the split, at 4120, has
size 0. -/
theorem split_leaves_empty_block :
    WF splitState [4096]
    ∧ (malloc splitState 8).map (fun r => (r.1, get_size r.2.mem 4096, r.2.free_head,
        get_isUsed r.2.mem 4120, get_size r.2.mem 4120, r.2.brk))
      = some (4112, 8, 4120, 0, 0, 4136) :=
  ⟨⟨by decide, by decide, by decide, by decide, by decide, by decide, by decide⟩, by decide⟩

/-- C19 (amended): on a well-formed state, when `malloc(size)` is served by the
free block `B`, it splits `B` exactly when `B.size >= size + METADATA_SIZE`; the
free block created by the split has size `B.size - size - METADATA_SIZE`, which
is zero when `B.size = size + METADATA_SIZE`; a block with
`B.size < size + METADATA_SIZE` is handed out whole, with its size. -/
theorem split_remainder_size (s : State) (bs : List Nat) (size : Nat) (hwf : WF s bs)
    (hfit : ∃ y ∈ freeBlocks s.mem bs, size ≤ get_size s.mem y) :
    ∃ B s', B ∈ freeBlocks s.mem bs ∧ size ≤ get_size s.mem B
      ∧ malloc s size = some (B + METADATA_SIZE, s')
      ∧ (size + METADATA_SIZE ≤ get_size s.mem B →
          get_size s'.mem B = size
          ∧ get_isUsed s'.mem (B + METADATA_SIZE + size) = 0
          ∧ get_size s'.mem (B + METADATA_SIZE + size)
              = get_size s.mem B - (size + METADATA_SIZE))
      ∧ (get_size s.mem B < size + METADATA_SIZE →
          get_size s'.mem B = get_size s.mem B ∧ get_isUsed s'.mem B = 1) := by
  obtain ⟨y0, hy0, hy0s⟩ := hfit
  rcases first_fit_split s.mem size (freeBlocks s.mem bs) with hall | ⟨l, B, r, hfl, hl, hB⟩
  · exact absurd (hall y0 hy0) (by omega)
  obtain ⟨s', he, _, _, _, h1, h2⟩ := malloc_hit_spec hwf hfl hl hB
  refine ⟨B, s', by rw [hfl]; simp, hB, he, ?_, ?_⟩
  · intro hsplit
    obtain ⟨a1, _, _, a4, a5, _⟩ := h1 hsplit
    refine ⟨a1, a5, ?_⟩
    show get_size s'.mem (B + 16 + size) = get_size s.mem B - (size + 16)
    rw [a4]; omega
  · intro hw
    exact ⟨(h2 hw).1, (h2 hw).2.1⟩

/-- Witness of C19 (amended): `malloc(8)` on a heap of one free block of 24
bytes. -/
theorem split_remainder_size_witness :
    WF splitState [4096]
    ∧ (∃ y ∈ freeBlocks splitState.mem [4096], 8 ≤ get_size splitState.mem y)
    ∧ ∃ B s', B ∈ freeBlocks splitState.mem [4096] ∧ 8 ≤ get_size splitState.mem B
      ∧ malloc splitState 8 = some (B + METADATA_SIZE, s')
      ∧ (8 + METADATA_SIZE ≤ get_size splitState.mem B →
          get_size s'.mem B = 8
          ∧ get_isUsed s'.mem (B + METADATA_SIZE + 8) = 0
          ∧ get_size s'.mem (B + METADATA_SIZE + 8)
              = get_size splitState.mem B - (8 + METADATA_SIZE))
      ∧ (get_size splitState.mem B < 8 + METADATA_SIZE →
          get_size s'.mem B = get_size splitState.mem B ∧ get_isUsed s'.mem B = 1) :=
  ⟨splitState_wf, ⟨4096, by decide, by decide⟩,
    split_remainder_size splitState [4096] 8 splitState_wf ⟨4096, by decide, by decide⟩⟩

/-! ## Lemmas: `free` returns and keeps the flag of the released block -/

theorem free_merge_prev_keeps {s : State} {b c : Nat} (csz : Nat)
    (hb1 : s.base ≤ b) (hb2 : b + 16 ≤ s.brk) (hc1 : s.base ≤ c) (hc2 : c + 16 ≤ s.brk)
    (hcb : c + 16 ≤ b ∨ b + 16 ≤ c)
    (hn : get_nextFree s.mem c = 0 ∨
      (s.base ≤ get_nextFree s.mem c ∧ get_nextFree s.mem c + 16 ≤ s.brk)) :
    ∃ s', free_merge_prev s b c csz = some s' ∧ s'.base = s.base ∧ s'.brk = s.brk
      ∧ s'.mem (b + 4) = s.mem (b + 4) := by
  obtain ⟨so, fh, base, brk, lim, m⟩ := s
  dsimp only at hb1 hb2 hc1 hc2 hn ⊢
  unfold get_nextFree at hn
  unfold free_merge_prev
  by_cases h0 : load m (c + 8) 8 = 0
  · repeat (first
      | simp only [METADATA_SIZE, h0, if_true, Option.some_bind,
          bind_rd hb1 (show b + 4 ≤ brk by omega),
          bind_wr hc1 (show c + 4 ≤ brk by omega),
          bind_rd (show base ≤ c + 8 by omega) (show c + 8 + 8 ≤ brk by omega)]
      | simp (disch := omega) only [load_store_disj])
    exact ⟨_, rfl, rfl, rfl, by dsimp only; simp (disch := omega) only [store_out]⟩
  · have hnr := hn.resolve_left h0
    repeat (first
      | simp only [METADATA_SIZE, h0, if_false, Option.some_bind,
          bind_rd hb1 (show b + 4 ≤ brk by omega),
          bind_rd hc1 (show c + 4 ≤ brk by omega),
          bind_wr hc1 (show c + 4 ≤ brk by omega),
          bind_rd (show base ≤ c + 8 by omega) (show c + 8 + 8 ≤ brk by omega),
          bind_rd hnr.1 (show load m (c + 8) 8 + 4 ≤ brk by omega),
          bind_rd (show base ≤ load m (c + 8) 8 + 8 by omega)
            (show load m (c + 8) 8 + 8 + 8 ≤ brk by omega),
          wr_eq (show base ≤ c + 8 by omega) (show c + 8 + 8 ≤ brk by omega)]
      | simp (disch := omega) only [load_store_disj])
    split_ifs
    all_goals
      exact ⟨_, rfl, rfl, rfl, by dsimp only; simp (disch := omega) only [store_out]⟩

theorem free_between_keeps {s : State} {b c nxt : Nat}
    (hb1 : s.base ≤ b) (hb2 : b + 16 ≤ s.brk) (hc1 : s.base ≤ c) (hc2 : c + 16 ≤ s.brk)
    (hcb : c + 16 ≤ b ∨ b + 16 ≤ c) (hnx : get_nextFree s.mem c = nxt)
    (hn1 : s.base ≤ nxt) (hn2 : nxt + 16 ≤ s.brk) :
    ∃ s', free_between s b c nxt = some s' ∧ s'.base = s.base ∧ s'.brk = s.brk
      ∧ s'.mem (b + 4) = s.mem (b + 4) := by
  obtain ⟨so, fh, base, brk, lim, m⟩ := s
  dsimp only at hb1 hb2 hc1 hc2 hnx hn1 hn2 ⊢
  unfold get_nextFree at hnx
  unfold free_between
  repeat (first
    | simp only [METADATA_SIZE, hnx, Option.some_bind,
        bind_rd hb1 (show b + 4 ≤ brk by omega),
        bind_wr hb1 (show b + 4 ≤ brk by omega),
        bind_rd hn1 (show nxt + 4 ≤ brk by omega),
        bind_rd (show base ≤ c + 8 by omega) (show c + 8 + 8 ≤ brk by omega),
        bind_rd (show base ≤ nxt + 8 by omega) (show nxt + 8 + 8 ≤ brk by omega),
        bind_wr (show base ≤ b + 8 by omega) (show b + 8 + 8 ≤ brk by omega),
        wr_eq (show base ≤ c + 8 by omega) (show c + 8 + 8 ≤ brk by omega)]
    | simp (disch := omega) only [load_store_disj])
  split_ifs
  all_goals
    exact ⟨_, rfl, rfl, rfl, by dsimp only; simp (disch := omega) only [store_out]⟩

theorem free_before_head_keeps {s : State} {b : Nat}
    (hb1 : s.base ≤ b) (hb2 : b + 16 ≤ s.brk) (hf1 : s.base ≤ s.free_head)
    (hf2 : s.free_head + 16 ≤ s.brk) :
    ∃ s', free_before_head s b = some s' ∧ s'.base = s.base ∧ s'.brk = s.brk
      ∧ s'.mem (b + 4) = s.mem (b + 4) := by
  obtain ⟨so, fh, base, brk, lim, m⟩ := s
  dsimp only at hb1 hb2 hf1 hf2 ⊢
  unfold free_before_head
  repeat (first
    | simp only [METADATA_SIZE, Option.some_bind,
        bind_rd hb1 (show b + 4 ≤ brk by omega),
        bind_wr hb1 (show b + 4 ≤ brk by omega),
        bind_rd hf1 (show fh + 4 ≤ brk by omega),
        bind_rd (show base ≤ fh + 8 by omega) (show fh + 8 + 8 ≤ brk by omega),
        bind_wr (show base ≤ b + 8 by omega) (show b + 8 + 8 ≤ brk by omega)]
    | simp (disch := omega) only [load_store_disj])
  split_ifs
  all_goals
    exact ⟨_, rfl, rfl, rfl, by dsimp only; simp (disch := omega) only [store_out]⟩

/-- The loop of `free` over a null-terminated list of mapped headers that do
not overlap the header of the released block returns. -/
theorem free_loop_keeps {s : State} {b : Nat} (hb1 : s.base ≤ b) (hb2 : b + 16 ≤ s.brk) :
    ∀ (L : List Nat) (h fuel : Nat), chain s.mem h L 0 →
      (∀ y ∈ L, s.base ≤ y ∧ y + 16 ≤ s.brk ∧ (y + 16 ≤ b ∨ b + 16 ≤ y)) →
      L.length < fuel →
      ∃ s', free_loop b fuel s h = some s' ∧ s'.base = s.base ∧ s'.brk = s.brk
        ∧ s'.mem (b + 4) = s.mem (b + 4) := by
  intro L
  induction L with
  | nil =>
    intro h fuel hc _ hf
    have h0 : h = 0 := hc
    obtain ⟨f, rfl⟩ : ∃ f, fuel = f + 1 := ⟨fuel - 1, by simp at hf; omega⟩
    exact ⟨s, by rw [free_loop, if_pos h0], rfl, rfl, rfl⟩
  | cons y L ih =>
    intro h fuel hc hv hf
    obtain ⟨h1, h0, hc'⟩ := hc
    subst h1
    obtain ⟨f, rfl⟩ : ∃ f, fuel = f + 1 := ⟨fuel - 1, by simp at hf; omega⟩
    have hy := hv h (List.mem_cons_self _ _)
    have hnext : get_nextFree s.mem h = 0 ∨
        (s.base ≤ get_nextFree s.mem h ∧ get_nextFree s.mem h + 16 ≤ s.brk) := by
      cases L with
      | nil => left; exact hc'
      | cons z L' =>
        right
        have hz := hv z (List.mem_cons_of_mem _ (List.mem_cons_self _ _))
        have e : get_nextFree s.mem h = z := hc'.1
        rw [e]; exact ⟨hz.1, hz.2.1⟩
    rw [free_loop, if_neg h0]
    simp only [bind_rd hy.1 (show h + 4 ≤ s.brk by omega)]
    split_ifs with hA
    · exact free_merge_prev_keeps _ hb1 hb2 hy.1 hy.2.1 hy.2.2 hnext
    · simp only [bind_rd (show s.base ≤ h + 8 by omega) (show h + 8 + 8 ≤ s.brk by omega)]
      split_ifs with hB hC
      · have hnr := hnext.resolve_left hB.1
        exact free_between_keeps hb1 hb2 hy.1 hy.2.1 hy.2.2 rfl hnr.1 hnr.2
      · obtain ⟨so, fh, base, brk, lim, m⟩ := s
        dsimp only at hy ⊢
        rw [wr_eq (show base ≤ h + 8 by omega) (show h + 8 + 8 ≤ brk by omega)]
        exact ⟨_, rfl, rfl, rfl, by dsimp only; simp (disch := omega) only [store_out]⟩
      · exact ih _ f hc' (fun z hz => hv z (List.mem_cons_of_mem _ hz))
          (by simp at hf; omega)

theorem used_of_byte {m m' : Mem} {b : Nat} (h : m' (b + 4) = m (b + 4)) :
    get_isUsed m' b = get_isUsed m b :=
  load_congr (fun z h1 h2 => by
    have : z = b + 4 := by omega
    rw [this]; exact h)

/-- On a well-formed state `free` of a used block returns, whatever the sizes,
and leaves the block with `isUsed = 0`. -/
theorem free_returns {s : State} {bs : List Nat} {b : Nat} (hwf : WF s bs) (hb : b ∈ bs)
    (hu : get_isUsed s.mem b ≠ 0) :
    ∃ s', free s (b + METADATA_SIZE) = some s' ∧ s'.base = s.base ∧ s'.brk = s.brk
      ∧ get_isUsed s'.mem b = 0 := by
  have hbv := WF_block_valid hwf hb
  have hlim := hwf.limit_ok
  have hb2 : b + 16 ≤ s.brk := by omega
  have hz : get_isUsed (store s.mem (b + 4) 1 0) b = 0 := used_store_used _ _ _ (by norm_num)
  rw [free_exec_start hbv.2.1 hb2 (by norm_num at hlim ⊢; omega) hu]
  have hval : ∀ y ∈ freeBlocks s.mem bs,
      s.base ≤ y ∧ y + 16 ≤ s.brk ∧ (y + 16 ≤ b ∨ b + 16 ≤ y) := by
    intro y hy
    obtain ⟨hy1, hy2⟩ := mem_freeBlocks.1 hy
    have h1 := WF_block_valid hwf hy1
    have hne : y ≠ b := fun e => hu (e ▸ hy2)
    have := tiles_sep hwf.tiled y hy1 b hb hne
    omega
  by_cases hfh : s.free_head = 0
  · rw [if_pos hfh]
    exact ⟨_, rfl, rfl, rfl, hz⟩
  rw [if_neg hfh]
  have hne : freeBlocks s.mem bs ≠ [] := by
    intro e
    have := hwf.flist
    rw [e] at this
    exact hfh this
  have hhead := hval _ (chain_head_mem hwf.flist hne).1
  by_cases hlt : b < s.free_head
  · rw [if_pos hlt]
    obtain ⟨s', he, h1, h2, h3⟩ :=
      @free_before_head_keeps { s with mem := store s.mem (b + 4) 1 0 } b hbv.2.1 hb2
        hhead.1 hhead.2.1
    exact ⟨s', he, h1, h2, by rw [used_of_byte h3]; exact hz⟩
  · rw [if_neg hlt]
    have hlen : (freeBlocks s.mem bs).length ≤ bs.length := List.length_filter_le _ _
    have htl := tiles_length hwf.tiled
    have hst := hwf.start_ok
    obtain ⟨s', he, h1, h2, h3⟩ :=
      @free_loop_keeps { s with mem := store s.mem (b + 4) 1 0 } b hbv.2.1 hb2
        (freeBlocks s.mem bs) s.free_head (loop_fuel { s with mem := store s.mem (b + 4) 1 0 })
        (chain_congr (fun y hy => (hdr_frame (by have := hval y hy; omega)).2.2) hwf.flist)
        hval (by unfold loop_fuel; dsimp only; omega)
    exact ⟨s', he, h1, h2, by rw [used_of_byte h3]; exact hz⟩

/-- C11: `free(p)` on a pointer whose header is mapped and has `isUsed = 0`
returns and leaves the state as it is; on a well-formed state `free(p)` of a
live pointer returns, and a second `free(p)` returns and leaves the state of
the first. -/
theorem double_free_noop :
    (∀ (s : State) (p : Nat), s.base ≤ hdr_of p → hdr_of p + METADATA_SIZE ≤ s.brk →
        get_isUsed s.mem (hdr_of p) = 0 → free s p = some s)
    ∧ (∀ (s : State) (bs : List Nat) (p : Nat), WF s bs → live s bs p →
        ∃ s1, free s p = some s1 ∧ free s1 p = some s1) := by
  have hnoop : ∀ (s : State) (p : Nat), s.base ≤ hdr_of p → hdr_of p + METADATA_SIZE ≤ s.brk →
      get_isUsed s.mem (hdr_of p) = 0 → free s p = some s := by
    intro s p h1 h2 h3
    unfold METADATA_SIZE at h2
    have h3' : load s.mem (hdr_of p + 4) 1 = 0 := h3
    unfold free
    simp only [bind_rd (show s.base ≤ hdr_of p + 4 by omega)
      (show hdr_of p + 4 + 1 ≤ s.brk by omega), h3', if_true]
  refine ⟨hnoop, ?_⟩
  intro s bs p hwf hp
  obtain ⟨b, hb, hpb, hu, hhdr⟩ := live_hdr hwf hp
  obtain ⟨s1, he, h1, h2, h3⟩ := free_returns hwf hb hu
  have hbv := WF_block_valid hwf hb
  rw [hpb]
  refine ⟨s1, he, ?_⟩
  rw [← hpb]
  apply hnoop
  · rw [hhdr, h1]; exact hbv.2.1
  · rw [hhdr, h2]; unfold METADATA_SIZE; omega
  · rw [hhdr]; exact h3

/-- Witness of C11 on a heap of two 8-byte blocks, the first one free and the
second one used. -/
theorem double_free_noop_witness :
    free smallState 4112 = some smallState
    ∧ ∃ s1, free smallState 4136 = some s1 ∧ free s1 4136 = some s1 :=
  ⟨double_free_noop.1 smallState 4112 (by decide) (by decide) (by decide),
    double_free_noop.2 smallState [4096, 4120] 4136 smallState_wf smallPtr_live⟩

end CustomMalloc
